import Mathlib

/-!
# dcl_store: the index, the store, the replicator and the server of the commit log

A shallow embedding of `internal/log/index.go`, `internal/log/store.go`,
`internal/log/replicator.go`, `internal/server/log.go` and `internal/server/server.go`, with
the parts of `os`, `bufio`, `encoding/binary` and `gommap` that they call.

* Bytes are natural numbers below 256, byte slices and file contents are lists of bytes.
* `uint32` / `uint64` values are natural numbers; every machine operation that can wrap is
  written with an explicit reduction modulo `2^32` / `2^64`.
* A Go function body either returns or panics (slice bounds out of range, `make` with a
  length that the runtime does not allocate); `Go α` records which.
* `error` results are values of `GoError` (package `server`: `server.Error`); `none` is the
  `nil` error.
* Channels and goroutines are kept in a `Runtime`: which channels exist and which are
  closed, and which goroutines have been started. What runs concurrently with a method
  (the pumps of the replicator, the other users of a log, the client of a stream) is not
  executed; where a method depends on it, it is an input of the method.
-/

namespace DclStore

/-! ## Go runtime -/

/-- Outcome of running a Go function body: a runtime panic, or a normal return. -/
inductive Go (α : Type) where
  | panic : Go α
  | ret : α → Go α
  deriving DecidableEq

/-- Error values that the modelled code can return. -/
inductive GoError where
  /-- The `io.EOF` value. -/
  | EOF
  /-- Use of a closed `*os.File` (`os.ErrClosed`). -/
  | ErrClosed
  /-- An invalid argument (`EINVAL`): a negative size or a negative offset. -/
  | ErrInvalid
  /-- The `io.ErrShortWrite` value. -/
  | ErrShortWrite
  deriving DecidableEq

/-- Truncation of a value to `uint32`. -/
def u32 (n : Nat) : Nat := n % 2 ^ 32

/-- Truncation of a value to `uint64`. -/
def u64 (n : Nat) : Nat := n % 2 ^ 64

/-- The conversion `int64(x)` of a `uint64` value `x`. -/
def toInt64 (x : Nat) : Int :=
  if u64 x < 2 ^ 63 then (u64 x : Int) else (u64 x : Int) - 2 ^ 64

/-- The conversion `uint32(n)` of an `int64` value `n`: the low 32 bits. -/
def int64ToU32 (n : Int) : Nat := (n % 2 ^ 32).toNat

/-- The slice expression `m[lo:hi]` on a slice whose capacity equals its length. -/
def sliceOf (m : List Nat) (lo hi : Nat) : Go (List Nat) :=
  if lo ≤ hi ∧ hi ≤ m.length then Go.ret ((m.drop lo).take (hi - lo)) else Go.panic

/-- Storing the bytes `bs` at the start of the slice `m[lo:hi]`, which aliases `m`:
the result is the new content of `m`. Panics when the slice expression does, or when
the slice is shorter than `bs`. -/
def putSlice (m : List Nat) (lo hi : Nat) (bs : List Nat) : Go (List Nat) :=
  if lo ≤ hi ∧ hi ≤ m.length ∧ bs.length ≤ hi - lo then
    Go.ret (m.take lo ++ bs ++ m.drop (lo + bs.length))
  else Go.panic

/-! ## `encoding/binary`, big endian (`enc = binary.BigEndian`) -/

/-- The four bytes that `enc.PutUint32(b, v)` stores in `b[0..3]`. -/
def enc.PutUint32 (v : Nat) : List Nat :=
  [v / 2 ^ 24 % 256, v / 2 ^ 16 % 256, v / 2 ^ 8 % 256, v % 256]

/-- The eight bytes that `enc.PutUint64(b, v)` stores in `b[0..7]`. -/
def enc.PutUint64 (v : Nat) : List Nat :=
  [v / 2 ^ 56 % 256, v / 2 ^ 48 % 256, v / 2 ^ 40 % 256, v / 2 ^ 32 % 256,
   v / 2 ^ 24 % 256, v / 2 ^ 16 % 256, v / 2 ^ 8 % 256, v % 256]

/-- The function `enc.Uint32(b)`: reads `b[0..3]`, panics on a shorter slice. -/
def enc.Uint32 (b : List Nat) : Go Nat :=
  match b with
  | b0 :: b1 :: b2 :: b3 :: _ => Go.ret (b3 + b2 * 2 ^ 8 + b1 * 2 ^ 16 + b0 * 2 ^ 24)
  | _ => Go.panic

/-- The function `enc.Uint64(b)`: reads `b[0..7]`, panics on a shorter slice. -/
def enc.Uint64 (b : List Nat) : Go Nat :=
  match b with
  | b0 :: b1 :: b2 :: b3 :: b4 :: b5 :: b6 :: b7 :: _ =>
      Go.ret (b7 + b6 * 2 ^ 8 + b5 * 2 ^ 16 + b4 * 2 ^ 24 + b3 * 2 ^ 32 + b2 * 2 ^ 40
        + b1 * 2 ^ 48 + b0 * 2 ^ 56)
  | _ => Go.panic

/-! ## Files -/

/-- An open-file handle together with the content of the file it names. -/
structure OsFile where
  /-- The bytes of the file. -/
  data : List Nat
  /-- Whether `Close` has been called on the handle. -/
  closed : Bool
  deriving DecidableEq

/-- The effect of `truncate(2)` on a file content: cut, or extend with zero bytes. -/
def truncateData (d : List Nat) (n : Nat) : List Nat :=
  d.take n ++ List.replicate (n - d.length) 0

/-- A fresh handle on an existing file, as `os.OpenFile(name, os.O_RDWR, _)` returns. -/
def OsFile.reopen (f : OsFile) : OsFile := { data := f.data, closed := false }

/-- The method `(*os.File).Write(b)`; the result is the file, the count written and the
error. Modelled from the spec: the function that opens the file of a store (`newSegment`) is
missing; the spec calls the store an append-only byte file, so a write lands at the end of
the file (the file is opened with `O_APPEND`). The only failure kept is the write on a
closed handle; a handle that is open but refuses the write (not opened for writing, device
full) is not represented, so what is proved of a store whatever its file does is stated
for the calls that return a nil error, and an open handle stands for a file that takes
every write and every read. -/
def OsFile.Write (f : OsFile) (b : List Nat) : OsFile × Nat × Option GoError :=
  if f.closed then (f, 0, some GoError.ErrClosed)
  else ({ f with data := f.data ++ b }, b.length, none)

/-- The method `(*os.File).ReadAt(b, off)` for a buffer `b` of length `n`: the bytes read
and the error. A negative offset is refused first, an empty buffer reads nothing (also on a
closed handle), a read that meets the end of the file returns what is there and `io.EOF`. -/
def OsFile.ReadAt (f : OsFile) (n : Nat) (off : Int) : List Nat × Option GoError :=
  if off < 0 then ([], some GoError.ErrInvalid)
  else if n = 0 then ([], none)
  else if f.closed then ([], some GoError.ErrClosed)
  else if off.toNat + n ≤ f.data.length then ((f.data.drop off.toNat).take n, none)
  else ((f.data.drop off.toNat).take n, some GoError.EOF)

/-- The method `(*os.File).Close`. -/
def OsFile.Close (f : OsFile) : OsFile × Option GoError :=
  if f.closed then (f, some GoError.ErrClosed) else ({ f with closed := true }, none)

/-! ## `bufio.Writer` -/

/-- The buffer size of `bufio.NewWriter`. -/
def defaultBufSize : Nat := 4096

/-- A `bufio.Writer`: its sticky error `err` and the buffered bytes `buf[0:n]`. The
underlying writer `wr` is the file of the store, which the methods take and return. -/
structure Writer where
  err : Option GoError
  buf : List Nat
  deriving DecidableEq

/-- The method `Available`: the unused bytes of the buffer. -/
def Writer.Available (b : Writer) : Nat := defaultBufSize - b.buf.length

/-- The method `Buffered`: the bytes written into the buffer. -/
def Writer.Buffered (b : Writer) : Nat := b.buf.length

/-- The method `(*bufio.Writer).Flush`. -/
def Writer.Flush (b : Writer) (wr : OsFile) : Writer × OsFile × Option GoError :=
  match b.err with
  | some e => (b, wr, some e)
  | none =>
    if b.Buffered = 0 then (b, wr, none)
    else
      match wr.Write b.buf with
      | (wr1, n, err) =>
        match (if n < b.Buffered ∧ err = none then some GoError.ErrShortWrite else err) with
        | some e => ({ err := some e, buf := b.buf.drop n }, wr1, some e)
        | none => ({ b with buf := [] }, wr1, none)

/-- The method `(*bufio.Writer).Write(p)`; the result is the writer, the file, the count
`nn` and the error. The loop `for len(p) > b.Available() && b.err == nil` of the Go source
runs at most twice (a round that fills and flushes the buffer, then a round that writes the
rest directly), because a write to the file is complete or fails; it is written out here. -/
def Writer.Write (b : Writer) (wr : OsFile) (p : List Nat) :
    Writer × OsFile × Nat × Option GoError :=
  match b.err with
  | some e => (b, wr, 0, some e)
  | none =>
    if p.length ≤ b.Available then ({ b with buf := b.buf ++ p }, wr, p.length, none)
    else if b.Buffered = 0 then
      match wr.Write p with
      | (wr1, n, some e) => ({ b with err := some e }, wr1, n, some e)
      | (wr1, n, none) => (b, wr1, n, none)
    else
      match Writer.Flush { b with buf := b.buf ++ p.take b.Available } wr with
      | (b2, wr1, some e) => (b2, wr1, b.Available, some e)
      | (b2, wr1, none) =>
        if (p.drop b.Available).length ≤ b2.Available then
          ({ b2 with buf := b2.buf ++ p.drop b.Available }, wr1,
            b.Available + (p.drop b.Available).length, none)
        else
          match wr1.Write (p.drop b.Available) with
          | (wr2, m, some e) => ({ b2 with err := some e }, wr2, b.Available + m, some e)
          | (wr2, m, none) => (b2, wr2, b.Available + m, none)

/-- Modelled from the spec: the declaration of `Config` is missing; these are the segment
options the spec lists and the tests set. -/
structure SegmentConfig where
  MaxStoreBytes : Nat
  MaxIndexBytes : Nat
  InitialOffset : Nat

/-- Modelled from the spec: the declaration of `Config` is missing (see `SegmentConfig`). -/
structure Config where
  Segment : SegmentConfig

/-! ## index.go -/

/-- The number of bytes used for the offset of an index entry. -/
def offWidth : Nat := 4

/-- The number of bytes used for the store position of an index entry. -/
def posWidth : Nat := 8

/-- The number of bytes of one index entry. -/
def entWidth : Nat := offWidth + posWidth

/-- The `index` struct. The mapping is `MAP_SHARED`: `mmap` is the content of the mapped
file, and it is written back to `file` by `Close`. -/
structure index where
  file : OsFile
  mmap : List Nat
  size : Nat
  deriving DecidableEq

/-- The function `newIndex(f, c)`. `os.Stat` gives the length of the file, `os.Truncate`
fails on a negative size, `gommap.Map` fails on a closed descriptor and on an empty file
(`mmap(2)` refuses a length of 0), and maps the whole (resized) file. -/
def newIndex (f : OsFile) (c : Config) : Except GoError index :=
  let size := u64 f.data.length
  if toInt64 c.Segment.MaxIndexBytes < 0 then Except.error GoError.ErrInvalid
  else
    let d := truncateData f.data (toInt64 c.Segment.MaxIndexBytes).toNat
    if f.closed then Except.error GoError.ErrClosed
    else if d.length = 0 then Except.error GoError.ErrInvalid
    else Except.ok { file := { f with data := d }, mmap := d, size := size }

/-- The method `(*index).Close`: sync the mapping to the file, truncate the file to `size`,
close the handle. Returns the index after the call and the error. -/
def index.Close (i : index) : index × Option GoError :=
  let synced : OsFile := { i.file with data := i.mmap }
  if i.file.closed then ({ i with file := synced }, some GoError.ErrClosed)
  else if toInt64 i.size < 0 then ({ i with file := synced }, some GoError.ErrInvalid)
  else
    ({ i with file := { data := truncateData i.mmap (toInt64 i.size).toNat, closed := true } },
      none)

/-- The method `(*index).Read(in)`; the result is `(out, pos, err)`. -/
def index.Read (i : index) (n : Int) : Go (Nat × Nat × Option GoError) :=
  if i.size = 0 then Go.ret (0, 0, some GoError.EOF)
  else
    let out : Nat :=
      if n = -1 then u32 (u64 (i.size / entWidth + 2 ^ 64 - 1)) else int64ToU32 n
    let pos : Nat := u64 (out * entWidth)
    if i.size < u64 (pos + entWidth) then Go.ret (0, 0, some GoError.EOF)
    else
      match sliceOf i.mmap pos (u64 (pos + offWidth)) with
      | Go.panic => Go.panic
      | Go.ret b1 =>
        match enc.Uint32 b1 with
        | Go.panic => Go.panic
        | Go.ret out1 =>
          match sliceOf i.mmap (u64 (pos + offWidth)) (u64 (pos + entWidth)) with
          | Go.panic => Go.panic
          | Go.ret b2 =>
            match enc.Uint64 b2 with
            | Go.panic => Go.panic
            | Go.ret pos1 => Go.ret (out1, pos1, none)

/-- The method `(*index).Write(off, pos)`; the result is the index after the call and the
returned error. -/
def index.Write (i : index) (off pos : Nat) : Go (index × Option GoError) :=
  if i.mmap.length < u64 (i.size + entWidth) then Go.ret (i, some GoError.EOF)
  else
    match putSlice i.mmap i.size (u64 (i.size + offWidth)) (enc.PutUint32 off) with
    | Go.panic => Go.panic
    | Go.ret m1 =>
      match putSlice m1 (u64 (i.size + offWidth)) (u64 (i.size + entWidth))
          (enc.PutUint64 pos) with
      | Go.panic => Go.panic
      | Go.ret m2 => Go.ret ({ i with mmap := m2, size := u64 (i.size + entWidth) }, none)

/-- A sequence of `Write` calls, whatever each returns; a panic ends the run. -/
def index.Writes (i : index) : List (Nat × Nat) → Go index
  | [] => Go.ret i
  | (off, pos) :: ws =>
    match i.Write off pos with
    | Go.panic => Go.panic
    | Go.ret (i1, _) => index.Writes i1 ws

/-! ## store.go -/

/-- The number of bytes of the length that precedes every record of the store. -/
def lenWidth : Nat := 8

/-- The `store` struct: the embedded `*os.File`, the `bufio.Writer` over the same file, and
`size`. (The mutex serialises the methods; each method below is one critical section.) -/
structure store where
  File : OsFile
  buf : Writer
  size : Nat
  deriving DecidableEq

/-- The function `newStore(f)`. -/
def newStore (f : OsFile) : Except GoError store :=
  Except.ok { File := f, size := u64 f.data.length, buf := { err := none, buf := [] } }

/-- The method `(*store).Append(p)`; the result is the store after the call and
`(n, pos, err)`. The call `binary.Write(s.buf, enc, uint64(len(p)))` is one
`s.buf.Write` of the eight bytes of `enc.PutUint64`. -/
def store.Append (s : store) (p : List Nat) : store × Nat × Nat × Option GoError :=
  match s.buf.Write s.File (enc.PutUint64 (u64 p.length)) with
  | (b1, f1, _, some e) => ({ s with File := f1, buf := b1 }, 0, 0, some e)
  | (b1, f1, _, none) =>
    match b1.Write f1 p with
    | (b2, f2, _, some e) => ({ s with File := f2, buf := b2 }, 0, 0, some e)
    | (b2, f2, w, none) =>
      ({ File := f2, buf := b2, size := u64 (s.size + u64 (w + lenWidth)) },
        u64 (w + lenWidth), s.size, none)

/-- The largest number of bytes that the Go runtime allocates in one piece (`maxAlloc` of
package `runtime`): `2^48` on 64-bit Linux. No byte slice is longer. -/
def maxAlloc : Nat := 2 ^ 48

/-- The method `(*store).Read(pos)`; the result is the store after the call and either the
error (with a nil slice) or the record. `make([]byte, n)` panics (`makeslice: len out of
range`) when `n` is above `maxAlloc`, which covers every `n` that does not fit an `int`. At
or below `maxAlloc` the allocation is taken to succeed: a process that has not got the
memory ends with a fatal error, which is no result of `Read`. -/
def store.Read (s : store) (pos : Nat) : Go (store × Except GoError (List Nat)) :=
  match s.buf.Flush s.File with
  | (b1, f1, some e) => Go.ret ({ s with File := f1, buf := b1 }, Except.error e)
  | (b1, f1, none) =>
    match f1.ReadAt lenWidth (toInt64 pos) with
    | (_, some e) => Go.ret ({ s with File := f1, buf := b1 }, Except.error e)
    | (size, none) =>
      match enc.Uint64 size with
      | Go.panic => Go.panic
      | Go.ret n =>
        if maxAlloc < n then Go.panic
        else
          match f1.ReadAt n (toInt64 (u64 (pos + lenWidth))) with
          | (_, some e) => Go.ret ({ s with File := f1, buf := b1 }, Except.error e)
          | (b, none) => Go.ret ({ s with File := f1, buf := b1 }, Except.ok b)

/-- The method `(*store).ReadAt(p, off)` for a buffer `p` of length `n`; the result is the
store after the call, the bytes read into `p` and the error. -/
def store.ReadAt (s : store) (n : Nat) (off : Int) : store × List Nat × Option GoError :=
  match s.buf.Flush s.File with
  | (b1, f1, some e) => ({ s with File := f1, buf := b1 }, [], some e)
  | (b1, f1, none) =>
    match f1.ReadAt n off with
    | (bs, err) => ({ s with File := f1, buf := b1 }, bs, err)

/-- The method `(*store).Close`. -/
def store.Close (s : store) : store × Option GoError :=
  match s.buf.Flush s.File with
  | (b1, f1, some e) => ({ s with File := f1, buf := b1 }, some e)
  | (b1, f1, none) =>
    match f1.Close with
    | (f2, err) => ({ s with File := f2, buf := b1 }, err)

/-- The bytes of the store: those of the file followed by those still in the buffer. -/
def store.content (s : store) : List Nat := s.File.data ++ s.buf.buf

/-- A run of `Append` calls that all return a nil error: the store after the run and the
`(n, pos)` of every call, in order; `none` when some call returned an error. -/
def store.Appends (s : store) : List (List Nat) → Option (store × List (Nat × Nat))
  | [] => some (s, [])
  | p :: ps =>
    match s.Append p with
    | (_, _, _, some _) => none
    | (s1, n, pos, none) =>
      match store.Appends s1 ps with
      | none => none
      | some (s2, rs) => some (s2, (n, pos) :: rs)

/-- The frame of a record in the words of the spec: the 8-byte big-endian encoding of its
length, followed by its bytes. -/
def specFrame (p : List Nat) : List Nat := enc.PutUint64 p.length ++ p

/-- The concatenation, in order, of the frames of the records. -/
def specFrames : List (List Nat) → List Nat
  | [] => []
  | p :: ps => specFrame p ++ specFrames ps

/-- The sum of `8 + len` over the records. -/
def specBytes : List (List Nat) → Nat
  | [] => 0
  | p :: ps => 8 + p.length + specBytes ps

/-- The `(n, pos)` that the spec gives for successive Appends to a store of size `base`:
`n = 8 + len`, and `pos` is `base` plus the `8 + len` of all earlier records. -/
def specResults (base : Nat) : List (List Nat) → List (Nat × Nat)
  | [] => []
  | p :: ps => (8 + p.length, base) :: specResults (base + (8 + p.length)) ps

/-! ## replicator.go -/

/-- What the methods of the `Replicator` use of the Go runtime: the channels made so far
(channel `c` is entry `c` of `chans`, `true` once it has been closed) and the goroutines
started by `go r.replicate(addr, leave)`, as `(addr, leave)`, in order. -/
structure Runtime where
  chans : List Bool
  pumps : List (String × Nat)
  deriving DecidableEq

/-- The call `make(chan struct{})`: the runtime with one more, open, channel, and that
channel. -/
def Runtime.makeChan (w : Runtime) : Runtime × Nat :=
  ({ w with chans := w.chans ++ [false] }, w.chans.length)

/-- The call `close(ch)`: panics on a nil channel and on a channel that is already
closed. -/
def Runtime.closeChan (w : Runtime) (ch : Option Nat) : Go Runtime :=
  match ch with
  | none => Go.panic
  | some c =>
    match w.chans[c]? with
    | some false => Go.ret { w with chans := w.chans.set c true }
    | _ => Go.panic

/-- The index expression `m[k]` with the comma-ok form on the entries of a map. -/
def entriesGet : List (String × Nat) → String → Option Nat
  | [], _ => none
  | (k, v) :: m, n => if k = n then some v else entriesGet m n

/-- The entries of a map without the key `n`. -/
def entriesDelete : List (String × Nat) → String → List (String × Nat)
  | [], _ => []
  | (k, v) :: m, n => if k = n then entriesDelete m n else (k, v) :: entriesDelete m n

/-- The index expression `m[k]` (comma-ok form) on a map that may be nil. -/
def mapGet (m : Option (List (String × Nat))) (n : String) : Option Nat :=
  match m with
  | none => none
  | some l => entriesGet l n

/-- The call `delete(m, k)`; a no-op on a nil map. -/
def mapDelete (m : Option (List (String × Nat))) (n : String) : Option (List (String × Nat)) :=
  match m with
  | none => none
  | some l => some (entriesDelete l n)

/-- The assignment `m[k] = v`; panics on a nil map. -/
def mapSet (m : Option (List (String × Nat))) (n : String) (v : Nat) :
    Go (Option (List (String × Nat))) :=
  match m with
  | none => Go.panic
  | some l => Go.ret (some (entriesDelete l n ++ [(n, v)]))

/-- The fields of the `Replicator` struct that `Join`, `Leave` and `Close` use: whether
`logger` is set, the map `servers` (possibly nil) from a name to its cancel channel, the
flag `closed`, and the channel `close` (possibly nil). -/
structure Replicator where
  logger : Bool
  servers : Option (List (String × Nat))
  closed : Bool
  close : Option Nat
  deriving DecidableEq

/-- The zero value of `Replicator`. -/
def Replicator.zero : Replicator :=
  { logger := false, servers := none, closed := false, close := none }

/-- The method `(*Replicator).init`. -/
def Replicator.init (r : Replicator) (w : Runtime) : Replicator × Runtime :=
  let r1 : Replicator := if r.logger = false then { r with logger := true } else r
  let r2 : Replicator := if r1.servers = none then { r1 with servers := some [] } else r1
  if r2.close = none then
    ({ r2 with close := some (w.makeChan).2 }, (w.makeChan).1)
  else (r2, w)

/-- The method `(*Replicator).Join(name, addr)`; the result is the replicator and the
runtime after the call, and the error. -/
def Replicator.Join (r : Replicator) (w : Runtime) (name addr : String) :
    Go (Replicator × Runtime × Option GoError) :=
  match r.init w with
  | (r1, w1) =>
    if r1.closed then Go.ret (r1, w1, none)
    else
      match mapGet r1.servers name with
      | some _ => Go.ret (r1, w1, none)
      | none =>
        match mapSet r1.servers name (w1.makeChan).2 with
        | Go.panic => Go.panic
        | Go.ret m =>
          match mapGet m name with
          | none => Go.panic
          | some leave =>
            Go.ret ({ r1 with servers := m },
              { (w1.makeChan).1 with pumps := (w1.makeChan).1.pumps ++ [(addr, leave)] }, none)

/-- The method `(*Replicator).Leave(name)`. -/
def Replicator.Leave (r : Replicator) (w : Runtime) (name : String) :
    Go (Replicator × Runtime × Option GoError) :=
  match r.init w with
  | (r1, w1) =>
    match mapGet r1.servers name with
    | none => Go.ret (r1, w1, none)
    | some ch =>
      match w1.closeChan (some ch) with
      | Go.panic => Go.panic
      | Go.ret w2 => Go.ret ({ r1 with servers := mapDelete r1.servers name }, w2, none)

/-- The method `(*Replicator).Close`. -/
def Replicator.Close (r : Replicator) (w : Runtime) :
    Go (Replicator × Runtime × Option GoError) :=
  match r.init w with
  | (r1, w1) =>
    if r1.closed then Go.ret (r1, w1, none)
    else
      match w1.closeChan r1.close with
      | Go.panic => Go.panic
      | Go.ret w2 => Go.ret ({ r1 with closed := true }, w2, none)

/-- A call of one of the three methods. -/
inductive ReplicatorCall where
  | Join (name addr : String)
  | Leave (name : String)
  | Close
  deriving DecidableEq

/-- One call on a replicator. -/
def Replicator.call (r : Replicator) (w : Runtime) :
    ReplicatorCall → Go (Replicator × Runtime × Option GoError)
  | ReplicatorCall.Join name addr => r.Join w name addr
  | ReplicatorCall.Leave name => r.Leave w name
  | ReplicatorCall.Close => r.Close w

/-- A sequence of calls on a replicator; a panic ends the run. -/
def Replicator.run (r : Replicator) (w : Runtime) : List ReplicatorCall → Go (Replicator × Runtime)
  | [] => Go.ret (r, w)
  | c :: cs =>
    match r.call w c with
    | Go.panic => Go.panic
    | Go.ret (r1, w1, _) => Replicator.run r1 w1 cs

/-- The states of a replicator and its runtime in which the methods keep it: every cancel
channel of the table exists and is open, no two names share a cancel channel, and the
channel `close` exists, is open as long as `closed` is false, and is not a cancel channel. -/
def Replicator.wf (r : Replicator) (w : Runtime) : Prop :=
  (∀ n ch, mapGet r.servers n = some ch → w.chans[ch]? = some false)
  ∧ (∀ n1 n2 ch, mapGet r.servers n1 = some ch → mapGet r.servers n2 = some ch → n1 = n2)
  ∧ (∀ c, r.close = some c →
      c < w.chans.length ∧ (r.closed = false → w.chans[c]? = some false)
      ∧ ∀ n, mapGet r.servers n ≠ some c)

/-- The states of a replicator after `init`: the three lazily made fields are set. -/
def Replicator.ready (r : Replicator) : Prop :=
  r.logger = true ∧ r.servers ≠ none ∧ r.close ≠ none

/-- The channels that one call hands to `close(...)`: `Join` closes nothing, `Leave(name)`
closes the cancel channel `r.servers[name]` when the name is tracked, and `Close` closes
`r.close` when the replicator is not closed yet (a nil `r.close` is no channel: `close`
panics on it). Every method runs `init` first. -/
def Replicator.closes (r : Replicator) (w : Runtime) : ReplicatorCall → List Nat
  | ReplicatorCall.Join _ _ => []
  | ReplicatorCall.Leave name =>
    match mapGet (r.init w).1.servers name with
    | none => []
    | some ch => [ch]
  | ReplicatorCall.Close =>
    if (r.init w).1.closed then []
    else
      match (r.init w).1.close with
      | none => []
      | some c => [c]

/-- The channels handed to `close(...)` during a sequence of calls, in order; a panic ends
the sequence. -/
def Replicator.closeTrace (r : Replicator) (w : Runtime) : List ReplicatorCall → List Nat
  | [] => []
  | c :: cs =>
    match r.call w c with
    | Go.panic => r.closes w c
    | Go.ret (r1, w1, _) => r.closes w c ++ Replicator.closeTrace r1 w1 cs

/-! ## package server: log.go -/

namespace server

/-- Error values of package `server` and of the collaborators of the gRPC server. Modelled
from the spec: package `api` is missing; its `ErrOffsetOutOfRange` is the error type that
`ReadStream` tells apart, every other error value is `other`. -/
inductive Error where
  /-- The value `ErrOffsetNotFound` of log.go. -/
  | ErrOffsetNotFound
  /-- A value of type `api.ErrOffsetOutOfRange`. -/
  | ErrOffsetOutOfRange (Offset : Nat)
  /-- Any other error value. -/
  | other (id : Nat)
  deriving DecidableEq

/-- The `Record` struct of log.go. -/
structure Record where
  Value : List Nat
  Offset : Nat
  deriving DecidableEq

/-- The in-memory `Log` struct. (The mutex serialises the methods.) -/
structure Log where
  records : List Record
  deriving DecidableEq

/-- The function `NewLog`. -/
def NewLog : Log := { records := [] }

/-- The method `(*Log).Append(record)`; the result is the log after the call and
`(offset, err)`. -/
def Log.Append (l : Log) (record : Record) : Log × Nat × Option Error :=
  ({ records := l.records ++ [{ record with Offset := u64 l.records.length }] },
    u64 l.records.length, none)

/-- The method `(*Log).Read(offset)`; the result is the log after the call and
`(record, err)`. The index expression panics when it is out of range. -/
def Log.Read (l : Log) (offset : Nat) : Go (Log × Record × Option Error) :=
  if offset ≥ u64 l.records.length then
    Go.ret (l, { Value := [], Offset := 0 }, some Error.ErrOffsetNotFound)
  else
    match l.records[offset]? with
    | none => Go.panic
    | some r => Go.ret (l, r, none)

/-- A run of `Append` calls: the log after the run and the offsets returned, in order. -/
def Log.Appends (l : Log) : List Record → Log × List Nat
  | [] => (l, [])
  | r :: rs =>
    match l.Append r with
    | (l1, off, _) =>
      match Log.Appends l1 rs with
      | (l2, offs) => (l2, off :: offs)

/-! ## package server: server.go -/

/-- Modelled from the spec: the message `api.Record` is missing: an opaque byte value plus
an assigned 64-bit offset. -/
structure ApiRecord where
  Value : List Nat
  Offset : Nat
  deriving DecidableEq

/-- Modelled from the spec: the message `api.AppendRequest`; `Record` is a pointer and may
be nil. -/
structure AppendRequest where
  Record : Option ApiRecord
  deriving DecidableEq

/-- Modelled from the spec: the message `api.AppendResponse`. -/
structure AppendResponse where
  Offset : Nat
  deriving DecidableEq

/-- Modelled from the spec: the message `api.ReadRequest`. -/
structure ReadRequest where
  Offset : Nat
  deriving DecidableEq

/-- Modelled from the spec: the message `api.ReadResponse`. -/
structure ReadResponse where
  Record : Option ApiRecord
  deriving DecidableEq

/-- The `CommitLog` interface, over a log state of type `L`: each method gets the state and
returns the state after the call with its results. -/
structure CommitLog (L : Type) where
  Append : L → Option ApiRecord → L × Nat × Option Error
  Read : L → Nat → L × Option ApiRecord × Option Error

/-- The `Authorizer` interface. -/
structure Authorizer where
  Authorize : String → String → String → Option Error

/-- The `Config` struct of package server. -/
structure Config (L : Type) where
  CommitLog : CommitLog L
  Authorizer : Authorizer

/-- The `grpcServer` struct. -/
structure grpcServer (L : Type) where
  Config : Config L

/-- The constant `objectWildcard`. -/
def objectWildcard : String := "*"

/-- The constant `appendAction`. -/
def appendAction : String := "append"

/-- The constant `readAction`. -/
def readAction : String := "read"

/-- What the handlers use of a `context.Context`: the value stored under
`subjectContextKey{}` by `authenticate`, if any. -/
structure Context where
  subject : Option String
  deriving DecidableEq

/-- The function `subject(ctx)`: the type assertion panics when the context holds no
subject. -/
def subject (ctx : Context) : Go String :=
  match ctx.subject with
  | none => Go.panic
  | some s => Go.ret s

/-- A call made by a handler to one of its collaborators. -/
inductive Call where
  | Authorize (subject object action : String)
  | LogAppend (record : Option ApiRecord)
  | LogRead (offset : Nat)
  | Send (res : Option ReadResponse)
  deriving DecidableEq

/-- The method `(*grpcServer).Append(ctx, req)` on the log state `l`; the result is the log
state after the call, the calls made to the collaborators in order, and `(response, err)`. -/
def grpcServer.Append {L : Type} (s : grpcServer L) (ctx : Context) (l : L)
    (req : AppendRequest) : Go (L × List Call × Option AppendResponse × Option Error) :=
  match subject ctx with
  | Go.panic => Go.panic
  | Go.ret sub =>
    match s.Config.Authorizer.Authorize sub objectWildcard appendAction with
    | some err => Go.ret (l, [Call.Authorize sub objectWildcard appendAction], none, some err)
    | none =>
      match s.Config.CommitLog.Append l req.Record with
      | (l1, _, some err) =>
        Go.ret (l1, [Call.Authorize sub objectWildcard appendAction, Call.LogAppend req.Record],
          none, some err)
      | (l1, offset, none) =>
        Go.ret (l1, [Call.Authorize sub objectWildcard appendAction, Call.LogAppend req.Record],
          some { Offset := offset }, none)

/-- The method `(*grpcServer).Read(ctx, req)` on the log state `l`; the result is as for
`Append`. -/
def grpcServer.Read {L : Type} (s : grpcServer L) (ctx : Context) (l : L)
    (req : ReadRequest) : Go (L × List Call × Option ReadResponse × Option Error) :=
  match subject ctx with
  | Go.panic => Go.panic
  | Go.ret sub =>
    match s.Config.Authorizer.Authorize sub objectWildcard readAction with
    | some err => Go.ret (l, [Call.Authorize sub objectWildcard readAction], none, some err)
    | none =>
      match s.Config.CommitLog.Read l req.Offset with
      | (l1, _, some err) =>
        Go.ret (l1, [Call.Authorize sub objectWildcard readAction, Call.LogRead req.Offset],
          none, some err)
      | (l1, record, none) =>
        Go.ret (l1, [Call.Authorize sub objectWildcard readAction, Call.LogRead req.Offset],
          some { Record := record }, none)

/-- What the surroundings decide for one round of the loop of `ReadStream`: what other
goroutines have done to the log since the last round (`env`), whether the context of the
stream is done when the `select` looks, and what `stream.Send` returns if it is called. -/
structure Tick (L : Type) where
  env : L → L
  done : Bool
  sendErr : Option Error

/-- The state of a running `ReadStream`: the request (whose `Offset` the loop increments),
the log, and the responses sent so far. -/
structure StreamState (L : Type) where
  req : ReadRequest
  log : L
  sent : List (Option ReadResponse)

/-- How one round of the loop of `ReadStream` ends: the method returns `err`, or the loop
goes round again. -/
inductive Round (L : Type) where
  | returned (st : StreamState L) (err : Option Error) : Round L
  | again (st : StreamState L) : Round L

/-- One round of the `for` loop of `(*grpcServer).ReadStream`. -/
def grpcServer.ReadStream.round {L : Type} (s : grpcServer L) (ctx : Context)
    (st : StreamState L) (t : Tick L) : Go (Round L) :=
  if t.done then Go.ret (Round.returned { st with log := t.env st.log } none)
  else
    match s.Read ctx (t.env st.log) st.req with
    | Go.panic => Go.panic
    | Go.ret (l1, _, _, some (Error.ErrOffsetOutOfRange _)) =>
      Go.ret (Round.again { st with log := l1 })
    | Go.ret (l1, _, _, some err) => Go.ret (Round.returned { st with log := l1 } (some err))
    | Go.ret (l1, _, res, none) =>
      match t.sendErr with
      | some err => Go.ret (Round.returned { st with log := l1 } (some err))
      | none =>
        Go.ret (Round.again
          { req := { Offset := u64 (st.req.Offset + 1) }, log := l1, sent := st.sent ++ [res] })

/-- The method `(*grpcServer).ReadStream(req, stream)` for as many rounds as `ticks` gives:
the state reached, and `some err` when the method has returned `err`, `none` when the loop
is still going round after the last tick. -/
def grpcServer.ReadStream {L : Type} (s : grpcServer L) (ctx : Context) :
    StreamState L → List (Tick L) → Go (StreamState L × Option (Option Error))
  | st, [] => Go.ret (st, none)
  | st, t :: ts =>
    match grpcServer.ReadStream.round s ctx st t with
    | Go.panic => Go.panic
    | Go.ret (Round.returned st1 err) => Go.ret (st1, some err)
    | Go.ret (Round.again st1) => grpcServer.ReadStream s ctx st1 ts

end server

/-! ## Machine arithmetic and slices -/

theorem u64_of_lt {n : Nat} (h : n < 2 ^ 64) : u64 n = n := Nat.mod_eq_of_lt h

theorem u64_lt (n : Nat) : u64 n < 2 ^ 64 := Nat.mod_lt _ (by decide)

theorem u32_lt (n : Nat) : u32 n < 2 ^ 32 := Nat.mod_lt _ (by decide)

theorem int64ToU32_lt (n : Int) : int64ToU32 n < 2 ^ 32 := by
  unfold int64ToU32
  have h := Int.emod_lt_of_pos n (show (0 : Int) < 2 ^ 32 by decide)
  have h0 := Int.emod_nonneg n (show (2 ^ 32 : Int) ≠ 0 by decide)
  omega

theorem int64ToU32_natCast {k : Nat} (h : k < 2 ^ 32) : int64ToU32 (k : Int) = k := by
  unfold int64ToU32
  have : ((k : Int) % 2 ^ 32) = (k : Int) := Int.emod_eq_of_lt (by omega) (by omega)
  rw [this]
  simp

theorem int64ToU32_natCast_mod (m : Nat) : int64ToU32 (m : Int) = m % 2 ^ 32 := by
  unfold int64ToU32
  have : ((m : Int) % 2 ^ 32) = ((m % 2 ^ 32 : Nat) : Int) := by norm_cast
  rw [this, Int.toNat_natCast]

theorem Uint32_total {b : List Nat} (h : b.length = 4) : ∃ v, enc.Uint32 b = Go.ret v := by
  match b, h with
  | [b0, b1, b2, b3], _ => exact ⟨_, rfl⟩

theorem Uint64_total {b : List Nat} (h : b.length = 8) : ∃ v, enc.Uint64 b = Go.ret v := by
  match b, h with
  | [b0, b1, b2, b3, b4, b5, b6, b7], _ => exact ⟨_, rfl⟩

theorem Uint32_PutUint32 {v : Nat} (h : v < 2 ^ 32) (rest : List Nat) :
    enc.Uint32 (enc.PutUint32 v ++ rest) = Go.ret v := by
  simp only [enc.PutUint32, enc.Uint32, List.cons_append, List.nil_append]
  congr 1
  omega

theorem Uint64_PutUint64 {v : Nat} (h : v < 2 ^ 64) (rest : List Nat) :
    enc.Uint64 (enc.PutUint64 v ++ rest) = Go.ret v := by
  simp only [enc.PutUint64, enc.Uint64, List.cons_append, List.nil_append]
  congr 1
  omega

theorem PutUint32_length (v : Nat) : (enc.PutUint32 v).length = 4 := rfl

theorem PutUint64_length (v : Nat) : (enc.PutUint64 v).length = 8 := rfl

theorem sliceOf_ok {m : List Nat} {lo hi : Nat} (h1 : lo ≤ hi) (h2 : hi ≤ m.length) :
    sliceOf m lo hi = Go.ret ((m.drop lo).take (hi - lo)) := by
  simp [sliceOf, h1, h2]

theorem putSlice_ok {m : List Nat} {lo hi : Nat} {bs : List Nat} (h1 : lo ≤ hi)
    (h2 : hi ≤ m.length) (h3 : bs.length ≤ hi - lo) :
    putSlice m lo hi bs = Go.ret (m.take lo ++ bs ++ m.drop (lo + bs.length)) := by
  simp [putSlice, h1, h2, h3]

/-- The bytes of a window that lies inside a prefix are the bytes of the prefix. -/
theorem take_drop_take (m : List Nat) {lo n s : Nat} (h : lo + n ≤ s) :
    ((m.take s).drop lo).take n = (m.drop lo).take n := by
  rw [List.drop_take, List.take_take]
  congr 1
  omega

/-! ## Normal forms of `index.Write` and `index.Read` -/

theorem index.Write_eof (i : index) (off pos : Nat)
    (h : i.mmap.length < u64 (i.size + entWidth)) :
    i.Write off pos = Go.ret (i, some GoError.EOF) := by
  simp [index.Write, h]

theorem index.Write_ok (i : index) (off pos : Nat) (h : i.size + 12 ≤ i.mmap.length)
    (h64 : i.size + 12 < 2 ^ 64) :
    i.Write off pos = Go.ret ({ i with
      mmap := i.mmap.take i.size ++ (enc.PutUint32 off ++ enc.PutUint64 pos)
        ++ i.mmap.drop (i.size + 12),
      size := i.size + 12 }, none) := by
  have e1 : u64 (i.size + entWidth) = i.size + 12 := u64_of_lt h64
  have e2 : u64 (i.size + offWidth) = i.size + 4 :=
    u64_of_lt (show i.size + 4 < 2 ^ 64 by omega)
  have hl : (List.take i.size i.mmap ++ enc.PutUint32 off).length = i.size + 4 := by
    simp [PutUint32_length]; omega
  unfold index.Write
  rw [e1, e2, if_neg (by omega), putSlice_ok (by omega) (by omega) (by simp [PutUint32_length])]
  simp only []
  rw [putSlice_ok (by omega) (by simp [PutUint32_length]; omega)
    (by simp [PutUint64_length])]
  simp only [PutUint32_length, PutUint64_length]
  have t1 : List.take (i.size + 4)
      (List.take i.size i.mmap ++ enc.PutUint32 off ++ List.drop (i.size + 4) i.mmap)
      = List.take i.size i.mmap ++ enc.PutUint32 off := List.take_left' hl
  have t2 : List.drop (i.size + 4 + 8)
      (List.take i.size i.mmap ++ enc.PutUint32 off ++ List.drop (i.size + 4) i.mmap)
      = List.drop (i.size + 12) i.mmap := by
    rw [List.drop_append_eq_append_drop, hl, List.drop_of_length_le (by omega)]
    simp only [List.nil_append, List.drop_drop]
    congr 1
    omega
  rw [t1, t2]
  simp [List.append_assoc]

/-- The entry that `Read` decodes once the bounds test has passed. -/
theorem index.Read_in_range (i : index) (n : Int) (out : Nat)
    (hout : (if n = -1 then u32 (u64 (i.size / entWidth + 2 ^ 64 - 1)) else int64ToU32 n) = out)
    (h1 : out * 12 + 12 ≤ i.size) (h2 : i.size ≤ i.mmap.length) :
    i.Read n =
      match enc.Uint32 ((i.mmap.drop (out * 12)).take 4) with
      | Go.panic => Go.panic
      | Go.ret o =>
        match enc.Uint64 ((i.mmap.drop (out * 12 + 4)).take 8) with
        | Go.panic => Go.panic
        | Go.ret p => Go.ret (o, p, none) := by
  have hlt : out < 2 ^ 32 := by
    rw [← hout]; split
    · exact u32_lt _
    · exact int64ToU32_lt _
  have e0 : u64 (out * entWidth) = out * 12 := u64_of_lt (show out * 12 < 2 ^ 64 by omega)
  have e1 : u64 (out * 12 + entWidth) = out * 12 + 12 :=
    u64_of_lt (show out * 12 + 12 < 2 ^ 64 by omega)
  have e2 : u64 (out * 12 + offWidth) = out * 12 + 4 :=
    u64_of_lt (show out * 12 + 4 < 2 ^ 64 by omega)
  unfold index.Read
  rw [if_neg (by omega)]
  simp only [hout, e0, e1, e2]
  rw [if_neg (by omega), sliceOf_ok (by omega) (by omega), sliceOf_ok (by omega) (by omega)]
  have a1 : out * 12 + 4 - out * 12 = 4 := by omega
  have a2 : out * 12 + 12 - (out * 12 + 4) = 8 := by omega
  rw [a1, a2]

/-- The bounds test of `Read` fails: the entry lies beyond `size`. -/
theorem index.Read_beyond (i : index) (n : Int) (out : Nat)
    (hout : (if n = -1 then u32 (u64 (i.size / entWidth + 2 ^ 64 - 1)) else int64ToU32 n) = out)
    (h1 : i.size < out * 12 + 12) :
    i.Read n = Go.ret (0, 0, some GoError.EOF) := by
  have hlt : out < 2 ^ 32 := by
    rw [← hout]; split
    · exact u32_lt _
    · exact int64ToU32_lt _
  have e0 : u64 (out * entWidth) = out * 12 := u64_of_lt (show out * 12 < 2 ^ 64 by omega)
  have e1 : u64 (out * 12 + entWidth) = out * 12 + 12 :=
    u64_of_lt (show out * 12 + 12 < 2 ^ 64 by omega)
  unfold index.Read
  by_cases hs : i.size = 0
  · rw [if_pos hs]
  · rw [if_neg hs]
    simp only [hout, e0, e1]
    rw [if_pos h1]

/-- Two indexes with the same size and the same used bytes answer every `Read` alike. -/
theorem index.Read_congr (i j : index) (n : Int) (hsz : i.size = j.size)
    (hi : i.size ≤ i.mmap.length) (hj : j.size ≤ j.mmap.length)
    (hm : i.mmap.take i.size = j.mmap.take j.size) : i.Read n = j.Read n := by
  by_cases hs : i.size = 0
  · simp [index.Read, hs, ← hsz]
  · generalize hout :
      (if n = -1 then u32 (u64 (i.size / entWidth + 2 ^ 64 - 1)) else int64ToU32 n) = out
    have hout2 := hout
    rw [hsz] at hout2
    by_cases hr : i.size < out * 12 + 12
    · rw [index.Read_beyond i n out hout hr, index.Read_beyond j n out hout2 (by omega)]
    · rw [index.Read_in_range i n out hout (by omega) hi,
        index.Read_in_range j n out hout2 (by omega) hj]
      rw [← take_drop_take i.mmap (show out * 12 + 4 ≤ i.size by omega),
        ← take_drop_take i.mmap (show out * 12 + 4 + 8 ≤ i.size by omega),
        ← take_drop_take j.mmap (show out * 12 + 4 ≤ j.size by omega),
        ← take_drop_take j.mmap (show out * 12 + 4 + 8 ≤ j.size by omega), hm]

/-- Every call of `Write` on an index whose `size` does not wrap when 12 is added returns:
with `io.EOF` and the index untouched when the entry does not fit, with a nil error and
`size + 12` when it does. -/
theorem index.Write_cases (i : index) (off pos : Nat) (h64 : i.size + 12 < 2 ^ 64) :
    (i.mmap.length < i.size + 12 ∧ i.Write off pos = Go.ret (i, some GoError.EOF)) ∨
    (i.size + 12 ≤ i.mmap.length ∧ ∃ i1, i.Write off pos = Go.ret (i1, none)
      ∧ i1.size = i.size + 12 ∧ i1.mmap.length = i.mmap.length ∧ i1.file = i.file) := by
  by_cases h : i.mmap.length < i.size + 12
  · left
    refine ⟨h, index.Write_eof i off pos ?_⟩
    have e1 : u64 (i.size + entWidth) = i.size + 12 := u64_of_lt h64
    omega
  · right
    refine ⟨by omega, _, index.Write_ok i off pos (by omega) h64, rfl, ?_, rfl⟩
    simp [PutUint32_length, PutUint64_length]
    omega

/-- After a successful `Write(off, pos)` on an index of `e` entries, a `Read` whose entry
number comes out as `e` decodes exactly `(off, pos)`. -/
theorem index.Read_after_Write (i : index) (e off pos : Nat) (n : Int)
    (hsize : i.size = 12 * e) (hfit : i.size + 12 ≤ i.mmap.length)
    (hoff : off < 2 ^ 32) (hpos : pos < 2 ^ 64)
    (hout : (if n = -1 then u32 (u64 ((i.size + 12) / entWidth + 2 ^ 64 - 1))
      else int64ToU32 n) = e) :
    index.Read { i with
      mmap := i.mmap.take i.size ++ (enc.PutUint32 off ++ enc.PutUint64 pos)
        ++ i.mmap.drop (i.size + 12),
      size := i.size + 12 } n = Go.ret (off, pos, none) := by
  rw [index.Read_in_range { i with
      mmap := i.mmap.take i.size ++ (enc.PutUint32 off ++ enc.PutUint64 pos)
        ++ i.mmap.drop (i.size + 12),
      size := i.size + 12 } n e hout
    (by simp only []; omega) (by simp [PutUint32_length, PutUint64_length]; omega)]
  have hl : (List.take i.size i.mmap).length = e * 12 := by simp; omega
  have hl4 : (List.take i.size i.mmap ++ enc.PutUint32 off).length = e * 12 + 4 := by
    simp [PutUint32_length]; omega
  have d1 : List.drop (e * 12) (List.take i.size i.mmap
      ++ (enc.PutUint32 off ++ enc.PutUint64 pos) ++ List.drop (i.size + 12) i.mmap)
      = enc.PutUint32 off ++ (enc.PutUint64 pos ++ List.drop (i.size + 12) i.mmap) := by
    rw [List.append_assoc, List.drop_left' hl, List.append_assoc]
  have d2 : List.drop (e * 12 + 4) (List.take i.size i.mmap
      ++ (enc.PutUint32 off ++ enc.PutUint64 pos) ++ List.drop (i.size + 12) i.mmap)
      = enc.PutUint64 pos ++ List.drop (i.size + 12) i.mmap := by
    rw [List.append_assoc, List.append_assoc, ← List.append_assoc, List.drop_left' hl4]
  simp only [d1, d2]
  rw [List.take_left' (PutUint32_length off), List.take_left' (PutUint64_length pos)]
  have r1 := Uint32_PutUint32 hoff []
  have r2 := Uint64_PutUint64 hpos []
  rw [List.append_nil] at r1 r2
  rw [r1]
  simp only []
  rw [r2]

/-- A `Write` that returns a nil error found room for the entry, without wrap-around. -/
theorem index.Write_nil_inv (i i1 : index) (off pos : Nat)
    (hw : i.Write off pos = Go.ret (i1, none)) :
    i.size + 12 ≤ i.mmap.length ∧ i.size + 12 < 2 ^ 64 := by
  by_cases h64 : i.size + 12 < 2 ^ 64
  · rcases index.Write_cases i off pos h64 with ⟨_, hw1⟩ | ⟨hfit, _⟩
    · rw [hw1] at hw
      simp at hw
    · exact ⟨hfit, h64⟩
  · exfalso
    have w12 : u64 (i.size + entWidth) + 2 ^ 64 ≤ i.size + 12 := by
      have := Nat.mod_add_div (i.size + 12) (2 ^ 64)
      have e : u64 (i.size + entWidth) = (i.size + 12) % 2 ^ 64 := rfl
      have hq : 1 ≤ (i.size + 12) / 2 ^ 64 :=
        (Nat.le_div_iff_mul_le (by decide)).2 (by omega)
      omega
    have l4 : u64 (i.size + offWidth) ≤ i.size + 4 := Nat.mod_le _ _
    unfold index.Write at hw
    split at hw
    · simp at hw
    · by_cases h4 : i.size + 4 < 2 ^ 64
      · have e4 : u64 (i.size + offWidth) = i.size + 4 := u64_of_lt h4
        have hp : ∀ m1, putSlice m1 (u64 (i.size + offWidth)) (u64 (i.size + entWidth))
            (enc.PutUint64 pos) = Go.panic := by
          intro m1
          simp only [putSlice, PutUint64_length, ite_eq_right_iff]
          intro hc
          omega
        cases h1 : putSlice i.mmap i.size (u64 (i.size + offWidth)) (enc.PutUint32 off) with
        | panic => rw [h1] at hw; simp at hw
        | ret m1 => rw [h1] at hw; simp only [hp] at hw; simp at hw
      · have w4 : u64 (i.size + offWidth) + 2 ^ 64 ≤ i.size + 4 := by
          have := Nat.mod_add_div (i.size + 4) (2 ^ 64)
          have e : u64 (i.size + offWidth) = (i.size + 4) % 2 ^ 64 := rfl
          have hq : 1 ≤ (i.size + 4) / 2 ^ 64 :=
            (Nat.le_div_iff_mul_le (by decide)).2 (by omega)
          omega
        have hp : putSlice i.mmap i.size (u64 (i.size + offWidth)) (enc.PutUint32 off)
            = Go.panic := by
          simp only [putSlice, PutUint32_length, ite_eq_right_iff]
          intro hc
          omega
        rw [hp] at hw
        simp at hw

/-! ## Index: write/read round trip, full index, reads past the end -/

/-- C1. Index write/read round trip: on an index that holds exactly `k` entries
(`size = 12 * k`, `k < 2^32`) with room for one more (`size + 12 ≤ len(mmap)`), for every
`off : uint32` and `pos : uint64`, `Write(off, pos)` returns a nil error and a following
`Read(k)` returns `(off, pos, nil)`. -/
theorem index_write_read_round_trip (i : index) (k off pos : Nat)
    (hsize : i.size = 12 * k) (hk : k < 2 ^ 32) (hfit : i.size + 12 ≤ i.mmap.length)
    (hoff : off < 2 ^ 32) (hpos : pos < 2 ^ 64) :
    ∃ i1, i.Write off pos = Go.ret (i1, none) ∧ i1.Read (k : Int) = Go.ret (off, pos, none) := by
  refine ⟨_, index.Write_ok i off pos hfit (by omega), ?_⟩
  have hne : ((k : Int) = -1) = False := by
    apply eq_false; omega
  apply index.Read_after_Write i k off pos (k : Int) hsize hfit hoff hpos
  simp only [hne, if_false]
  exact int64ToU32_natCast hk

/-- C1, at a concrete index: one entry in a 36-byte mapping, then `Write(1, 10)`. -/
theorem index_write_read_round_trip_witness :
    ∃ i1, index.Write ⟨⟨[], false⟩, List.replicate 36 0, 12⟩ 1 10 = Go.ret (i1, none)
      ∧ i1.Read ((1 : Nat) : Int) = Go.ret (1, 10, none) :=
  index_write_read_round_trip ⟨⟨[], false⟩, List.replicate 36 0, 12⟩ 1 1 10
    (by decide) (by decide) (by decide) (by decide) (by decide)

/-- C2. On an index whose `size + 12` does not wrap as a `uint64`, `Write(off, pos)` returns,
and it returns `io.EOF` if and only if `size + 12 > len(mmap)`; when it returns an error the
index (its `size` and every mapped byte) is unchanged, and when it returns nil `size` has
grown by exactly 12. With a 36-byte mapping and `size = 0`, three Writes succeed and the
fourth returns `io.EOF`. -/
theorem index_write_eof_iff_full (i : index) (off pos : Nat) (h64 : i.size + 12 < 2 ^ 64) :
    (∃ i1 err, i.Write off pos = Go.ret (i1, err)
      ∧ (err = some GoError.EOF ↔ i.size + 12 > i.mmap.length)
      ∧ (err ≠ none → i1 = i)
      ∧ (err = none → i1.size = i.size + 12))
    ∧ (i.mmap.length = 36 → i.size = 0 → ∀ o1 p1 o2 p2 o3 p3 o4 p4 : Nat,
        ∃ i1 i2 i3, i.Write o1 p1 = Go.ret (i1, none) ∧ i1.Write o2 p2 = Go.ret (i2, none)
          ∧ i2.Write o3 p3 = Go.ret (i3, none)
          ∧ i3.Write o4 p4 = Go.ret (i3, some GoError.EOF)) := by
  constructor
  · rcases index.Write_cases i off pos h64 with ⟨hfull, hw⟩ | ⟨hfit, i1, hw, hs, _, _⟩
    · exact ⟨i, _, hw, by simp; omega, fun _ => rfl, fun h => by simp at h⟩
    · refine ⟨i1, none, hw, ?_, fun h => absurd rfl h, fun _ => hs⟩
      simp; omega
  · intro hlen hs o1 p1 o2 p2 o3 p3 o4 p4
    rcases index.Write_cases i o1 p1 (by omega) with ⟨hfull, _⟩ | ⟨_, i1, hw1, hs1, hl1, _⟩
    · omega
    rcases index.Write_cases i1 o2 p2 (by omega) with ⟨hfull, _⟩ | ⟨_, i2, hw2, hs2, hl2, _⟩
    · omega
    rcases index.Write_cases i2 o3 p3 (by omega) with ⟨hfull, _⟩ | ⟨_, i3, hw3, hs3, hl3, _⟩
    · omega
    rcases index.Write_cases i3 o4 p4 (by omega) with ⟨_, hw4⟩ | ⟨hfit, _⟩
    · exact ⟨i1, i2, i3, hw1, hw2, hw3, hw4⟩
    · omega

/-- C2, at the 36-byte mapping of `TestSegment` with `size = 0`. -/
theorem index_write_eof_iff_full_witness :
    (0 : Nat) + 12 < 2 ^ 64 ∧
    ((∃ i1 err, index.Write ⟨⟨[], false⟩, List.replicate 36 0, 0⟩ 16 0 = Go.ret (i1, err)
      ∧ (err = some GoError.EOF
          ↔ (⟨⟨[], false⟩, List.replicate 36 0, 0⟩ : index).size + 12
            > (⟨⟨[], false⟩, List.replicate 36 0, 0⟩ : index).mmap.length)
      ∧ (err ≠ none → i1 = ⟨⟨[], false⟩, List.replicate 36 0, 0⟩)
      ∧ (err = none → i1.size = (⟨⟨[], false⟩, List.replicate 36 0, 0⟩ : index).size + 12))
    ∧ ((⟨⟨[], false⟩, List.replicate 36 0, 0⟩ : index).mmap.length = 36 →
        (⟨⟨[], false⟩, List.replicate 36 0, 0⟩ : index).size = 0 →
        ∀ o1 p1 o2 p2 o3 p3 o4 p4 : Nat,
        ∃ i1 i2 i3, index.Write ⟨⟨[], false⟩, List.replicate 36 0, 0⟩ o1 p1 = Go.ret (i1, none)
          ∧ i1.Write o2 p2 = Go.ret (i2, none)
          ∧ i2.Write o3 p3 = Go.ret (i3, none)
          ∧ i3.Write o4 p4 = Go.ret (i3, some GoError.EOF))) :=
  ⟨by decide, index_write_eof_iff_full ⟨⟨[], false⟩, List.replicate 36 0, 0⟩ 16 0 (by decide)⟩

/-- C3, as stated, fails: an index that holds one entry, `(7, 9)`, holds fewer than
`2^32 + 1` entries, yet `Read(2^32)` returns that entry with a nil error, because
`uint32(2^32) = 0`. -/
theorem index_read_past_end_counterexample :
    (0 : Int) ≤ 2 ^ 32
    ∧ (((⟨⟨[], false⟩, [0, 0, 0, 7, 0, 0, 0, 0, 0, 0, 0, 9], 12⟩ : index).size / entWidth : Nat)
        : Int) < 2 ^ 32 + 1
    ∧ index.Read ⟨⟨[], false⟩, [0, 0, 0, 7, 0, 0, 0, 0, 0, 0, 0, 9], 12⟩ (2 ^ 32)
        = Go.ret (7, 9, none) := by
  decide

/-- C3, amended. Index EOF: for every `n` with `0 ≤ n < 2^32` and every index that holds
fewer than `n + 1` entries (`size / 12 < n + 1`, whatever the mapping), `Read(n)` returns
`(0, 0, io.EOF)`. -/
theorem index_read_past_end_eof (i : index) (n : Int) (h0 : 0 ≤ n) (h32 : n < 2 ^ 32)
    (hfew : ((i.size / entWidth : Nat) : Int) < n + 1) :
    i.Read n = Go.ret (0, 0, some GoError.EOF) := by
  have hne : (n = -1) = False := by
    apply eq_false; omega
  obtain ⟨k, rfl⟩ := Int.eq_ofNat_of_zero_le h0
  have hk : k < 2 ^ 32 := by omega
  have he : entWidth = 12 := rfl
  rw [he] at hfew
  apply index.Read_beyond i _ k
  · simp only [hne, if_false]
    exact int64ToU32_natCast hk
  · omega

/-- C3 amended, at the two-entry index of `TestIndex` read at `n = 2`. -/
theorem index_read_past_end_eof_witness :
    (0 : Int) ≤ 2 ∧ (2 : Int) < 2 ^ 32
    ∧ (((⟨⟨[], false⟩, List.replicate 1024 0, 24⟩ : index).size / entWidth : Nat) : Int) < 2 + 1
    ∧ index.Read ⟨⟨[], false⟩, List.replicate 1024 0, 24⟩ 2 = Go.ret (0, 0, some GoError.EOF) :=
  ⟨by decide, by decide, by decide,
    index_read_past_end_eof ⟨⟨[], false⟩, List.replicate 1024 0, 24⟩ 2 (by decide) (by decide)
      (by decide)⟩

/-! ## Index: the last entry -/

/-- C4, as stated, fails in two ways. (1) On an index of `2^32` entries in a mapping with
room for one more, `Write(7, 9)` succeeds and the index then holds `k = 2^32 + 1` entries,
but `Read(-1)` returns entry 0, `(0, 0)`, not the pair `(7, 9)` of the most recent Write,
because `uint32(k - 1) = 0`. (2) With `size = 12` but a one-byte mapping, `Read(-1)`
panics on the slice expression instead of returning. -/
theorem index_read_last_counterexample :
    (∃ i1, index.Write ⟨⟨[], false⟩, List.replicate 51539607564 0, 51539607552⟩ 7 9
        = Go.ret (i1, none)
      ∧ i1.size = 12 * (2 ^ 32 + 1) ∧ i1.size ≤ i1.mmap.length
      ∧ i1.Read (-1) = Go.ret (0, 0, none))
    ∧ index.Read ⟨⟨[], false⟩, [0], 12⟩ (-1) = Go.panic := by
  refine ⟨⟨_, index.Write_ok _ 7 9 ?_ ?_, ?_, ?_, ?_⟩, by decide⟩
  · simp only [List.length_replicate]
    decide
  · decide
  · decide
  · simp only [List.length_append, List.length_take, List.length_drop, List.length_replicate,
      PutUint32_length, PutUint64_length]
    decide
  · rw [index.Read_in_range _ (-1) 0 (by decide) (by decide)
      (by simp only [List.length_append, List.length_take, List.length_drop,
        List.length_replicate, PutUint32_length, PutUint64_length]; decide)]
    have r12 : List.replicate 12 (0 : Nat) = [0, 0, 0, 0] ++ [0, 0, 0, 0, 0, 0, 0, 0] := rfl
    have t : List.take 51539607552 (List.replicate 51539607564 (0 : Nat))
        = [0, 0, 0, 0] ++ ([0, 0, 0, 0, 0, 0, 0, 0] ++ List.replicate 51539607540 0) := by
      rw [List.take_replicate, show min 51539607552 51539607564 = 12 + 51539607540 by decide,
        List.replicate_add, r12, List.append_assoc]
    simp only [t, List.append_assoc, Nat.zero_mul, List.drop_zero, Nat.zero_add]
    rw [List.take_left' (show [0, 0, 0, 0].length = 4 from rfl),
      List.drop_left' (show [0, 0, 0, 0].length = 4 from rfl),
      List.take_left' (show [0, 0, 0, 0, 0, 0, 0, 0].length = 8 from rfl)]
    rfl

/-- C4, amended. For every index that holds `k ≥ 1` entries inside its mapping
(`size = 12 * k ≤ len(mmap)`), `Read(-1)` returns a nil error and the same `(off, pos)` as
`Read(k - 1)`; when `k ≤ 2^32` and the index is the result of a successful
`Write(off, pos)`, that pair is `(off, pos)`; and on an empty index (`size = 0`)
`Read(-1)` returns `io.EOF`. -/
theorem index_read_last (i : index) (k : Nat) (hk : 1 ≤ k) (hsize : i.size = 12 * k)
    (hlen : i.size ≤ i.mmap.length) :
    (∃ o p, i.Read (-1) = Go.ret (o, p, none) ∧ i.Read ((k : Int) - 1) = Go.ret (o, p, none))
    ∧ (k ≤ 2 ^ 32 → ∀ (j : index) (off pos : Nat), off < 2 ^ 32 → pos < 2 ^ 64 →
        j.Write off pos = Go.ret (i, none) → i.Read (-1) = Go.ret (off, pos, none))
    ∧ (∀ e : index, e.size = 0 → e.Read (-1) = Go.ret (0, 0, some GoError.EOF)) := by
  have hw : entWidth = 12 := rfl
  have hout1 : (if (-1 : Int) = -1 then u32 (u64 (i.size / entWidth + 2 ^ 64 - 1))
      else int64ToU32 (-1)) = (k - 1) % 2 ^ 32 := by
    rw [if_pos rfl, hw]
    unfold u32 u64
    omega
  refine ⟨?_, ?_, ?_⟩
  · have hne : ((k : Int) - 1 = -1) = False := by
      apply eq_false; omega
    have hout2 : (if (k : Int) - 1 = -1 then u32 (u64 (i.size / entWidth + 2 ^ 64 - 1))
        else int64ToU32 ((k : Int) - 1)) = (k - 1) % 2 ^ 32 := by
      simp only [hne, if_false]
      have : (k : Int) - 1 = ((k - 1 : Nat) : Int) := by omega
      rw [this, int64ToU32_natCast_mod]
    rw [index.Read_in_range i (-1) _ hout1 (by omega) hlen,
      index.Read_in_range i _ _ hout2 (by omega) hlen]
    obtain ⟨o, ho⟩ := Uint32_total
      (b := List.take 4 (List.drop ((k - 1) % 2 ^ 32 * 12) i.mmap)) (by simp; omega)
    obtain ⟨q, hq⟩ := Uint64_total
      (b := List.take 8 (List.drop ((k - 1) % 2 ^ 32 * 12 + 4) i.mmap)) (by simp; omega)
    exact ⟨o, q, by rw [ho]; simp only []; rw [hq], by rw [ho]; simp only []; rw [hq]⟩
  · intro hk32 j off pos hoff hpos hwr
    obtain ⟨hfit, h64⟩ := index.Write_nil_inv j i off pos hwr
    rw [index.Write_ok j off pos hfit h64] at hwr
    have hi : i = { j with
        mmap := j.mmap.take j.size ++ (enc.PutUint32 off ++ enc.PutUint64 pos)
          ++ j.mmap.drop (j.size + 12),
        size := j.size + 12 } := by
      exact (Prod.mk.inj (Go.ret.inj hwr)).1.symm
    have hjs : j.size = 12 * (k - 1) := by
      have : i.size = j.size + 12 := by rw [hi]
      omega
    rw [hi]
    apply index.Read_after_Write j (k - 1) off pos (-1) hjs hfit hoff hpos
    rw [if_pos rfl, hw]
    unfold u32 u64
    omega
  · intro e he
    simp [index.Read, he]

/-- C4 amended, at the two-entry index that `TestIndex` reopens. -/
theorem index_read_last_witness :
    1 ≤ 2 ∧ (⟨⟨[], false⟩, [0, 0, 0, 0, 0, 0, 0, 0, 0, 0, 0, 0,
        0, 0, 0, 1, 0, 0, 0, 0, 0, 0, 0, 10], 24⟩ : index).size = 12 * 2
    ∧ index.Read ⟨⟨[], false⟩, [0, 0, 0, 0, 0, 0, 0, 0, 0, 0, 0, 0,
        0, 0, 0, 1, 0, 0, 0, 0, 0, 0, 0, 10], 24⟩ (-1) = Go.ret (1, 10, none)
    ∧ (∃ o p, index.Read ⟨⟨[], false⟩, [0, 0, 0, 0, 0, 0, 0, 0, 0, 0, 0, 0,
          0, 0, 0, 1, 0, 0, 0, 0, 0, 0, 0, 10], 24⟩ (-1) = Go.ret (o, p, none)
        ∧ index.Read ⟨⟨[], false⟩, [0, 0, 0, 0, 0, 0, 0, 0, 0, 0, 0, 0,
          0, 0, 0, 1, 0, 0, 0, 0, 0, 0, 0, 10], 24⟩ (((2 : Nat) : Int) - 1)
          = Go.ret (o, p, none)) :=
  ⟨by decide, by decide, by decide,
    (index_read_last ⟨⟨[], false⟩, [0, 0, 0, 0, 0, 0, 0, 0, 0, 0, 0, 0,
        0, 0, 0, 1, 0, 0, 0, 0, 0, 0, 0, 10], 24⟩ 2 (by decide) (by decide) (by decide)).1⟩

/-! ## Index: entry format -/

/-- C9. Index entry format: on an index with used size `s` and `s + 12 ≤ len(mmap)`, a
`Write(off, pos)` (`off : uint32`, `pos : uint64`) that returns nil leaves in `mmap[s:s+4]`
the four bytes `off>>24, off>>16, off>>8, off` (which decode big-endian to `off`) and in
`mmap[s+4:s+12]` the eight bytes `pos>>56, …, pos` (which decode big-endian to `pos`);
`size` becomes `s + 12` and the mapping keeps its length, so an entry is 12 bytes wide. -/
theorem index_entry_format (i i1 : index) (off pos : Nat)
    (hfit : i.size + 12 ≤ i.mmap.length) (hoff : off < 2 ^ 32) (hpos : pos < 2 ^ 64)
    (hw : i.Write off pos = Go.ret (i1, none)) :
    sliceOf i1.mmap i.size (i.size + 4) = Go.ret (enc.PutUint32 off)
    ∧ sliceOf i1.mmap (i.size + 4) (i.size + 12) = Go.ret (enc.PutUint64 pos)
    ∧ enc.PutUint32 off = [off / 2 ^ 24 % 256, off / 2 ^ 16 % 256, off / 2 ^ 8 % 256, off % 256]
    ∧ enc.PutUint64 pos = [pos / 2 ^ 56 % 256, pos / 2 ^ 48 % 256, pos / 2 ^ 40 % 256,
        pos / 2 ^ 32 % 256, pos / 2 ^ 24 % 256, pos / 2 ^ 16 % 256, pos / 2 ^ 8 % 256, pos % 256]
    ∧ enc.Uint32 (enc.PutUint32 off) = Go.ret off
    ∧ enc.Uint64 (enc.PutUint64 pos) = Go.ret pos
    ∧ i1.size = i.size + 12 ∧ entWidth = 12 ∧ i1.mmap.length = i.mmap.length := by
  obtain ⟨_, h64⟩ := index.Write_nil_inv i i1 off pos hw
  rw [index.Write_ok i off pos hfit h64] at hw
  have hi : i1 = { i with
      mmap := i.mmap.take i.size ++ (enc.PutUint32 off ++ enc.PutUint64 pos)
        ++ i.mmap.drop (i.size + 12),
      size := i.size + 12 } := (Prod.mk.inj (Go.ret.inj hw)).1.symm
  have hl : (List.take i.size i.mmap).length = i.size := by simp; omega
  have hl4 : (List.take i.size i.mmap ++ enc.PutUint32 off).length = i.size + 4 := by
    simp [PutUint32_length]; omega
  have hlen : i1.mmap.length = i.mmap.length := by
    rw [hi]; simp [PutUint32_length, PutUint64_length]; omega
  have r1 := Uint32_PutUint32 hoff []
  have r2 := Uint64_PutUint64 hpos []
  rw [List.append_nil] at r1 r2
  refine ⟨?_, ?_, rfl, rfl, r1, r2, by rw [hi], rfl, hlen⟩
  · rw [sliceOf_ok (by omega) (by omega), hi]
    simp only []
    rw [List.append_assoc, List.drop_left' hl, List.append_assoc,
      show i.size + 4 - i.size = 4 by omega, List.take_left' (PutUint32_length off)]
  · rw [sliceOf_ok (by omega) (by omega), hi]
    simp only []
    rw [List.append_assoc, List.append_assoc, ← List.append_assoc, List.drop_left' hl4,
      show i.size + 12 - (i.size + 4) = 8 by omega, List.take_left' (PutUint64_length pos)]

/-- C9, at the second Write of `TestIndex`: `Write(1, 10)` at `s = 12`. -/
theorem index_entry_format_witness :
    sliceOf [0, 0, 0, 0, 0, 0, 0, 0, 0, 0, 0, 0, 0, 0, 0, 1, 0, 0, 0, 0, 0, 0, 0, 10] 12 (12 + 4)
      = Go.ret [0, 0, 0, 1]
    ∧ sliceOf [0, 0, 0, 0, 0, 0, 0, 0, 0, 0, 0, 0, 0, 0, 0, 1, 0, 0, 0, 0, 0, 0, 0, 10]
        (12 + 4) (12 + 12) = Go.ret [0, 0, 0, 0, 0, 0, 0, 10] :=
  have h := index_entry_format ⟨⟨[], false⟩, List.replicate 24 0, 12⟩
    ⟨⟨[], false⟩, [0, 0, 0, 0, 0, 0, 0, 0, 0, 0, 0, 0, 0, 0, 0, 1, 0, 0, 0, 0, 0, 0, 0, 10], 24⟩
    1 10 (by decide) (by decide) (by decide) (by decide)
  ⟨h.1, h.2.1⟩

/-! ## Index: size invariant, close and reopen -/

/-- A run of `Write` calls on an index whose used size lies inside a mapping of `int` length
never panics, keeps the file handle and the length of the mapping, keeps `size` inside the
mapping and keeps its residue modulo 12. -/
theorem index.Writes_inv (ws : List (Nat × Nat)) :
    ∀ i : index, i.size ≤ i.mmap.length → i.mmap.length < 2 ^ 63 →
      ∃ i1, i.Writes ws = Go.ret i1 ∧ i1.mmap.length = i.mmap.length ∧ i1.file = i.file
        ∧ i1.size ≤ i1.mmap.length ∧ i1.size % 12 = i.size % 12 := by
  induction ws with
  | nil => intro i hle _; exact ⟨i, rfl, rfl, rfl, hle, rfl⟩
  | cons w ws ih =>
    intro i hle h63
    obtain ⟨off, pos⟩ := w
    rcases index.Write_cases i off pos (by omega) with ⟨_, hw⟩ | ⟨hfit, i1, hw, hs, hl, hf⟩
    · obtain ⟨i2, h2, hl2, hf2, hle2, hm2⟩ := ih i hle h63
      exact ⟨i2, by simp only [index.Writes, hw]; exact h2, hl2, hf2, hle2, hm2⟩
    · obtain ⟨i2, h2, hl2, hf2, hle2, hm2⟩ := ih i1 (by omega) (by omega)
      refine ⟨i2, by simp only [index.Writes, hw]; exact h2, by omega, by rw [hf2, hf], hle2, ?_⟩
      omega

theorem truncateData_length (d : List Nat) (n : Nat) : (truncateData d n).length = n := by
  simp only [truncateData, List.length_append, List.length_take, List.length_replicate]
  omega

theorem truncateData_of_le (d : List Nat) {n : Nat} (h : n ≤ d.length) :
    truncateData d n = d.take n := by
  simp [truncateData, Nat.sub_eq_zero_of_le h]

theorem take_truncateData (d : List Nat) {k n : Nat} (hk : k ≤ d.length) (hn : k ≤ n) :
    (truncateData d n).take k = d.take k := by
  unfold truncateData
  rw [List.take_append_of_le_length (by simp; omega), List.take_take]
  congr 1
  omega

/-- What a successful `newIndex` returns. -/
theorem newIndex_ok_inv (f : OsFile) (c : Config) (idx : index)
    (h : newIndex f c = Except.ok idx) :
    f.closed = false ∧ u64 c.Segment.MaxIndexBytes < 2 ^ 63
      ∧ idx.size = u64 f.data.length
      ∧ idx.mmap = truncateData f.data (u64 c.Segment.MaxIndexBytes)
      ∧ idx.file = { data := idx.mmap, closed := false }
      ∧ idx.mmap.length = u64 c.Segment.MaxIndexBytes
      ∧ u64 c.Segment.MaxIndexBytes ≠ 0 := by
  unfold newIndex at h
  by_cases hM : u64 c.Segment.MaxIndexBytes < 2 ^ 63
  · have hI : toInt64 c.Segment.MaxIndexBytes = (u64 c.Segment.MaxIndexBytes : Int) := by
      unfold toInt64; rw [if_pos hM]
    have hneg : ¬ toInt64 c.Segment.MaxIndexBytes < 0 := by rw [hI]; omega
    rw [if_neg hneg, hI, Int.toNat_natCast] at h
    cases hc : f.closed with
    | true => rw [hc] at h; simp at h
    | false =>
      rw [hc] at h
      simp only [Bool.false_eq_true, if_false] at h
      split at h
      · simp at h
      · rename_i hne
        rw [truncateData_length] at hne
        have hidx := (Except.ok.inj h).symm
        subst hidx
        refine ⟨rfl, hM, rfl, rfl, ?_, truncateData_length _ _, hne⟩
        simp [hc]
  · have hneg : toInt64 c.Segment.MaxIndexBytes < 0 := by
      have := u64_lt c.Segment.MaxIndexBytes
      unfold toInt64; rw [if_neg hM]
      omega
    rw [if_pos hneg] at h
    simp at h

/-- The function `newIndex` succeeds on an open handle when the configured size fits `int64`
and is not 0. -/
theorem newIndex_ok (f : OsFile) (c : Config) (hc : f.closed = false)
    (hM : u64 c.Segment.MaxIndexBytes < 2 ^ 63) (h0 : u64 c.Segment.MaxIndexBytes ≠ 0) :
    newIndex f c = Except.ok
      { file := { f with data := truncateData f.data (u64 c.Segment.MaxIndexBytes) },
        mmap := truncateData f.data (u64 c.Segment.MaxIndexBytes),
        size := u64 f.data.length } := by
  have hI : toInt64 c.Segment.MaxIndexBytes = (u64 c.Segment.MaxIndexBytes : Int) := by
    unfold toInt64; rw [if_pos hM]
  have hneg : ¬ toInt64 c.Segment.MaxIndexBytes < 0 := by rw [hI]; omega
  unfold newIndex
  rw [if_neg hneg, hI, Int.toNat_natCast, hc]
  simp only [Bool.false_eq_true, if_false, truncateData_length]
  rw [if_neg h0]

/-- The method `Close` succeeds on an open index whose `size` fits `int64`: the file keeps
the first `size` bytes of the mapping. -/
theorem index.Close_ok (i : index) (hc : i.file.closed = false) (hs : i.size < 2 ^ 63) :
    i.Close = ({ i with file := { data := truncateData i.mmap i.size, closed := true } },
      none) := by
  have h64 : u64 i.size = i.size := u64_of_lt (by omega)
  have hI : toInt64 i.size = (i.size : Int) := by
    unfold toInt64; rw [h64, if_pos hs]
  have hneg : ¬ toInt64 i.size < 0 := by rw [hI]; omega
  unfold index.Close
  rw [hc]
  simp only [Bool.false_eq_true, if_false]
  rw [if_neg hneg, hI, Int.toNat_natCast]

/-- C10, as stated, fails: (1) on a backing file of 5 bytes `newIndex` returns an index
with `size = 5`, not a multiple of 12; (2) on a backing file of 24 bytes with
`MaxIndexBytes = 12` it returns an index with `size = 24` over a 12-byte mapping. -/
theorem index_size_invariant_counterexample :
    (∃ idx, newIndex ⟨[1, 2, 3, 4, 5], false⟩ ⟨⟨1024, 1024, 0⟩⟩ = Except.ok idx
      ∧ idx.Writes [] = Go.ret idx ∧ idx.size % 12 = 5 ∧ idx.mmap.length = 1024)
    ∧ (∃ idx, newIndex ⟨List.replicate 24 0, false⟩ ⟨⟨1024, 12, 0⟩⟩ = Except.ok idx
      ∧ idx.Writes [] = Go.ret idx ∧ idx.size = 24 ∧ idx.mmap.length = 12) :=
  ⟨⟨_, newIndex_ok _ _ rfl (by decide) (by decide), rfl, by decide, truncateData_length _ _⟩,
    ⟨_, newIndex_ok _ _ rfl (by decide) (by decide), rfl, by decide, truncateData_length _ _⟩⟩

/-- C10, amended. Index size invariant: for every index returned by `newIndex` on a backing
file whose length is a multiple of 12 and at most `MaxIndexBytes` (a `uint64`), every
sequence of `Write` calls runs without panic and leaves `size` a multiple of 12 and
`size ≤ len(mmap)`, the length of the mapped file. -/
theorem index_size_invariant (f : OsFile) (c : Config) (idx : index) (ws : List (Nat × Nat))
    (hnew : newIndex f c = Except.ok idx) (h12 : f.data.length % 12 = 0)
    (hM : c.Segment.MaxIndexBytes < 2 ^ 64) (hle : f.data.length ≤ c.Segment.MaxIndexBytes) :
    ∃ i1, idx.Writes ws = Go.ret i1 ∧ i1.size % 12 = 0 ∧ i1.size ≤ i1.mmap.length
      ∧ i1.mmap.length = c.Segment.MaxIndexBytes := by
  obtain ⟨_, hM63, hsz, _, _, hlen, _⟩ := newIndex_ok_inv f c idx hnew
  have e1 : u64 c.Segment.MaxIndexBytes = c.Segment.MaxIndexBytes := u64_of_lt hM
  have e2 : u64 f.data.length = f.data.length := u64_of_lt (by omega)
  obtain ⟨i1, hw, hl1, _, hle1, hm1⟩ := index.Writes_inv ws idx (by omega) (by omega)
  exact ⟨i1, hw, by omega, hle1, by omega⟩

/-- C10 amended, on an empty file with the `MaxIndexBytes = 36` of `TestSegment` and the two
Writes of `TestIndex`. -/
theorem index_size_invariant_witness :
    newIndex ⟨[], false⟩ ⟨⟨1024, 36, 0⟩⟩
      = Except.ok ⟨⟨List.replicate 36 0, false⟩, List.replicate 36 0, 0⟩
    ∧ ∃ i1, index.Writes ⟨⟨List.replicate 36 0, false⟩, List.replicate 36 0, 0⟩
        [(0, 0), (1, 10)] = Go.ret i1
      ∧ i1.size % 12 = 0 ∧ i1.size ≤ i1.mmap.length
      ∧ i1.mmap.length = (⟨⟨1024, 36, 0⟩⟩ : Config).Segment.MaxIndexBytes :=
  ⟨by rfl, index_size_invariant ⟨[], false⟩ ⟨⟨1024, 36, 0⟩⟩
    ⟨⟨List.replicate 36 0, false⟩, List.replicate 36 0, 0⟩ [(0, 0), (1, 10)]
    (by rfl) (by decide) (by decide) (by decide)⟩

/-- C5. Index recovery across close/reopen: for every index that `newIndex` returns on an
empty file with config `c`, after any sequence of `Write` calls, `Close` returns nil, and
`newIndex` on a fresh handle of the same file with the same `c` returns an index with the
same `size` and, for every `n`, the same `Read(n)` result as before the `Close`. -/
theorem index_close_reopen (f : OsFile) (c : Config) (idx : index) (ws : List (Nat × Nat))
    (hempty : f.data = []) (hnew : newIndex f c = Except.ok idx) :
    ∃ i1 ic i2, idx.Writes ws = Go.ret i1 ∧ i1.Close = (ic, none)
      ∧ ic.file.data.length = i1.size
      ∧ newIndex ic.file.reopen c = Except.ok i2
      ∧ i2.mmap.length = u64 c.Segment.MaxIndexBytes
      ∧ i2.size = i1.size ∧ ∀ n : Int, i2.Read n = i1.Read n := by
  obtain ⟨_, hM63, hsz, _, hfile, hlen, hM0⟩ := newIndex_ok_inv f c idx hnew
  have hsz0 : idx.size = 0 := by rw [hsz, hempty]; rfl
  obtain ⟨i1, hw, hl1, hf1, hle1, _⟩ := index.Writes_inv ws idx (by omega) (by omega)
  have hopen : i1.file.closed = false := by rw [hf1, hfile]
  have hs63 : i1.size < 2 ^ 63 := by omega
  have hd : (truncateData i1.mmap i1.size).length = i1.size := truncateData_length _ _
  refine ⟨i1, _, _, hw, index.Close_ok i1 hopen hs63, hd, newIndex_ok _ c rfl hM63 hM0,
    truncateData_length _ _, ?_, ?_⟩
  · simp only [OsFile.reopen, hd]
    exact u64_of_lt (by omega)
  · intro n
    have hsize : u64 (truncateData i1.mmap i1.size).length = i1.size := by
      rw [hd]; exact u64_of_lt (by omega)
    have h64 : u64 i1.size = i1.size := u64_of_lt (by omega)
    apply index.Read_congr
    · exact hsize
    · simp only [OsFile.reopen, truncateData_length, h64]
      omega
    · exact hle1
    · simp only [OsFile.reopen, hsize]
      rw [take_truncateData _ (by rw [hd]) (by omega), truncateData_of_le _ hle1,
        List.take_take, Nat.min_self]

/-- C5, on the empty file of `TestIndex` with `MaxIndexBytes = 24` and its two Writes. -/
theorem index_close_reopen_witness :
    (⟨[], false⟩ : OsFile).data = []
    ∧ ∃ i1 ic i2, index.Writes ⟨⟨List.replicate 24 0, false⟩, List.replicate 24 0, 0⟩
        [(0, 0), (1, 10)] = Go.ret i1 ∧ i1.Close = (ic, none)
      ∧ ic.file.data.length = i1.size
      ∧ newIndex ic.file.reopen ⟨⟨1024, 24, 0⟩⟩ = Except.ok i2
      ∧ i2.mmap.length = u64 (⟨⟨1024, 24, 0⟩⟩ : Config).Segment.MaxIndexBytes
      ∧ i2.size = i1.size ∧ ∀ n : Int, i2.Read n = i1.Read n :=
  ⟨rfl, index_close_reopen ⟨[], false⟩ ⟨⟨1024, 24, 0⟩⟩
    ⟨⟨List.replicate 24 0, false⟩, List.replicate 24 0, 0⟩ [(0, 0), (1, 10)] rfl (by rfl)⟩

/-! ## The buffered writer -/

theorem OsFile.Write_of_open (f : OsFile) (b : List Nat) (h : f.closed = false) :
    f.Write b = ({ f with data := f.data ++ b }, b.length, none) := by
  simp [OsFile.Write, h]

theorem OsFile.Write_of_closed (f : OsFile) (b : List Nat) (h : f.closed = true) :
    f.Write b = (f, 0, some GoError.ErrClosed) := by
  simp [OsFile.Write, h]

/-- A `Flush` that returns nil has moved the buffered bytes to the end of the file. -/
theorem Writer.Flush_nil (b b1 : Writer) (wr wr1 : OsFile)
    (h : b.Flush wr = (b1, wr1, none)) :
    b.err = none ∧ b1.err = none ∧ b1.buf = [] ∧ wr1.data = wr.data ++ b.buf
      ∧ wr1.closed = wr.closed := by
  unfold Writer.Flush at h
  cases he : b.err with
  | some e => rw [he] at h; simp at h
  | none =>
    rw [he] at h
    simp only [Writer.Buffered] at h
    by_cases h0 : b.buf.length = 0
    · rw [if_pos h0] at h
      have hb : b.buf = [] := List.length_eq_zero.1 h0
      obtain ⟨rfl, rfl⟩ : b = b1 ∧ wr = wr1 := by simpa using h
      simp [he, hb]
    · rw [if_neg h0] at h
      cases hc : wr.closed with
      | true =>
        rw [OsFile.Write_of_closed _ _ hc] at h
        simp at h
      | false =>
        rw [OsFile.Write_of_open _ _ hc] at h
        simp at h
        obtain ⟨rfl, rfl⟩ := h
        simp [he, hc]

/-- On an open file a `Flush` of a writer without error returns nil. -/
theorem Writer.Flush_open (b : Writer) (wr : OsFile) (he : b.err = none)
    (hc : wr.closed = false) : ∃ b1 wr1, b.Flush wr = (b1, wr1, none) := by
  unfold Writer.Flush
  rw [he]
  simp only [Writer.Buffered]
  by_cases h0 : b.buf.length = 0
  · rw [if_pos h0]; exact ⟨_, _, rfl⟩
  · rw [if_neg h0, OsFile.Write_of_open _ _ hc]
    simp


/-- A `Write` that returns nil has taken all of `p`: the file followed by the buffer has
grown by exactly `p`, and the writer has no error. -/
theorem Writer.Write_nil (b b1 : Writer) (wr wr1 : OsFile) (p : List Nat) (k : Nat)
    (h : b.Write wr p = (b1, wr1, k, none)) :
    b.err = none ∧ b1.err = none ∧ wr1.closed = wr.closed
      ∧ wr1.data ++ b1.buf = wr.data ++ b.buf ++ p ∧ k = p.length := by
  unfold Writer.Write at h
  cases he : b.err with
  | some e => rw [he] at h; simp at h
  | none =>
    rw [he] at h
    simp only at h
    by_cases hfit : p.length ≤ b.Available
    · rw [if_pos hfit] at h
      simp only [Prod.mk.injEq] at h
      obtain ⟨rfl, rfl, rfl, _⟩ := h
      simp [he]
    · rw [if_neg hfit] at h
      by_cases h0 : b.Buffered = 0
      · rw [if_pos h0] at h
        have hb : b.buf = [] := List.length_eq_zero.1 h0
        cases hc : wr.closed with
        | true => rw [OsFile.Write_of_closed _ _ hc] at h; simp at h
        | false =>
          rw [OsFile.Write_of_open _ _ hc] at h
          simp only [Prod.mk.injEq] at h
          obtain ⟨rfl, rfl, rfl, _⟩ := h
          simp [he, hc, hb]
      · rw [if_neg h0] at h
        have hav : b.Available ≤ p.length := by omega
        cases hfl : Writer.Flush { err := none, buf := b.buf ++ p.take b.Available } wr with
        | mk b2 r =>
          obtain ⟨wr2, e2⟩ := r
          rw [hfl] at h
          cases e2 with
          | some e => simp at h
          | none =>
            obtain ⟨_, he2, hb2, hd2, hc2⟩ := Writer.Flush_nil _ _ _ _ hfl
            simp only at h
            by_cases hfit2 : (p.drop b.Available).length ≤ b2.Available
            · rw [if_pos hfit2] at h
              simp only [Prod.mk.injEq] at h
              obtain ⟨rfl, rfl, rfl, _⟩ := h
              refine ⟨rfl, he2, hc2, ?_, ?_⟩
              · simp only [hd2, hb2, List.nil_append, List.append_assoc, List.take_append_drop]
              · simp only [List.length_drop]; omega
            · rw [if_neg hfit2] at h
              cases hc : wr2.closed with
              | true => rw [OsFile.Write_of_closed _ _ hc] at h; simp at h
              | false =>
                rw [OsFile.Write_of_open _ _ hc] at h
                simp only [Prod.mk.injEq] at h
                obtain ⟨rfl, rfl, rfl, _⟩ := h
                refine ⟨rfl, he2, by simpa using hc2, ?_, ?_⟩
                · simp only [hd2, hb2, List.append_nil, List.append_assoc,
                    List.take_append_drop]
                · simp only [List.length_drop]; omega

/-- On an open file a `Write` to a writer without error returns nil. -/
theorem Writer.Write_open (b : Writer) (wr : OsFile) (p : List Nat) (he : b.err = none)
    (hc : wr.closed = false) : ∃ b1 wr1, b.Write wr p = (b1, wr1, p.length, none) := by
  unfold Writer.Write
  rw [he]
  simp only
  by_cases hfit : p.length ≤ b.Available
  · rw [if_pos hfit]; exact ⟨_, _, rfl⟩
  · rw [if_neg hfit]
    by_cases h0 : b.Buffered = 0
    · rw [if_pos h0, OsFile.Write_of_open _ _ hc]; exact ⟨_, _, rfl⟩
    · rw [if_neg h0]
      obtain ⟨b2, wr2, hfl⟩ := Writer.Flush_open
        { err := none, buf := b.buf ++ p.take b.Available } wr rfl hc
      obtain ⟨_, _, _, _, hc2⟩ := Writer.Flush_nil _ _ _ _ hfl
      have hcnt : b.Available + (p.drop b.Available).length = p.length := by
        simp only [List.length_drop]; omega
      rw [hfl]
      simp only
      by_cases hfit2 : (p.drop b.Available).length ≤ b2.Available
      · rw [if_pos hfit2, hcnt]
        exact ⟨_, _, rfl⟩
      · rw [if_neg hfit2, OsFile.Write_of_open _ _ (by rw [hc2]; exact hc)]
        simp only
        rw [hcnt]
        exact ⟨_, _, rfl⟩

/-! ## The store: single calls -/

theorem toInt64_of_lt {x : Nat} (h : x < 2 ^ 63) : toInt64 x = (x : Int) := by
  have h64 : u64 x = x := u64_of_lt (by omega)
  unfold toInt64
  rw [h64, if_pos h]

/-- Reading exactly the bytes `mid` that follow `pre` in an open file. -/
theorem OsFile.ReadAt_mid (f : OsFile) (pre mid post : List Nat) (hc : f.closed = false)
    (hd : f.data = pre ++ mid ++ post) :
    f.ReadAt mid.length (pre.length : Int) = (mid, none) := by
  unfold OsFile.ReadAt
  rw [if_neg (by omega)]
  by_cases h0 : mid.length = 0
  · rw [if_pos h0, List.length_eq_zero.1 h0]
  · rw [if_neg h0, hc]
    simp only [Bool.false_eq_true, if_false, Int.toNat_natCast]
    rw [if_pos (by rw [hd]; simp), hd, List.append_assoc, List.drop_left' rfl,
      List.take_left' rfl]

/-- What an `Append` that returns a nil error has done. -/
theorem store.Append_nil (s s1 : store) (p : List Nat) (n pos : Nat)
    (h : s.Append p = (s1, n, pos, none)) :
    s.buf.err = none ∧ s1.buf.err = none ∧ s1.File.closed = s.File.closed
      ∧ s1.content = s.content ++ (enc.PutUint64 (u64 p.length) ++ p)
      ∧ n = u64 (p.length + 8) ∧ pos = s.size
      ∧ s1.size = u64 (s.size + u64 (p.length + 8)) := by
  unfold store.Append at h
  cases h1 : s.buf.Write s.File (enc.PutUint64 (u64 p.length)) with
  | mk b1 r1 =>
    obtain ⟨f1, k1, e1⟩ := r1
    rw [h1] at h
    cases e1 with
    | some e => simp at h
    | none =>
      obtain ⟨he, he1, hc1, hd1, _⟩ := Writer.Write_nil _ _ _ _ _ _ h1
      simp only at h
      cases h2 : b1.Write f1 p with
      | mk b2 r2 =>
        obtain ⟨f2, k2, e2⟩ := r2
        rw [h2] at h
        cases e2 with
        | some e => simp at h
        | none =>
          obtain ⟨_, he2, hc2, hd2, hk2⟩ := Writer.Write_nil _ _ _ _ _ _ h2
          simp only [Prod.mk.injEq] at h
          obtain ⟨rfl, rfl, rfl, _⟩ := h
          subst hk2
          refine ⟨he, he2, by rw [hc2, hc1], ?_, rfl, rfl, rfl⟩
          simp only [store.content, hd2, hd1, List.append_assoc]

/-- On an open file, a store whose writer has no error accepts every `Append`. -/
theorem store.Append_open (s : store) (p : List Nat) (he : s.buf.err = none)
    (hc : s.File.closed = false) :
    ∃ s1, s.Append p = (s1, u64 (p.length + 8), s.size, none) := by
  obtain ⟨b1, f1, h1⟩ := Writer.Write_open s.buf s.File (enc.PutUint64 (u64 p.length)) he hc
  obtain ⟨_, he1, hc1, _, _⟩ := Writer.Write_nil _ _ _ _ _ _ h1
  obtain ⟨b2, f2, h2⟩ := Writer.Write_open b1 f1 p he1 (by rw [hc1]; exact hc)
  unfold store.Append
  rw [h1]
  simp only
  rw [h2]
  exact ⟨_, rfl⟩

/-- Reading the frame of `p` that follows `pre` in the bytes of an open store. -/
theorem store.Read_frame (s : store) (pre p post : List Nat) (he : s.buf.err = none)
    (hc : s.File.closed = false) (hd : s.content = pre ++ specFrame p ++ post)
    (h63 : pre.length + 8 + p.length < 2 ^ 63) (hp : p.length ≤ maxAlloc) :
    ∃ s2, s.Read pre.length = Go.ret (s2, Except.ok p) ∧ s2.File.data = s.content
      ∧ s2.buf.buf = [] ∧ s2.buf.err = none ∧ s2.File.closed = false ∧ s2.size = s.size := by
  obtain ⟨b1, f1, hfl⟩ := Writer.Flush_open s.buf s.File he hc
  obtain ⟨_, he1, hb1, hd1, hc1⟩ := Writer.Flush_nil _ _ _ _ hfl
  have hc1f : f1.closed = false := by rw [hc1]; exact hc
  have hdata : f1.data = pre ++ enc.PutUint64 p.length ++ (p ++ post) := by
    rw [hd1]
    unfold store.content specFrame at hd
    rw [hd]
    simp only [List.append_assoc]
  have hdata2 : f1.data = (pre ++ enc.PutUint64 p.length) ++ p ++ post := by
    rw [hdata]; simp only [List.append_assoc]
  have r1 := OsFile.ReadAt_mid f1 pre (enc.PutUint64 p.length) (p ++ post) hc1f hdata
  have r2 := OsFile.ReadAt_mid f1 (pre ++ enc.PutUint64 p.length) p post hc1f hdata2
  rw [PutUint64_length] at r1
  have hl : ((pre ++ enc.PutUint64 p.length).length : Int) = ((pre.length + 8 : Nat) : Int) := by
    simp [PutUint64_length]
  rw [hl] at r2
  have d1 := Uint64_PutUint64 (show p.length < 2 ^ 64 by omega) []
  rw [List.append_nil] at d1
  unfold store.Read
  rw [hfl]
  simp only
  rw [toInt64_of_lt (show pre.length < 2 ^ 63 by omega)]
  have hw : lenWidth = 8 := rfl
  rw [hw, r1]
  simp only
  rw [d1]
  simp only
  rw [if_neg (Nat.not_lt.2 hp), u64_of_lt (show pre.length + 8 < 2 ^ 64 by omega),
    toInt64_of_lt (show pre.length + 8 < 2 ^ 63 by omega), r2]
  exact ⟨_, rfl, by simp [store.content, hd1], hb1, he1, hc1f, rfl⟩

/-! ## The store: runs of Appends -/

theorem specFrames_length (ps : List (List Nat)) : (specFrames ps).length = specBytes ps := by
  induction ps with
  | nil => rfl
  | cons p ps ih =>
    simp only [specFrames, specBytes, specFrame, List.length_append, PutUint64_length, ih]

theorem specResults_length (ps : List (List Nat)) :
    ∀ base, (specResults base ps).length = ps.length := by
  induction ps with
  | nil => intro _; rfl
  | cons p ps ih => intro base; simp only [specResults, List.length_cons, ih]

theorem specBytes_take_lt (ps : List (List Nat)) :
    ∀ j k, j < k → k ≤ ps.length → specBytes (ps.take j) < specBytes (ps.take k) := by
  induction ps with
  | nil => intro j k hjk hk; simp at hk; omega
  | cons p ps ih =>
    intro j k hjk hk
    cases k with
    | zero => omega
    | succ k =>
      cases j with
      | zero => simp only [List.take_zero, List.take_succ_cons, specBytes]; omega
      | succ j =>
        simp only [List.take_succ_cons, specBytes]
        have := ih j k (by omega) (by simpa using hk)
        omega

theorem specResults_getElem (ps : List (List Nat)) :
    ∀ base k (h1 : k < (specResults base ps).length) (h2 : k < ps.length),
      (specResults base ps)[k] = (8 + ps[k].length, base + specBytes (ps.take k)) := by
  induction ps with
  | nil => intro _ k _ h2; simp at h2
  | cons p ps ih =>
    intro base k h1 h2
    cases k with
    | zero => simp [specResults, specBytes]
    | succ k =>
      simp only [specResults, List.getElem_cons_succ, List.take_succ_cons, specBytes]
      rw [ih (base + (8 + p.length)) k (by simpa [specResults] using h1) (by simpa using h2)]
      simp only [Prod.mk.injEq, true_and]
      omega

/-- What a run of Appends that all return nil has done, whatever the state of the file. -/
theorem store.Appends_ext (ps : List (List Nat)) :
    ∀ (s s1 : store) (rs : List (Nat × Nat)), s.Appends ps = some (s1, rs) →
      (∃ post, s1.content = s.content ++ post) ∧ s1.File.closed = s.File.closed
        ∧ (s.buf.err = none → s1.buf.err = none) := by
  induction ps with
  | nil =>
    intro s s1 rs h
    simp only [store.Appends, Option.some.injEq, Prod.mk.injEq] at h
    obtain ⟨rfl, _⟩ := h
    exact ⟨⟨[], by simp⟩, rfl, id⟩
  | cons p ps ih =>
    intro s s1 rs h
    unfold store.Appends at h
    cases ha : s.Append p with
    | mk sa r =>
      obtain ⟨n, pos, e⟩ := r
      rw [ha] at h
      cases e with
      | some e => simp at h
      | none =>
        obtain ⟨_, hea, hca, hda, _⟩ := store.Append_nil _ _ _ _ _ ha
        simp only at h
        cases hr : sa.Appends ps with
        | none => rw [hr] at h; simp at h
        | some r2 =>
          obtain ⟨s2, rs2⟩ := r2
          rw [hr] at h
          simp only [Option.some.injEq, Prod.mk.injEq] at h
          obtain ⟨rfl, _⟩ := h
          obtain ⟨⟨post, hpost⟩, hc2, he2⟩ := ih sa s2 rs2 hr
          exact ⟨⟨_, by rw [hpost, hda, List.append_assoc]⟩, by rw [hc2, hca], fun _ => he2 hea⟩

/-- A run of Appends that all return nil, without wrap-around of `size`: the bytes of the
store grow by the frames of the records, and the results are those of the spec. -/
theorem store.Appends_some (ps : List (List Nat)) :
    ∀ (s s1 : store) (rs : List (Nat × Nat)), s.Appends ps = some (s1, rs) →
      s.size + specBytes ps < 2 ^ 64 →
      s1.content = s.content ++ specFrames ps ∧ s1.size = s.size + specBytes ps
        ∧ rs = specResults s.size ps := by
  induction ps with
  | nil =>
    intro s s1 rs h _
    simp only [store.Appends, Option.some.injEq, Prod.mk.injEq] at h
    obtain ⟨rfl, rfl⟩ := h
    simp [specFrames, specBytes, specResults]
  | cons p ps ih =>
    intro s s1 rs h h64
    simp only [specBytes] at h64
    unfold store.Appends at h
    cases ha : s.Append p with
    | mk sa r =>
      obtain ⟨n, pos, e⟩ := r
      rw [ha] at h
      cases e with
      | some e => simp at h
      | none =>
        obtain ⟨_, _, _, hda, hn, hpos, hsz⟩ := store.Append_nil _ _ _ _ _ ha
        have e1 : u64 p.length = p.length := u64_of_lt (by omega)
        have e2 : u64 (p.length + 8) = 8 + p.length := by
          rw [u64_of_lt (by omega)]; omega
        have e3 : u64 (s.size + (8 + p.length)) = s.size + (8 + p.length) :=
          u64_of_lt (by omega)
        rw [e2, e3] at hsz
        rw [e2] at hn
        rw [e1] at hda
        simp only at h
        cases hr : sa.Appends ps with
        | none => rw [hr] at h; simp at h
        | some r2 =>
          obtain ⟨s2, rs2⟩ := r2
          rw [hr] at h
          simp only [Option.some.injEq, Prod.mk.injEq] at h
          obtain ⟨rfl, rfl⟩ := h
          obtain ⟨hc2, hs2, hr2⟩ := ih sa s2 rs2 hr (by omega)
          refine ⟨?_, ?_, ?_⟩
          · rw [hc2, hda]
            simp only [specFrames, specFrame, List.append_assoc]
          · rw [hs2, hsz]; simp only [specBytes]; omega
          · rw [hr2, hsz, hn, hpos]
            simp only [specResults]

/-- On an open file, a store whose writer has no error accepts every run of Appends. -/
theorem store.Appends_open (ps : List (List Nat)) :
    ∀ s : store, s.buf.err = none → s.File.closed = false →
      ∃ s1 rs, s.Appends ps = some (s1, rs) := by
  induction ps with
  | nil => intro s _ _; exact ⟨s, [], rfl⟩
  | cons p ps ih =>
    intro s he hc
    obtain ⟨sa, ha⟩ := store.Append_open s p he hc
    obtain ⟨_, hea, hca, _⟩ := store.Append_nil _ _ _ _ _ ha
    obtain ⟨s2, rs2, hr⟩ := ih sa hea (by rw [hca]; exact hc)
    refine ⟨s2, (u64 (p.length + 8), s.size) :: rs2, ?_⟩
    unfold store.Appends
    rw [ha]
    simp only
    rw [hr]

/-! ## Store: round trip, positions, frame format -/

/-- C6, as stated, fails on a store whose file has been closed: `Close` on a new store
returns nil; the store still has `size` equal to the bytes of its file; `Append("hi")`
returns `(10, 0, nil)`, the ten bytes staying in the buffer of the writer; and `Read(0)`
returns the error of the flush, not the payload. -/
theorem store_round_trip_counterexample :
    newStore ⟨[], false⟩ = Except.ok ⟨⟨[], false⟩, ⟨none, []⟩, 0⟩
    ∧ store.Close ⟨⟨[], false⟩, ⟨none, []⟩, 0⟩ = (⟨⟨[], true⟩, ⟨none, []⟩, 0⟩, none)
    ∧ (⟨⟨[], true⟩, ⟨none, []⟩, 0⟩ : store).size
        = (⟨⟨[], true⟩, ⟨none, []⟩, 0⟩ : store).File.data.length
    ∧ store.Append ⟨⟨[], true⟩, ⟨none, []⟩, 0⟩ [104, 105]
        = (⟨⟨[], true⟩, ⟨none, [0, 0, 0, 0, 0, 0, 0, 2, 104, 105]⟩, 10⟩, 10, 0, none)
    ∧ store.Read ⟨⟨[], true⟩, ⟨none, [0, 0, 0, 0, 0, 0, 0, 2, 104, 105]⟩, 10⟩ 0
        = Go.ret (⟨⟨[], true⟩, ⟨some GoError.ErrClosed, [0, 0, 0, 0, 0, 0, 0, 2, 104, 105]⟩, 10⟩,
            Except.error GoError.ErrClosed) := by
  refine ⟨rfl, by decide, by decide, by decide, rfl⟩

/-- On a closed file every `Read` returns an error: that of the flush, or that of the
first file read. -/
theorem store.Read_on_closed (t : store) (pos : Nat) (hc : t.File.closed = true) :
    ∃ t2 e, t.Read pos = Go.ret (t2, Except.error e) := by
  cases hfl : t.buf.Flush t.File with
  | mk b1 r =>
    obtain ⟨f1, e1⟩ := r
    cases e1 with
    | some e =>
      unfold store.Read
      rw [hfl]
      exact ⟨_, e, rfl⟩
    | none =>
      obtain ⟨_, _, _, _, hc1⟩ := Writer.Flush_nil _ _ _ _ hfl
      have hw : lenWidth = 8 := rfl
      have hr : ∃ e, f1.ReadAt lenWidth (toInt64 pos) = ([], some e) := by
        unfold OsFile.ReadAt
        by_cases hneg : toInt64 pos < 0
        · rw [if_pos hneg]; exact ⟨_, rfl⟩
        · rw [if_neg hneg, hw, if_neg (by decide), hc1, hc]
          exact ⟨_, rfl⟩
      obtain ⟨e, he⟩ := hr
      unfold store.Read
      rw [hfl]
      simp only
      rw [he]
      exact ⟨_, e, rfl⟩

/-- Reading at the frame of `p` that follows `pre` in the bytes of a store, whatever the
state of its file: `Read` returns, what it returns with a nil error is `p`, it is `p`
whenever the flush and the two file reads of `Read` return nil, and they do on an open
file. -/
theorem store.Read_frame_any (s : store) (pre p post : List Nat) (he : s.buf.err = none)
    (hd : s.content = pre ++ specFrame p ++ post)
    (h63 : pre.length + 8 + p.length < 2 ^ 63) (hp : p.length ≤ maxAlloc) :
    ∃ s2 r, s.Read pre.length = Go.ret (s2, r)
      ∧ (∀ q, r = Except.ok q → q = p)
      ∧ (∀ b f bs1 bs2, s.buf.Flush s.File = (b, f, none) →
          f.ReadAt lenWidth (toInt64 pre.length) = (bs1, none) →
          f.ReadAt p.length (toInt64 (u64 (pre.length + lenWidth))) = (bs2, none) →
          r = Except.ok p)
      ∧ (s.File.closed = false → r = Except.ok p) := by
  rcases Bool.eq_false_or_eq_true s.File.closed with hc | hc
  · obtain ⟨s2, e, h⟩ := store.Read_on_closed s pre.length hc
    refine ⟨s2, _, h, ?_, ?_, ?_⟩
    · intro q hq; cases hq
    · intro b f bs1 bs2 hfl h1 _
      exfalso
      obtain ⟨_, _, _, _, hc1⟩ := Writer.Flush_nil _ _ _ _ hfl
      have hw : lenWidth = 8 := rfl
      unfold OsFile.ReadAt at h1
      by_cases hneg : toInt64 pre.length < 0
      · rw [if_pos hneg] at h1; simp at h1
      · rw [if_neg hneg, hw, if_neg (by decide), hc1, hc] at h1
        simp at h1
    · intro ho; rw [hc] at ho; cases ho
  · obtain ⟨s2, h2, _⟩ := store.Read_frame s pre p post he hc hd h63 hp
    exact ⟨s2, _, h2, fun q hq => (Except.ok.inj hq).symm, fun _ _ _ _ _ _ _ => rfl,
      fun _ => rfl⟩

/-- C6, amended. Store round trip: for every store, whatever the state of its file, whose
`size` counts the bytes already written to its file (those in the file plus those still
buffered; with an empty buffer, the length of the file) and whose file stays below `2^63`
bytes, and for every payload `p` (a byte slice, so of at most `maxAlloc` bytes), the empty
one included: if `Append(p)` returns `(n, pos, nil)` then `Read(pos)` returns, and what it
returns with a nil error is exactly `p`, never anything else; it returns `p` with a nil
error whenever the flush with which it starts and its two file reads return nil; and they
do on a file that has not been closed. All this holds for the `Read(pos)` that follows any
run `qs` of further Appends that return nil; the empty run is the `Read` right after the
`Append`. -/
theorem store_append_read_round_trip (s s1 : store) (p : List Nat) (n pos : Nat)
    (hsize : s.size = s.File.data.length + s.buf.buf.length)
    (h63 : s.size + 8 + p.length < 2 ^ 63) (hp : p.length ≤ maxAlloc)
    (happ : s.Append p = (s1, n, pos, none)) :
    ∀ (qs : List (List Nat)) (s3 : store) (rs : List (Nat × Nat)),
      s1.Appends qs = some (s3, rs) →
      ∃ s4 r, s3.Read pos = Go.ret (s4, r)
        ∧ (∀ q, r = Except.ok q → q = p)
        ∧ (∀ b f bs1 bs2, s3.buf.Flush s3.File = (b, f, none) →
            f.ReadAt lenWidth (toInt64 pos) = (bs1, none) →
            f.ReadAt p.length (toInt64 (u64 (pos + lenWidth))) = (bs2, none) →
            r = Except.ok p)
        ∧ (s.File.closed = false → r = Except.ok p) := by
  obtain ⟨_, he1, hc1, hd1, _, hpos, _⟩ := store.Append_nil _ _ _ _ _ happ
  have hlen : s.content.length = pos := by
    rw [hpos, hsize]; simp [store.content]
  have e1 : u64 p.length = p.length := u64_of_lt (by omega)
  rw [e1] at hd1
  intro qs s3 rs hqs
  obtain ⟨⟨post, hpost⟩, hc3, he3⟩ := store.Appends_ext qs s1 s3 rs hqs
  have hd3 : s3.content = s.content ++ specFrame p ++ post := by
    rw [hpost, hd1]; simp [specFrame]
  obtain ⟨s4, r, h4, hq, hio, ho⟩ :=
    store.Read_frame_any s3 s.content p post (he3 he1) hd3 (by omega) hp
  rw [hlen] at h4 hio
  exact ⟨s4, r, h4, hq, hio, fun hopen => ho (by rw [hc3, hc1]; exact hopen)⟩

/-- C6 amended, on a new store over an empty file: `Append("hi")`, then `Read(0)` at once
(no further Appends). -/
theorem store_append_read_round_trip_witness :
    ∃ s4 r, store.Read ⟨⟨[], false⟩, ⟨none, [0, 0, 0, 0, 0, 0, 0, 2, 104, 105]⟩, 10⟩ 0
        = Go.ret (s4, r)
      ∧ (∀ q, r = Except.ok q → q = [104, 105])
      ∧ (∀ b f bs1 bs2,
          Writer.Flush ⟨none, [0, 0, 0, 0, 0, 0, 0, 2, 104, 105]⟩ ⟨[], false⟩ = (b, f, none) →
          f.ReadAt lenWidth (toInt64 0) = (bs1, none) →
          f.ReadAt [104, 105].length (toInt64 (u64 (0 + lenWidth))) = (bs2, none) →
          r = Except.ok [104, 105])
      ∧ ((⟨⟨[], false⟩, ⟨none, []⟩, 0⟩ : store).File.closed = false
          → r = Except.ok [104, 105]) :=
  store_append_read_round_trip ⟨⟨[], false⟩, ⟨none, []⟩, 0⟩
    ⟨⟨[], false⟩, ⟨none, [0, 0, 0, 0, 0, 0, 0, 2, 104, 105]⟩, 10⟩ [104, 105] 10 0
    rfl (by decide) (by decide) (by rfl) []
    ⟨⟨[], false⟩, ⟨none, [0, 0, 0, 0, 0, 0, 0, 2, 104, 105]⟩, 10⟩ [] rfl

/-- C7. For every store with size `s` and every payload `p` with `s + 8 + len(p)` a
`uint64`: an `Append(p)` whose writes succeed, that is, one that returns a nil error,
returns `bytes_written = 8 + len(p)` and start position `s` and leaves
`size = s + 8 + len(p)`; and on an open file with no earlier write error every write
succeeds and `Append(p)` does return `(8 + len(p), s, nil)`. Hence, for every run of
payloads whose bytes keep `size` a `uint64`, when the Appends all return nil the `k`-th
returns `n = 8 + len` and `pos = s` plus the sum of `8 + len` over the earlier payloads,
and the positions are strictly increasing; on an open file with no earlier write error
the Appends do all return nil. -/
theorem store_append_positions (s : store) (p : List Nat) (ps : List (List Nat))
    (hp : s.size + 8 + p.length < 2 ^ 64) (hps : s.size + specBytes ps < 2 ^ 64) :
    (∀ s1 n pos, s.Append p = (s1, n, pos, none) →
        n = 8 + p.length ∧ pos = s.size ∧ s1.size = s.size + 8 + p.length)
    ∧ (s.File.closed = false → s.buf.err = none →
        ∃ s1, s.Append p = (s1, 8 + p.length, s.size, none))
    ∧ (∀ s1 rs, s.Appends ps = some (s1, rs) →
        rs.length = ps.length ∧ s1.size = s.size + specBytes ps
        ∧ (∀ k (h1 : k < rs.length) (h2 : k < ps.length),
            rs[k] = (8 + ps[k].length, s.size + specBytes (ps.take k)))
        ∧ (∀ j k (hj : j < k) (hk : k < rs.length), rs[j].2 < rs[k].2))
    ∧ (s.File.closed = false → s.buf.err = none → ∃ s1 rs, s.Appends ps = some (s1, rs)) := by
  have e2 : u64 (p.length + 8) = 8 + p.length := by
    rw [u64_of_lt (by omega)]; omega
  refine ⟨?_, ?_, ?_, fun hopen herr => store.Appends_open ps s herr hopen⟩
  · intro s1 n pos h1
    obtain ⟨_, _, _, _, hn, hpos, hsz⟩ := store.Append_nil _ _ _ _ _ h1
    rw [e2] at hn hsz
    rw [u64_of_lt (by omega)] at hsz
    exact ⟨hn, hpos, by omega⟩
  · intro hopen herr
    obtain ⟨s1, h1⟩ := store.Append_open s p herr hopen
    rw [e2] at h1
    exact ⟨s1, h1⟩
  · intro s1 rs h
    obtain ⟨_, hsz, hrs⟩ := store.Appends_some ps s s1 rs h hps
    have hl : rs.length = ps.length := by rw [hrs, specResults_length]
    have hget : ∀ k (h1 : k < rs.length) (h2 : k < ps.length),
        rs[k] = (8 + ps[k].length, s.size + specBytes (ps.take k)) := by
      subst hrs
      intro k h1 h2
      exact specResults_getElem ps s.size k h1 h2
    refine ⟨hl, hsz, hget, ?_⟩
    intro j k hj hk
    rw [hget j (by omega) (by omega), hget k hk (by omega)]
    have := specBytes_take_lt ps j k hj (by omega)
    simp only
    omega

/-- C7, on a new store over an empty file with the payloads `"hi"`, `""`, `"x"`. -/
theorem store_append_positions_witness :
    (⟨⟨[], false⟩, ⟨none, []⟩, 0⟩ : store).size + 8 + [104, 105].length < 2 ^ 64
    ∧ store.Appends ⟨⟨[], false⟩, ⟨none, []⟩, 0⟩ [[104, 105], [], [120]]
        = some (⟨⟨[], false⟩, ⟨none, [0, 0, 0, 0, 0, 0, 0, 2, 104, 105,
            0, 0, 0, 0, 0, 0, 0, 0, 0, 0, 0, 0, 0, 0, 0, 1, 120]⟩, 27⟩,
          [(10, 0), (8, 10), (9, 18)])
    ∧ [(10, 0), (8, 10), (9, 18)].length = [[104, 105], [], [120]].length
    ∧ (27 : Nat) = 0 + specBytes [[104, 105], [], [120]] :=
  ⟨by decide, by decide,
    ((store_append_positions ⟨⟨[], false⟩, ⟨none, []⟩, 0⟩ [104, 105]
      [[104, 105], [], [120]] (by decide) (by decide)).2.2.1
        ⟨⟨[], false⟩, ⟨none, [0, 0, 0, 0, 0, 0, 0, 2, 104, 105,
            0, 0, 0, 0, 0, 0, 0, 0, 0, 0, 0, 0, 0, 0, 0, 1, 120]⟩, 27⟩
        [(10, 0), (8, 10), (9, 18)] (by decide)).1,
    ((store_append_positions ⟨⟨[], false⟩, ⟨none, []⟩, 0⟩ [104, 105]
      [[104, 105], [], [120]] (by decide) (by decide)).2.2.1
        ⟨⟨[], false⟩, ⟨none, [0, 0, 0, 0, 0, 0, 0, 2, 104, 105,
            0, 0, 0, 0, 0, 0, 0, 0, 0, 0, 0, 0, 0, 0, 0, 1, 120]⟩, 27⟩
        [(10, 0), (8, 10), (9, 18)] (by decide)).2.1⟩

/-- Every return of `Read` after a flush that succeeded leaves the flushed store. -/
theorem store.Read_state (s s2 : store) (pos : Nat) (r : Except GoError (List Nat))
    (b1 : Writer) (f1 : OsFile) (hfl : s.buf.Flush s.File = (b1, f1, none))
    (h : s.Read pos = Go.ret (s2, r)) : s2 = { s with File := f1, buf := b1 } := by
  unfold store.Read at h
  rw [hfl] at h
  simp only at h
  split at h
  · exact (Prod.mk.inj (Go.ret.inj h)).1.symm
  · split at h
    · simp at h
    · split at h
      · simp at h
      · split at h
        · exact (Prod.mk.inj (Go.ret.inj h)).1.symm
        · exact (Prod.mk.inj (Go.ret.inj h)).1.symm

/-- C8. Store frame format: for a store that `newStore` opens on an empty file, after
Appends of `p1..pn` that all return nil (the frames together being a `uint64` number of
bytes), `size` is the length of the concatenation of the frames; and once the flush of the
buffered writer has returned nil, the bytes of the file are exactly the in-order
concatenation of the frames, each frame being the 8-byte big-endian encoding of `len(pi)`
followed by `pi`. That flush is the first step of `Close`, of `ReadAt` and of `Read`, and
the file has those bytes after each of them. On an open file the flush does return nil,
and so does `Close`. -/
theorem store_frame_format (f : OsFile) (s0 s : store) (ps : List (List Nat))
    (rs : List (Nat × Nat)) (b1 : Writer) (f1 : OsFile) (hempty : f.data = [])
    (hnew : newStore f = Except.ok s0) (happ : s0.Appends ps = some (s, rs))
    (h64 : (specFrames ps).length < 2 ^ 64)
    (hfl : s.buf.Flush s.File = (b1, f1, none)) :
    s.size = (specFrames ps).length
    ∧ f1.data = specFrames ps ∧ b1.buf = []
    ∧ s.Close.1.File.data = specFrames ps
    ∧ (∀ (n : Nat) (off : Int), (s.ReadAt n off).1.File.data = specFrames ps)
    ∧ (∀ (pos : Nat) (s2 : store) (r : Except GoError (List Nat)),
        s.Read pos = Go.ret (s2, r) → s2.File.data = specFrames ps)
    ∧ (∀ (p : List Nat), specFrame p = enc.PutUint64 p.length ++ p)
    ∧ (∀ p ∈ ps, enc.Uint64 (enc.PutUint64 p.length) = Go.ret p.length)
    ∧ (f.closed = false → (∃ b2 f2, s.buf.Flush s.File = (b2, f2, none)) ∧ s.Close.2 = none) := by
  have hs0 : s0 = { File := f, size := u64 f.data.length, buf := { err := none, buf := [] } } :=
    (Except.ok.inj hnew).symm
  have hsz0 : s0.size = 0 := by rw [hs0, hempty]; rfl
  have hc0 : s0.content = [] := by rw [hs0]; simp [store.content, hempty]
  have he0 : s0.buf.err = none := by rw [hs0]
  have hcl0 : s0.File.closed = f.closed := by rw [hs0]
  rw [specFrames_length] at h64
  obtain ⟨hcont, hsize, _⟩ := store.Appends_some ps s0 s rs happ (by omega)
  obtain ⟨_, hcl, herr⟩ := store.Appends_ext ps s0 s rs happ
  rw [hc0, List.nil_append] at hcont
  obtain ⟨_, _, hb1, hd1, hc1⟩ := Writer.Flush_nil _ _ _ _ hfl
  have hdata : f1.data = specFrames ps := by rw [hd1]; exact hcont
  refine ⟨by rw [hsize, hsz0, specFrames_length]; omega, hdata, hb1, ?_, ?_, ?_,
    fun _ => rfl, ?_, ?_⟩
  · unfold store.Close
    rw [hfl]
    simp only [OsFile.Close]
    split <;> exact hdata
  · intro n off
    unfold store.ReadAt
    rw [hfl]
    exact hdata
  · intro pos s2 r hr
    rw [store.Read_state s s2 pos r b1 f1 hfl hr]
    exact hdata
  · intro p hp
    have hle : ∀ qs : List (List Nat), p ∈ qs → p.length ≤ specBytes qs := by
      intro qs
      induction qs with
      | nil => intro h; simp at h
      | cons q qs ih =>
        intro h
        simp only [specBytes]
        rcases List.mem_cons.1 h with rfl | h'
        · omega
        · have := ih h'; omega
    have := hle ps hp
    have d := Uint64_PutUint64 (show p.length < 2 ^ 64 by omega) []
    rw [List.append_nil] at d
    exact d
  · intro hopen
    have hc1f : f1.closed = false := by rw [hc1, hcl, hcl0]; exact hopen
    refine ⟨⟨b1, f1, hfl⟩, ?_⟩
    unfold store.Close
    rw [hfl]
    simp only [OsFile.Close, hc1f, Bool.false_eq_true, if_false]

/-- C8, on an empty file with the payloads `"hi"` and `""`. -/
theorem store_frame_format_witness :
    (store.Close ⟨⟨[], false⟩, ⟨none, [0, 0, 0, 0, 0, 0, 0, 2, 104, 105,
        0, 0, 0, 0, 0, 0, 0, 0]⟩, 18⟩).1.File.data
      = [0, 0, 0, 0, 0, 0, 0, 2, 104, 105, 0, 0, 0, 0, 0, 0, 0, 0]
    ∧ specFrames [[104, 105], []] = [0, 0, 0, 0, 0, 0, 0, 2, 104, 105, 0, 0, 0, 0, 0, 0, 0, 0] :=
  ⟨(store_frame_format ⟨[], false⟩ ⟨⟨[], false⟩, ⟨none, []⟩, 0⟩
      ⟨⟨[], false⟩, ⟨none, [0, 0, 0, 0, 0, 0, 0, 2, 104, 105, 0, 0, 0, 0, 0, 0, 0, 0]⟩, 18⟩
      [[104, 105], []] [(10, 0), (8, 10)] ⟨none, []⟩
      ⟨[0, 0, 0, 0, 0, 0, 0, 2, 104, 105, 0, 0, 0, 0, 0, 0, 0, 0], false⟩
      rfl (by rfl) (by rfl) (by decide) (by rfl)).2.2.2.1,
    by decide⟩

/-! ## Index: writes only append -/

/-- C19. Index writes are append-only: on an index holding `k` entries (`size = 12 * k`,
with `size + 12` a `uint64`), every `Write(off, pos)` returns, with a nil error or with
`io.EOF`, and in both cases the mapped bytes in `[0, 12 * k)` are unchanged and `Read(j)`
returns the same result as before the Write for every `0 ≤ j < k`. -/
theorem index_write_append_only (i : index) (k off pos : Nat) (hsize : i.size = 12 * k)
    (h64 : i.size + 12 < 2 ^ 64) :
    ∃ i1 e, i.Write off pos = Go.ret (i1, e) ∧ (e = none ∨ e = some GoError.EOF)
      ∧ i1.mmap.take (12 * k) = i.mmap.take (12 * k)
      ∧ ∀ j : Int, 0 ≤ j → j < k → i1.Read j = i.Read j := by
  by_cases hfull : i.mmap.length < i.size + 12
  · refine ⟨i, some GoError.EOF, index.Write_eof i off pos ?_, Or.inr rfl, rfl, fun _ _ _ => rfl⟩
    have e1 : u64 (i.size + entWidth) = i.size + 12 := u64_of_lt h64
    omega
  · have hfit : i.size + 12 ≤ i.mmap.length := by omega
    have hl : (List.take i.size i.mmap).length = i.size := by simp; omega
    have htake : List.take i.size (List.take i.size i.mmap
        ++ (enc.PutUint32 off ++ enc.PutUint64 pos) ++ List.drop (i.size + 12) i.mmap)
        = List.take i.size i.mmap := by
      rw [List.append_assoc, List.take_left' hl]
    refine ⟨_, none, index.Write_ok i off pos hfit h64, Or.inl rfl, ?_, ?_⟩
    · rw [← hsize]; exact htake
    · intro j hj0 hjk
      obtain ⟨m, rfl⟩ := Int.eq_ofNat_of_zero_le hj0
      have hne : ((m : Int) = -1) = False := by
        apply eq_false; omega
      have hm : m % 2 ^ 32 ≤ m := Nat.mod_le _ _
      have hmk : m < k := by omega
      have hout : ∀ sz : Nat, (if (m : Int) = -1 then u32 (u64 (sz / entWidth + 2 ^ 64 - 1))
          else int64ToU32 (m : Int)) = m % 2 ^ 32 := by
        intro sz
        simp only [hne, if_false]
        exact int64ToU32_natCast_mod m
      rw [index.Read_in_range { i with
          mmap := i.mmap.take i.size ++ (enc.PutUint32 off ++ enc.PutUint64 pos)
            ++ i.mmap.drop (i.size + 12),
          size := i.size + 12 } (m : Int) (m % 2 ^ 32) (hout _)
          (by simp only []; omega)
          (by simp [PutUint32_length, PutUint64_length]; omega),
        index.Read_in_range i (m : Int) (m % 2 ^ 32) (hout _) (by omega) (by omega)]
      simp only []
      rw [← take_drop_take (List.take i.size i.mmap
            ++ (enc.PutUint32 off ++ enc.PutUint64 pos) ++ List.drop (i.size + 12) i.mmap)
          (show m % 2 ^ 32 * 12 + 4 ≤ i.size by omega),
        ← take_drop_take (List.take i.size i.mmap
            ++ (enc.PutUint32 off ++ enc.PutUint64 pos) ++ List.drop (i.size + 12) i.mmap)
          (show m % 2 ^ 32 * 12 + 4 + 8 ≤ i.size by omega),
        htake, take_drop_take i.mmap (show m % 2 ^ 32 * 12 + 4 ≤ i.size by omega),
        take_drop_take i.mmap (show m % 2 ^ 32 * 12 + 4 + 8 ≤ i.size by omega)]

/-- C19, on the two-entry index of `TestIndex` in a 36-byte mapping. -/
theorem index_write_append_only_witness :
    ∃ i1 e, index.Write ⟨⟨[], false⟩, [0, 0, 0, 0, 0, 0, 0, 0, 0, 0, 0, 0,
        0, 0, 0, 1, 0, 0, 0, 0, 0, 0, 0, 10, 0, 0, 0, 0, 0, 0, 0, 0, 0, 0, 0, 0], 24⟩ 2 20
        = Go.ret (i1, e) ∧ (e = none ∨ e = some GoError.EOF)
      ∧ i1.mmap.take (12 * 2) = [0, 0, 0, 0, 0, 0, 0, 0, 0, 0, 0, 0,
        0, 0, 0, 1, 0, 0, 0, 0, 0, 0, 0, 10]
      ∧ ∀ j : Int, 0 ≤ j → j < (2 : Nat) → i1.Read j
        = index.Read ⟨⟨[], false⟩, [0, 0, 0, 0, 0, 0, 0, 0, 0, 0, 0, 0,
          0, 0, 0, 1, 0, 0, 0, 0, 0, 0, 0, 10, 0, 0, 0, 0, 0, 0, 0, 0, 0, 0, 0, 0], 24⟩ j :=
  index_write_append_only ⟨⟨[], false⟩, [0, 0, 0, 0, 0, 0, 0, 0, 0, 0, 0, 0,
        0, 0, 0, 1, 0, 0, 0, 0, 0, 0, 0, 10, 0, 0, 0, 0, 0, 0, 0, 0, 0, 0, 0, 0], 24⟩ 2 2 20
    (by decide) (by decide)

/-! ## The store after `Close` -/

/-- A `Flush` on a closed file leaves the file alone and returns nil only when there is
nothing to flush. -/
theorem Writer.Flush_on_closed (b : Writer) (wr : OsFile) (hc : wr.closed = true) :
    (b.Flush wr).2.1 = wr
    ∧ ((b.Flush wr).2.2 = none → b.err = none ∧ b.buf = [] ∧ (b.Flush wr).1 = b) := by
  unfold Writer.Flush
  cases he : b.err with
  | some e => simp
  | none =>
    simp only [Writer.Buffered]
    by_cases h0 : b.buf.length = 0
    · rw [if_pos h0]
      exact ⟨rfl, fun _ => ⟨trivial, List.length_eq_zero.1 h0, rfl⟩⟩
    · rw [if_neg h0, OsFile.Write_of_closed _ _ hc]
      simp

/-- A `Write` through the buffered writer on a closed file leaves the file alone and
returns nil only when the bytes fit the free space of the buffer. -/
theorem Writer.Write_on_closed (b : Writer) (wr : OsFile) (p : List Nat)
    (hc : wr.closed = true) :
    (b.Write wr p).2.1 = wr
    ∧ ((b.Write wr p).2.2.2 = none →
        b.err = none ∧ p.length ≤ b.Available ∧ (b.Write wr p).1 = { b with buf := b.buf ++ p }) := by
  unfold Writer.Write
  cases he : b.err with
  | some e => simp
  | none =>
    simp only
    by_cases hfit : p.length ≤ b.Available
    · rw [if_pos hfit]
      exact ⟨rfl, fun _ => ⟨trivial, hfit, rfl⟩⟩
    · rw [if_neg hfit]
      by_cases h0 : b.Buffered = 0
      · rw [if_pos h0, OsFile.Write_of_closed _ _ hc]
        simp
      · rw [if_neg h0]
        have hne : (b.buf ++ List.take b.Available p).length ≠ 0 := by
          simp only [Writer.Buffered] at h0
          simp only [List.length_append]
          omega
        have hfl : Writer.Flush { err := none, buf := b.buf ++ List.take b.Available p } wr
            = ({ err := some GoError.ErrClosed, buf := b.buf ++ List.take b.Available p }, wr,
                some GoError.ErrClosed) := by
          unfold Writer.Flush
          simp only [Writer.Buffered]
          rw [if_neg hne, OsFile.Write_of_closed _ _ hc]
          simp
        rw [hfl]
        simp


/-- C11, as stated, fails: on a new store over an empty file `Close` returns nil, and then
`Append("hi")` returns `(10, 0, nil)` (the ten bytes fit the 4096-byte buffer of the writer,
no write reaches the file), and `ReadAt` into an empty buffer returns `(0, nil)`. -/
theorem store_post_close_counterexample :
    newStore ⟨[], false⟩ = Except.ok ⟨⟨[], false⟩, ⟨none, []⟩, 0⟩
    ∧ store.Close ⟨⟨[], false⟩, ⟨none, []⟩, 0⟩ = (⟨⟨[], true⟩, ⟨none, []⟩, 0⟩, none)
    ∧ store.Append ⟨⟨[], true⟩, ⟨none, []⟩, 0⟩ [104, 105]
        = (⟨⟨[], true⟩, ⟨none, [0, 0, 0, 0, 0, 0, 0, 2, 104, 105]⟩, 10⟩, 10, 0, none)
    ∧ store.ReadAt ⟨⟨[], true⟩, ⟨none, []⟩, 0⟩ 0 0 = (⟨⟨[], true⟩, ⟨none, []⟩, 0⟩, [], none) := by
  refine ⟨rfl, by decide, by decide, by decide⟩

/-- C11, amended. Once `store.Close` has returned nil the file is closed, and it stays
closed under every later `Append`, `Read`, `ReadAt` and `Close`. On every store whose file
is closed: every `Read` returns a nil payload and a non-nil error; every `ReadAt` into a
non-empty buffer returns a non-nil error; and every `Append` whose frame does not fit the
free space of the write buffer (`buffered + 8 + len(p) > 4096`) returns a non-nil error. -/
theorem store_post_close (s0 s1 : store) (hclose : s0.Close = (s1, none)) :
    s1.File.closed = true
    ∧ ∀ t : store, t.File.closed = true →
        (∀ p, (t.Append p).1.File.closed = true)
        ∧ (∀ n off, (t.ReadAt n off).1.File.closed = true)
        ∧ t.Close.1.File.closed = true
        ∧ (∀ pos, ∃ t2 e, t.Read pos = Go.ret (t2, Except.error e) ∧ t2.File.closed = true)
        ∧ (∀ n off, n ≠ 0 → (t.ReadAt n off).2.2 ≠ none)
        ∧ (∀ p, defaultBufSize < t.buf.buf.length + 8 + p.length →
            (t.Append p).2.2.2 ≠ none) := by
  constructor
  · unfold store.Close at hclose
    cases hfl : s0.buf.Flush s0.File with
    | mk b1 r =>
      obtain ⟨f1, e1⟩ := r
      rw [hfl] at hclose
      cases e1 with
      | some e => simp at hclose
      | none =>
        simp only [OsFile.Close] at hclose
        by_cases hc : f1.closed = true
        · rw [if_pos hc] at hclose; simp at hclose
        · rw [if_neg hc] at hclose
          simp only [Prod.mk.injEq, and_true] at hclose
          rw [← hclose]
  · intro t hc
    have hflush := Writer.Flush_on_closed t.buf t.File hc
    refine ⟨?_, ?_, ?_, ?_, ?_, ?_⟩
    · intro p
      have h1 := Writer.Write_on_closed t.buf t.File (enc.PutUint64 (u64 p.length)) hc
      unfold store.Append
      cases hw1 : t.buf.Write t.File (enc.PutUint64 (u64 p.length)) with
      | mk b1 r1 =>
        obtain ⟨f1, k1, e1⟩ := r1
        rw [hw1] at h1
        have hf1 : f1 = t.File := h1.1
        cases e1 with
        | some e => simp only; rw [hf1]; exact hc
        | none =>
          simp only
          have h2 := Writer.Write_on_closed b1 f1 p (by rw [hf1]; exact hc)
          cases hw2 : b1.Write f1 p with
          | mk b2 r2 =>
            obtain ⟨f2, k2, e2⟩ := r2
            rw [hw2] at h2
            have hf2 : f2 = f1 := h2.1
            cases e2 with
            | some e => simp only; rw [hf2, hf1]; exact hc
            | none => simp only; rw [hf2, hf1]; exact hc
    · intro n off
      unfold store.ReadAt
      cases hfl : t.buf.Flush t.File with
      | mk b1 r =>
        obtain ⟨f1, e1⟩ := r
        rw [hfl] at hflush
        have hf1 : f1 = t.File := hflush.1
        cases e1 with
        | some e => simp only; rw [hf1]; exact hc
        | none => simp only; rw [hf1]; exact hc
    · unfold store.Close
      cases hfl : t.buf.Flush t.File with
      | mk b1 r =>
        obtain ⟨f1, e1⟩ := r
        rw [hfl] at hflush
        have hf1 : f1 = t.File := hflush.1
        cases e1 with
        | some e => simp only; rw [hf1]; exact hc
        | none =>
          simp only [OsFile.Close]
          rw [hf1, if_pos hc]
          exact hc
    · intro pos
      unfold store.Read
      cases hfl : t.buf.Flush t.File with
      | mk b1 r =>
        obtain ⟨f1, e1⟩ := r
        rw [hfl] at hflush
        have hf1 : f1 = t.File := hflush.1
        cases e1 with
        | some e => exact ⟨_, e, rfl, by rw [hf1]; exact hc⟩
        | none =>
          simp only
          have hw : lenWidth = 8 := rfl
          have hr : ∃ e, f1.ReadAt lenWidth (toInt64 pos) = ([], some e) := by
            unfold OsFile.ReadAt
            by_cases hneg : toInt64 pos < 0
            · rw [if_pos hneg]; exact ⟨_, rfl⟩
            · rw [if_neg hneg, hw, if_neg (by decide), hf1, hc]
              exact ⟨_, rfl⟩
          obtain ⟨e, he⟩ := hr
          rw [he]
          exact ⟨_, e, rfl, by rw [hf1]; exact hc⟩
    · intro n off hn
      unfold store.ReadAt
      cases hfl : t.buf.Flush t.File with
      | mk b1 r =>
        obtain ⟨f1, e1⟩ := r
        rw [hfl] at hflush
        have hf1 : f1 = t.File := hflush.1
        cases e1 with
        | some e => simp
        | none =>
          simp only
          unfold OsFile.ReadAt
          by_cases hneg : off < 0
          · rw [if_pos hneg]; simp
          · rw [if_neg hneg, if_neg hn, hf1, hc]
            simp
    · intro p hbig
      have h1 := Writer.Write_on_closed t.buf t.File (enc.PutUint64 (u64 p.length)) hc
      unfold store.Append
      cases hw1 : t.buf.Write t.File (enc.PutUint64 (u64 p.length)) with
      | mk b1 r1 =>
        obtain ⟨f1, k1, e1⟩ := r1
        rw [hw1] at h1
        have hf1 : f1 = t.File := h1.1
        cases e1 with
        | some e => simp
        | none =>
          simp only
          obtain ⟨_, hfit1, hb1⟩ := h1.2 rfl
          have h2 := Writer.Write_on_closed b1 f1 p (by rw [hf1]; exact hc)
          cases hw2 : b1.Write f1 p with
          | mk b2 r2 =>
            obtain ⟨f2, k2, e2⟩ := r2
            rw [hw2] at h2
            cases e2 with
            | some e => simp
            | none =>
              exfalso
              obtain ⟨_, hfit2, _⟩ := h2.2 rfl
              simp only at hb1
              rw [hb1] at hfit2
              simp only [Writer.Available, List.length_append, PutUint64_length] at hfit1 hfit2
              omega

/-- C11 amended, on a new store over an empty file that has been closed. -/
theorem store_post_close_witness :
    store.Close ⟨⟨[], false⟩, ⟨none, []⟩, 0⟩ = (⟨⟨[], true⟩, ⟨none, []⟩, 0⟩, none)
    ∧ (⟨⟨[], true⟩, ⟨none, []⟩, 0⟩ : store).File.closed = true :=
  ⟨by decide, (store_post_close ⟨⟨[], false⟩, ⟨none, []⟩, 0⟩ ⟨⟨[], true⟩, ⟨none, []⟩, 0⟩
    (by decide)).1⟩

/-! ## Store: a length that `make` refuses -/

/-- Where the short-read contract of `store.Read` does hold: on a store whose `size` counts
the bytes of its file and of its buffer (below `2^63`), `Read(pos)` returns an error when
fewer than 8 bytes exist at `pos`, and when the length `L` decoded at `pos` is one that the
runtime allocates (`L ≤ maxAlloc`, and the process has the memory) and `pos + 8 + L` is
beyond `size`. -/
theorem store.Read_short (s : store) (pos : Nat)
    (hsize : s.size = s.File.data.length + s.buf.buf.length) (h63 : s.size < 2 ^ 63)
    (hpos : pos < 2 ^ 64) :
    (s.size < pos + 8 → ∃ s2 e, s.Read pos = Go.ret (s2, Except.error e))
    ∧ (∀ L, pos + 8 ≤ s.size → enc.Uint64 ((s.content.drop pos).take 8) = Go.ret L →
        L ≤ maxAlloc → s.size < pos + 8 + L →
        ∃ s2 e, s.Read pos = Go.ret (s2, Except.error e)) := by
  have hw : lenWidth = 8 := rfl
  cases hfl : s.buf.Flush s.File with
  | mk b1 r =>
    obtain ⟨f1, e1⟩ := r
    cases e1 with
    | some e =>
      have : ∃ s2 e, s.Read pos = Go.ret (s2, Except.error e) := by
        unfold store.Read
        rw [hfl]
        exact ⟨_, e, rfl⟩
      exact ⟨fun _ => this, fun _ _ _ _ _ => this⟩
    | none =>
      obtain ⟨_, _, _, hd1, _⟩ := Writer.Flush_nil _ _ _ _ hfl
      have hlen : f1.data.length = s.size := by rw [hd1, hsize]; simp
      have hcont : f1.data = s.content := by rw [hd1]; rfl
      constructor
      · intro hshort
        have hr : ∃ bs e, f1.ReadAt lenWidth (toInt64 pos) = (bs, some e) := by
          unfold OsFile.ReadAt
          by_cases hneg : toInt64 pos < 0
          · rw [if_pos hneg]; exact ⟨_, _, rfl⟩
          · rw [if_neg hneg, hw, if_neg (by decide)]
            by_cases hc : f1.closed = true
            · rw [if_pos hc]; exact ⟨_, _, rfl⟩
            · rw [if_neg hc]
              have hp63 : pos < 2 ^ 63 := by
                by_contra hge
                apply hneg
                have h1 : u64 pos = pos := u64_of_lt hpos
                unfold toInt64
                rw [h1, if_neg hge]
                omega
              rw [toInt64_of_lt hp63, Int.toNat_natCast, if_neg (by omega)]
              exact ⟨_, _, rfl⟩
        obtain ⟨bs, e, hre⟩ := hr
        unfold store.Read
        rw [hfl]
        simp only
        rw [hre]
        exact ⟨_, e, rfl⟩
      · intro L hfit hdec hL hbeyond
        have hp63 : pos + 8 < 2 ^ 63 := by omega
        unfold store.Read
        rw [hfl]
        simp only
        cases hr1 : f1.ReadAt lenWidth (toInt64 pos) with
        | mk bs e1 =>
          cases e1 with
          | some e => exact ⟨_, e, rfl⟩
          | none =>
            simp only
            have hbs : bs = (s.content.drop pos).take 8 := by
              unfold OsFile.ReadAt at hr1
              rw [toInt64_of_lt (by omega), if_neg (by omega), hw, if_neg (by decide)] at hr1
              by_cases hc : f1.closed = true
              · rw [if_pos hc] at hr1; simp at hr1
              · rw [if_neg hc, Int.toNat_natCast, if_pos (by omega)] at hr1
                rw [← hcont]
                exact (Prod.mk.inj hr1).1.symm
            have hopen : ¬ f1.closed = true := by
              intro hc
              unfold OsFile.ReadAt at hr1
              rw [toInt64_of_lt (by omega), if_neg (by omega), hw, if_neg (by decide),
                if_pos hc] at hr1
              simp at hr1
            rw [hbs, hdec]
            simp only
            rw [if_neg (Nat.not_lt.2 hL), hw, u64_of_lt (by omega), toInt64_of_lt hp63]
            have hr2 : ∃ b e, f1.ReadAt L ((pos + 8 : Nat) : Int) = (b, some e) := by
              unfold OsFile.ReadAt
              rw [if_neg (by omega), if_neg (by omega), if_neg hopen, Int.toNat_natCast,
                if_neg (by omega)]
              exact ⟨_, _, rfl⟩
            obtain ⟨b, e, hre⟩ := hr2
            rw [hre]
            exact ⟨_, e, rfl⟩

/-- C20: the code at the failing input. On a new store over an empty file,
`Append` of the eight bytes `0xff` returns `(16, 0, nil)` and leaves `size = 16`. The
length decoded at `pos = 8` is `L = 2^64 - 1`, so `pos + 8 + L > size`; `Read(8)` does
not return an error: `make([]byte, L)` panics. -/
theorem store_read_huge_length_panics :
    store.Append ⟨⟨[], false⟩, ⟨none, []⟩, 0⟩ [255, 255, 255, 255, 255, 255, 255, 255]
      = (⟨⟨[], false⟩, ⟨none, [0, 0, 0, 0, 0, 0, 0, 8,
            255, 255, 255, 255, 255, 255, 255, 255]⟩, 16⟩, 16, 0, none)
    ∧ enc.Uint64 [255, 255, 255, 255, 255, 255, 255, 255] = Go.ret (2 ^ 64 - 1)
    ∧ 8 + 8 + (2 ^ 64 - 1) > 16
    ∧ store.Read ⟨⟨[], false⟩, ⟨none, [0, 0, 0, 0, 0, 0, 0, 8,
          255, 255, 255, 255, 255, 255, 255, 255]⟩, 16⟩ 8 = Go.panic := by
  refine ⟨by decide, by decide, by decide, by rfl⟩

/-! ## The replicator: maps and channels -/

theorem entriesGet_filter_self (l : List (String × Nat)) (n : String) :
    entriesGet (entriesDelete l n) n = none := by
  induction l with
  | nil => rfl
  | cons e l ih =>
    obtain ⟨k, v⟩ := e
    by_cases hk : k = n
    · simp [entriesDelete, hk, ih]
    · simp [entriesDelete, hk, entriesGet, ih]

theorem entriesGet_filter_other (l : List (String × Nat)) (n m : String) (h : m ≠ n) :
    entriesGet (entriesDelete l n) m = entriesGet l m := by
  induction l with
  | nil => rfl
  | cons e l ih =>
    obtain ⟨k, v⟩ := e
    by_cases hk : k = n
    · have hkm : ¬ k = m := by rw [hk]; exact fun h' => h h'.symm
      have hnm : ¬ n = m := fun h' => h h'.symm
      simp [entriesDelete, hk, entriesGet, ih, hnm]
    · by_cases hkm : k = m
      · subst hkm
        simp [entriesDelete, hk, entriesGet]
      · simp [entriesDelete, hk, entriesGet, hkm, ih]

theorem entriesGet_append_single (l : List (String × Nat)) (n m : String) (v : Nat) :
    entriesGet (l ++ [(n, v)]) m
      = match entriesGet l m with
        | some x => some x
        | none => if n = m then some v else none := by
  induction l with
  | nil => simp [entriesGet]
  | cons e l ih =>
    obtain ⟨k, x⟩ := e
    by_cases hkm : k = m
    · simp [entriesGet, hkm]
    · simp [entriesGet, hkm, ih]

theorem mapGet_mapDelete_self (m : Option (List (String × Nat))) (n : String) :
    mapGet (mapDelete m n) n = none := by
  cases m with
  | none => rfl
  | some l => exact entriesGet_filter_self l n

theorem mapGet_mapDelete_other (m : Option (List (String × Nat))) (n k : String)
    (h : k ≠ n) : mapGet (mapDelete m n) k = mapGet m k := by
  cases m with
  | none => rfl
  | some l => exact entriesGet_filter_other l n k h

/-- An assignment to a map that is not nil. -/
theorem mapSet_some (l : List (String × Nat)) (n : String) (v : Nat) :
    ∃ m, mapSet (some l) n v = Go.ret m ∧ mapGet m n = some v
      ∧ ∀ k, k ≠ n → mapGet m k = mapGet (some l) k := by
  refine ⟨_, rfl, ?_, ?_⟩
  · simp [mapGet, entriesGet_append_single, entriesGet_filter_self]
  · intro k hk
    have hnk : ¬ n = k := fun h => hk h.symm
    simp only [mapGet, entriesGet_append_single, entriesGet_filter_other l n k hk, hnk, if_false]
    cases entriesGet l k <;> rfl

theorem Runtime.makeChan_chans (w : Runtime) :
    (w.makeChan).1.chans = w.chans ++ [false] ∧ (w.makeChan).2 = w.chans.length
      ∧ (w.makeChan).1.pumps = w.pumps := ⟨rfl, rfl, rfl⟩

theorem getElem?_append_false (cs : List Bool) (c : Nat) (h : c < cs.length) :
    (cs ++ [false])[c]? = cs[c]? := List.getElem?_append_left h

/-- Closing an open channel. -/
theorem Runtime.closeChan_open (w : Runtime) (c : Nat) (h : w.chans[c]? = some false) :
    w.closeChan (some c) = Go.ret { w with chans := w.chans.set c true } := by
  simp [Runtime.closeChan, h]

/-- What a `close(ch)` that returns has done. -/
theorem Runtime.closeChan_ret (w w1 : Runtime) (ch : Option Nat)
    (h : w.closeChan ch = Go.ret w1) :
    ∃ c, ch = some c ∧ w.chans[c]? = some false ∧ w1 = { w with chans := w.chans.set c true } := by
  cases ch with
  | none => simp [Runtime.closeChan] at h
  | some c =>
    unfold Runtime.closeChan at h
    simp only at h
    cases hc : w.chans[c]? with
    | none => rw [hc] at h; simp at h
    | some b =>
      cases b with
      | true => rw [hc] at h; simp at h
      | false =>
        rw [hc] at h
        simp only [Go.ret.injEq] at h
        exact ⟨c, rfl, hc, h.symm⟩

theorem getElem?_set_other (cs : List Bool) (c d : Nat) (b : Bool) (h : d ≠ c) :
    (cs.set c b)[d]? = cs[d]? := by
  rw [List.getElem?_set]
  simp [Ne.symm h]

theorem getElem?_set_self (cs : List Bool) (c : Nat) (b : Bool) (h : c < cs.length) :
    (cs.set c b)[c]? = some b := by
  rw [List.getElem?_set]
  simp [h]



/-- What `init` does: it sets the three lazily made fields and nothing else. -/
theorem Replicator.init_spec (r : Replicator) (w : Runtime) :
    (r.init w).1.ready ∧ (r.init w).1.closed = r.closed
    ∧ (∀ n, mapGet (r.init w).1.servers n = mapGet r.servers n)
    ∧ (r.servers ≠ none → (r.init w).1.servers = r.servers)
    ∧ (r.init w).2.pumps = w.pumps
    ∧ (r.close ≠ none → (r.init w).1.close = r.close ∧ (r.init w).2 = w)
    ∧ (r.close = none →
        (r.init w).1.close = some w.chans.length ∧ (r.init w).2.chans = w.chans ++ [false])
    ∧ (r.ready → r.init w = (r, w)) := by
  obtain ⟨logger, servers, closed, close⟩ := r
  cases logger <;> cases servers <;> cases close <;>
    simp [Replicator.init, Replicator.ready, Runtime.makeChan, mapGet, entriesGet]

/-- After `init` no channel that existed has changed. -/
theorem Replicator.init_chans (r : Replicator) (w : Runtime) (c : Nat)
    (h : c < w.chans.length) : (r.init w).2.chans[c]? = w.chans[c]? := by
  obtain ⟨_, _, _, _, _, h1, h2, _⟩ := Replicator.init_spec r w
  cases hc : r.close with
  | none => rw [(h2 hc).2]; exact List.getElem?_append_left h
  | some x => rw [(h1 (by rw [hc]; simp)).2]

theorem Replicator.init_length (r : Replicator) (w : Runtime) :
    w.chans.length ≤ (r.init w).2.chans.length := by
  obtain ⟨_, _, _, _, _, h1, h2, _⟩ := Replicator.init_spec r w
  cases hc : r.close with
  | none => rw [(h2 hc).2]; simp
  | some x => rw [(h1 (by rw [hc]; simp)).2]

/-- The invariant `wf` survives `init`. -/
theorem Replicator.init_wf (r : Replicator) (w : Runtime) (h : r.wf w) :
    (r.init w).1.wf (r.init w).2 := by
  obtain ⟨_, hcl, hget, _, _, h1, h2, _⟩ := Replicator.init_spec r w
  obtain ⟨ha, hb, hc⟩ := h
  have hlt : ∀ n ch, mapGet r.servers n = some ch → ch < w.chans.length := by
    intro n ch hn
    have := ha n ch hn
    by_contra hge
    rw [List.getElem?_eq_none (by omega)] at this
    simp at this
  refine ⟨?_, ?_, ?_⟩
  · intro n ch hn
    rw [hget] at hn
    rw [Replicator.init_chans r w ch (hlt n ch hn)]
    exact ha n ch hn
  · intro n1 n2 ch h1' h2'
    rw [hget] at h1' h2'
    exact hb n1 n2 ch h1' h2'
  · intro c hcc
    cases hclose : r.close with
    | none =>
      obtain ⟨e1, e2⟩ := h2 hclose
      rw [e1] at hcc
      have hceq : c = w.chans.length := (Option.some.inj hcc).symm
      subst hceq
      refine ⟨by rw [e2]; simp, fun _ => by rw [e2]; simp, ?_⟩
      intro n hn
      rw [hget] at hn
      have := hlt n _ hn
      omega
    | some x =>
      obtain ⟨e1, e2⟩ := h1 (by rw [hclose]; simp)
      rw [e1] at hcc
      obtain ⟨p1, p2, p3⟩ := hc c hcc
      rw [e2, hcl]
      refine ⟨p1, p2, ?_⟩
      intro n hn
      rw [hget] at hn
      exact p3 n hn

/-! ## The replicator: the three methods -/

/-- `Join` on a closed replicator only runs `init`. -/
theorem Replicator.Join_closed (r : Replicator) (w : Runtime) (name addr : String)
    (h : r.closed = true) :
    r.Join w name addr = Go.ret ((r.init w).1, (r.init w).2, none) := by
  have hc := (Replicator.init_spec r w).2.1
  unfold Replicator.Join
  simp only [hc, h, if_true]

/-- `Join` of a tracked name only runs `init`. -/
theorem Replicator.Join_tracked (r : Replicator) (w : Runtime) (name addr : String)
    (ch : Nat) (h : mapGet r.servers name = some ch) :
    r.Join w name addr = Go.ret ((r.init w).1, (r.init w).2, none) := by
  have hg := (Replicator.init_spec r w).2.2.1 name
  unfold Replicator.Join
  simp only [hg, h]
  split <;> rfl

/-- `Join` of an untracked name on a replicator that is not closed. -/
theorem Replicator.Join_untracked (r : Replicator) (w : Runtime) (name addr : String)
    (hopen : r.closed = false) (h : mapGet r.servers name = none) :
    ∃ m, r.Join w name addr = Go.ret ({ (r.init w).1 with servers := m },
        { chans := (r.init w).2.chans ++ [false],
          pumps := (r.init w).2.pumps ++ [(addr, (r.init w).2.chans.length)] }, none)
      ∧ mapGet m name = some (r.init w).2.chans.length
      ∧ ∀ k, k ≠ name → mapGet m k = mapGet r.servers k := by
  obtain ⟨hready, hc, hg, _⟩ := Replicator.init_spec r w
  obtain ⟨_, hs, _⟩ := hready
  cases hsv : (r.init w).1.servers with
  | none => exact absurd hsv hs
  | some l =>
    obtain ⟨m, hm1, hm2, hm3⟩ := mapSet_some l name (r.init w).2.chans.length
    refine ⟨m, ?_, hm2, ?_⟩
    · unfold Replicator.Join
      simp only [hc, hopen, hg, h, Bool.false_eq_true, if_false, Runtime.makeChan]
      rw [hsv, hm1]
      simp only [hm2]
    · intro k hk
      rw [hm3 k hk, ← hsv, hg]

/-- `Leave` of an untracked name only runs `init`. -/
theorem Replicator.Leave_untracked (r : Replicator) (w : Runtime) (name : String)
    (h : mapGet r.servers name = none) :
    r.Leave w name = Go.ret ((r.init w).1, (r.init w).2, none) := by
  have hg := (Replicator.init_spec r w).2.2.1 name
  unfold Replicator.Leave
  simp only [hg, h]

/-- `Leave` of a tracked name whose cancel channel is open. -/
theorem Replicator.Leave_tracked (r : Replicator) (w : Runtime) (name : String) (ch : Nat)
    (h : mapGet r.servers name = some ch) (hch : (r.init w).2.chans[ch]? = some false) :
    r.Leave w name = Go.ret
      ({ (r.init w).1 with servers := mapDelete (r.init w).1.servers name },
        { (r.init w).2 with chans := (r.init w).2.chans.set ch true }, none) := by
  have hg := (Replicator.init_spec r w).2.2.1 name
  unfold Replicator.Leave
  simp only [hg, h, Runtime.closeChan_open _ _ hch]

/-- `Close` on a closed replicator only runs `init`. -/
theorem Replicator.Close_closed (r : Replicator) (w : Runtime) (h : r.closed = true) :
    r.Close w = Go.ret ((r.init w).1, (r.init w).2, none) := by
  have hc := (Replicator.init_spec r w).2.1
  unfold Replicator.Close
  simp only [hc, h, if_true]

/-- What a `Close` that returns on a replicator that is not closed has done. -/
theorem Replicator.Close_open (r r1 : Replicator) (w w1 : Runtime) (e : Option GoError)
    (hopen : r.closed = false) (h : r.Close w = Go.ret (r1, w1, e)) :
    ∃ c, (r.init w).1.close = some c ∧ (r.init w).2.chans[c]? = some false
      ∧ r1 = { (r.init w).1 with closed := true }
      ∧ w1 = { (r.init w).2 with chans := (r.init w).2.chans.set c true } ∧ e = none := by
  have hc := (Replicator.init_spec r w).2.1
  unfold Replicator.Close at h
  simp only [hc, hopen, Bool.false_eq_true, if_false] at h
  cases hcl : (r.init w).2.closeChan (r.init w).1.close with
  | panic => rw [hcl] at h; simp at h
  | ret w2 =>
    rw [hcl] at h
    simp only [Go.ret.injEq, Prod.mk.injEq] at h
    obtain ⟨c, h1, h2, h3⟩ := Runtime.closeChan_ret _ _ _ hcl
    exact ⟨c, h1, h2, h.1.symm, by rw [← h.2.1, h3], h.2.2.symm⟩

theorem lt_of_getElem?_eq_some {cs : List Bool} {c : Nat} {b : Bool}
    (h : cs[c]? = some b) : c < cs.length := by
  by_contra hge
  rw [List.getElem?_eq_none (by omega)] at h
  simp at h

theorem ne_none_of_mapGet {m : Option (List (String × Nat))} {n : String} {v : Nat}
    (h : mapGet m n = some v) : m ≠ none := by
  intro hm
  rw [hm] at h
  simp [mapGet] at h

/-- The invariant `wf` survives `Join`, which returns nil. -/
theorem Replicator.Join_wf (r r1 : Replicator) (w w1 : Runtime) (name addr : String)
    (e : Option GoError) (hwf : r.wf w) (h : r.Join w name addr = Go.ret (r1, w1, e)) :
    r1.wf w1 ∧ e = none ∧ r1.ready ∧ r1.closed = r.closed := by
  have hi := Replicator.init_wf r w hwf
  obtain ⟨hready, hcl, hg, _⟩ := Replicator.init_spec r w
  have hinit : ∀ (h' : r.Join w name addr = Go.ret ((r.init w).1, (r.init w).2, none)),
      r1.wf w1 ∧ e = none ∧ r1.ready ∧ r1.closed = r.closed := by
    intro h'
    rw [h'] at h
    simp only [Go.ret.injEq, Prod.mk.injEq] at h
    obtain ⟨rfl, rfl, rfl⟩ := h
    exact ⟨hi, rfl, hready, hcl⟩
  rcases Bool.eq_false_or_eq_true r.closed with hc | hc
  · exact hinit (Replicator.Join_closed r w name addr hc)
  · rcases Option.eq_none_or_eq_some (mapGet r.servers name) with ht | ⟨ch, ht⟩
    · obtain ⟨m, hj, hm1, hm2⟩ := Replicator.Join_untracked r w name addr hc ht
      rw [hj] at h
      simp only [Go.ret.injEq, Prod.mk.injEq] at h
      obtain ⟨rfl, rfl, rfl⟩ := h
      obtain ⟨ha, hb, hcc⟩ := hi
      have hold : ∀ n ch, n ≠ name → mapGet m n = some ch →
          mapGet (r.init w).1.servers n = some ch := by
        intro n ch hn hmn
        rw [hm2 n hn] at hmn
        rw [hg]; exact hmn
      have hnew : ∀ ch, mapGet m name = some ch → ch = (r.init w).2.chans.length := by
        intro ch hch
        rw [hm1] at hch
        exact (Option.some.inj hch).symm
      refine ⟨⟨?_, ?_, ?_⟩, rfl, ⟨hready.1, ne_none_of_mapGet hm1, hready.2.2⟩, hcl⟩
      · intro n ch hn
        by_cases hnn : n = name
        · subst hnn
          rw [hnew ch hn]
          simp
        · have h1 := ha n ch (hold n ch hnn hn)
          simp only []
          rw [List.getElem?_append_left (lt_of_getElem?_eq_some h1)]
          exact h1
      · intro n1 n2 ch h1 h2
        by_cases hn1 : n1 = name
        · by_cases hn2 : n2 = name
          · rw [hn1, hn2]
          · exfalso
            subst hn1
            have := lt_of_getElem?_eq_some (ha n2 ch (hold n2 ch hn2 h2))
            have := hnew ch h1
            omega
        · by_cases hn2 : n2 = name
          · exfalso
            subst hn2
            have := lt_of_getElem?_eq_some (ha n1 ch (hold n1 ch hn1 h1))
            have := hnew ch h2
            omega
          · exact hb n1 n2 ch (hold n1 ch hn1 h1) (hold n2 ch hn2 h2)
      · intro c hclose
        obtain ⟨p1, p2, p3⟩ := hcc c hclose
        refine ⟨by simp only [List.length_append, List.length_singleton]; omega, ?_, ?_⟩
        · intro hcf
          simp only []
          rw [List.getElem?_append_left p1]
          exact p2 hcf
        · intro n hn
          by_cases hnn : n = name
          · subst hnn
            have := hnew c hn
            omega
          · exact p3 n (hold n c hnn hn)
    · exact hinit (Replicator.Join_tracked r w name addr ch ht)

/-- On a state that satisfies `wf`, `Leave` returns nil and keeps the invariant. -/
theorem Replicator.Leave_wf (r : Replicator) (w : Runtime) (name : String) (hwf : r.wf w) :
    ∃ r1 w1, r.Leave w name = Go.ret (r1, w1, none) ∧ r1.wf w1 ∧ r1.ready
      ∧ r1.closed = r.closed := by
  have hi := Replicator.init_wf r w hwf
  obtain ⟨hready, hcl, hg, _⟩ := Replicator.init_spec r w
  rcases Option.eq_none_or_eq_some (mapGet r.servers name) with ht | ⟨ch, ht⟩
  · exact ⟨_, _, Replicator.Leave_untracked r w name ht, hi, hready, hcl⟩
  · obtain ⟨ha, hb, hcc⟩ := hi
    have hti : mapGet (r.init w).1.servers name = some ch := by rw [hg]; exact ht
    have hopen := ha name ch hti
    refine ⟨_, _, Replicator.Leave_tracked r w name ch ht hopen, ⟨?_, ?_, ?_⟩,
      ⟨hready.1, ?_, hready.2.2⟩, hcl⟩
    · intro n c hn
      simp only [] at hn ⊢
      by_cases hnn : n = name
      · subst hnn; rw [mapGet_mapDelete_self] at hn; simp at hn
      · rw [mapGet_mapDelete_other _ _ _ hnn] at hn
        have hne : c ≠ ch := by
          intro hceq
          subst hceq
          exact hnn (hb n name c hn hti)
        rw [getElem?_set_other _ _ _ _ hne]
        exact ha n c hn
    · intro n1 n2 c h1 h2
      simp only [] at h1 h2
      by_cases hn1 : n1 = name
      · subst hn1; rw [mapGet_mapDelete_self] at h1; simp at h1
      · by_cases hn2 : n2 = name
        · subst hn2; rw [mapGet_mapDelete_self] at h2; simp at h2
        · rw [mapGet_mapDelete_other _ _ _ hn1] at h1
          rw [mapGet_mapDelete_other _ _ _ hn2] at h2
          exact hb n1 n2 c h1 h2
    · intro c hclose
      obtain ⟨p1, p2, p3⟩ := hcc c hclose
      have hne : c ≠ ch := by
        intro hceq
        subst hceq
        exact p3 name hti
      refine ⟨by simp only [List.length_set]; exact p1, ?_, ?_⟩
      · intro hcf
        simp only []
        rw [getElem?_set_other _ _ _ _ hne]
        exact p2 hcf
      · intro n hn
        simp only [] at hn
        by_cases hnn : n = name
        · subst hnn; rw [mapGet_mapDelete_self] at hn; simp at hn
        · rw [mapGet_mapDelete_other _ _ _ hnn] at hn
          exact p3 n hn
    · simp only []
      cases hs : (r.init w).1.servers with
      | none => exact absurd hs hready.2.1
      | some l => simp [mapDelete]

/-- On a state that satisfies `wf`, `Close` returns nil and keeps the invariant. -/
theorem Replicator.Close_wf (r : Replicator) (w : Runtime) (hwf : r.wf w) :
    ∃ r1 w1, r.Close w = Go.ret (r1, w1, none) ∧ r1.wf w1 ∧ r1.ready ∧ r1.closed = true := by
  have hi := Replicator.init_wf r w hwf
  obtain ⟨hready, hcl, hg, _⟩ := Replicator.init_spec r w
  rcases Bool.eq_false_or_eq_true r.closed with hc | hc
  · exact ⟨_, _, Replicator.Close_closed r w hc, hi, hready, by rw [hcl]; exact hc⟩
  · obtain ⟨ha, hb, hcc⟩ := hi
    cases hclose : (r.init w).1.close with
    | none => exact absurd hclose hready.2.2
    | some c =>
      obtain ⟨p1, p2, p3⟩ := hcc c hclose
      have hopen := p2 (by rw [hcl]; exact hc)
      have hret : r.Close w = Go.ret ({ (r.init w).1 with closed := true },
          { (r.init w).2 with chans := (r.init w).2.chans.set c true }, none) := by
        unfold Replicator.Close
        simp only [hcl, hc, Bool.false_eq_true, if_false, hclose,
          Runtime.closeChan_open _ _ hopen]
      refine ⟨_, _, hret, ⟨?_, ?_, ?_⟩, ⟨hready.1, hready.2.1, by simp only []; rw [hclose]; simp⟩, rfl⟩
      · intro n ch hn
        simp only [] at hn ⊢
        have hne : ch ≠ c := by
          intro hceq
          subst hceq
          exact p3 n hn
        rw [getElem?_set_other _ _ _ _ hne]
        exact ha n ch hn
      · intro n1 n2 ch h1 h2
        exact hb n1 n2 ch h1 h2
      · intro c' hc'
        simp only [] at hc'
        rw [hclose] at hc'
        have hceq : c' = c := (Option.some.inj hc').symm
        subst hceq
        refine ⟨by simp only [List.length_set]; exact p1, fun hf => by simp at hf, p3⟩

/-- A call on a state that satisfies `wf` returns nil and keeps the invariant; it leaves
the replicator `ready`, and closed if it was. -/
theorem Replicator.call_wf (r : Replicator) (w : Runtime) (c : ReplicatorCall)
    (hwf : r.wf w) :
    ∃ r1 w1, r.call w c = Go.ret (r1, w1, none) ∧ r1.wf w1 ∧ r1.ready
      ∧ (r.closed = true → r1.closed = true) := by
  cases c with
  | Join name addr =>
    have hret : ∃ r1 w1, r.Join w name addr = Go.ret (r1, w1, none) := by
      rcases Bool.eq_false_or_eq_true r.closed with hc | hc
      · exact ⟨_, _, Replicator.Join_closed r w name addr hc⟩
      · rcases Option.eq_none_or_eq_some (mapGet r.servers name) with ht | ⟨ch, ht⟩
        · obtain ⟨m, hj, _⟩ := Replicator.Join_untracked r w name addr hc ht
          exact ⟨_, _, hj⟩
        · exact ⟨_, _, Replicator.Join_tracked r w name addr ch ht⟩
    obtain ⟨r1, w1, hj⟩ := hret
    obtain ⟨h1, _, h3, h4⟩ := Replicator.Join_wf r r1 w w1 name addr none hwf hj
    exact ⟨r1, w1, hj, h1, h3, fun h => by rw [h4]; exact h⟩
  | Leave name =>
    obtain ⟨r1, w1, hl, h1, h2, h3⟩ := Replicator.Leave_wf r w name hwf
    exact ⟨r1, w1, hl, h1, h2, fun h => by rw [h3]; exact h⟩
  | Close =>
    obtain ⟨r1, w1, hl, h1, h2, h3⟩ := Replicator.Close_wf r w hwf
    exact ⟨r1, w1, hl, h1, h2, fun _ => h3⟩

/-- Every run of calls from a state that satisfies `wf` returns, in a state that
satisfies it. -/
theorem Replicator.run_wf (cs : List ReplicatorCall) :
    ∀ (r : Replicator) (w : Runtime), r.wf w →
      ∃ r1 w1, r.run w cs = Go.ret (r1, w1) ∧ r1.wf w1
        ∧ (r.closed = true → r1.closed = true) ∧ (r.ready → r1.ready) := by
  induction cs with
  | nil => intro r w h; exact ⟨r, w, rfl, h, id, id⟩
  | cons c cs ih =>
    intro r w h
    obtain ⟨r1, w1, hc, h1, h2, h3⟩ := Replicator.call_wf r w c h
    obtain ⟨r2, w2, hr, h4, h5, h6⟩ := ih r1 w1 h1
    refine ⟨r2, w2, ?_, h4, fun hcl => h5 (h3 hcl), fun _ => h6 h2⟩
    unfold Replicator.run
    rw [hc]
    exact hr

/-- The zero value satisfies `wf`, whatever channels exist. -/
theorem Replicator.zero_wf (w : Runtime) : Replicator.zero.wf w := by
  refine ⟨?_, ?_, ?_⟩
  · intro n ch h; simp [Replicator.zero, mapGet] at h
  · intro n1 n2 ch h; simp [Replicator.zero, mapGet] at h
  · intro c h; simp [Replicator.zero] at h

/-! ## The replicator: Join, Close, Leave -/

/-- C14. `Replicator.Join` on a replicator that is not closed returns nil and changes no
channel that existed. If `name` is already in the servers table, the table is unchanged
(that peer's cancel channel included) and no pump is spawned. If `name` is not tracked,
the table gets exactly that key, bound to a fresh, open cancel channel, exactly one pump is
spawned (on `addr` and that channel) and every other entry is unchanged. A second
`Join(name, addr)` right after changes nothing at all, so `Join; Join` leaves the same
table and the same pumps as a single `Join`. -/
theorem replicator_join (r : Replicator) (w : Runtime) (name addr : String)
    (hopen : r.closed = false) :
    ∃ r1 w1, r.Join w name addr = Go.ret (r1, w1, none)
      ∧ (∀ c, c < w.chans.length → w1.chans[c]? = w.chans[c]?)
      ∧ (∀ ch, mapGet r.servers name = some ch →
          r1.servers = r.servers ∧ w1.pumps = w.pumps)
      ∧ (mapGet r.servers name = none →
          ∃ ch, mapGet r1.servers name = some ch ∧ w.chans.length ≤ ch
            ∧ w1.chans[ch]? = some false ∧ w1.pumps = w.pumps ++ [(addr, ch)]
            ∧ ∀ n, n ≠ name → mapGet r1.servers n = mapGet r.servers n)
      ∧ r1.Join w1 name addr = Go.ret (r1, w1, none) := by
  obtain ⟨hready, hcl, hg, hsv, hp, _, _, _⟩ := Replicator.init_spec r w
  rcases Option.eq_none_or_eq_some (mapGet r.servers name) with ht | ⟨ch, ht⟩
  · obtain ⟨m, hj, hm1, hm2⟩ := Replicator.Join_untracked r w name addr hopen ht
    refine ⟨_, _, hj, ?_, ?_, ?_, ?_⟩
    · intro c hc
      simp only []
      rw [List.getElem?_append_left
        (Nat.lt_of_lt_of_le hc (Replicator.init_length r w))]
      exact Replicator.init_chans r w c hc
    · intro ch hch
      rw [ht] at hch
      simp at hch
    · intro _
      refine ⟨_, hm1, Replicator.init_length r w, by simp, by simp only []; rw [hp], hm2⟩
    · have hr1 : Replicator.ready { (r.init w).1 with servers := m } :=
        ⟨hready.1, ne_none_of_mapGet hm1, hready.2.2⟩
      rw [Replicator.Join_tracked _ _ name addr _ hm1,
        (Replicator.init_spec _ _).2.2.2.2.2.2.2 hr1]
  · have hne : r.servers ≠ none := ne_none_of_mapGet ht
    refine ⟨_, _, Replicator.Join_tracked r w name addr ch ht, ?_, ?_, ?_, ?_⟩
    · intro c hc
      exact Replicator.init_chans r w c hc
    · intro _ _
      exact ⟨hsv hne, hp⟩
    · intro hnone
      rw [ht] at hnone
      simp at hnone
    · rw [Replicator.Join_tracked _ _ name addr ch (by rw [hg]; exact ht),
        (Replicator.init_spec _ _).2.2.2.2.2.2.2 hready]

/-- C14, on the zero value: `Join("a", "x")`, then `Join("a", "x")` again. -/
theorem replicator_join_witness :
    Replicator.Join Replicator.zero ⟨[], []⟩ "a" "x"
      = Go.ret (⟨true, some [("a", 1)], false, some 0⟩, ⟨[false, false], [("x", 1)]⟩, none)
    ∧ Replicator.Join ⟨true, some [("a", 1)], false, some 0⟩ ⟨[false, false], [("x", 1)]⟩
        "a" "x"
      = Go.ret (⟨true, some [("a", 1)], false, some 0⟩, ⟨[false, false], [("x", 1)]⟩, none)
    ∧ ∃ r1 w1, Replicator.Join Replicator.zero ⟨[], []⟩ "a" "x" = Go.ret (r1, w1, none)
        ∧ r1.Join w1 "a" "x" = Go.ret (r1, w1, none) :=
  ⟨by decide, by decide,
    match replicator_join Replicator.zero ⟨[], []⟩ "a" "x" rfl with
    | ⟨r1, w1, h1, _, _, _, h5⟩ => ⟨r1, w1, h1, h5⟩⟩

/-- A call that returns on a closed, `ready` replicator leaves it closed and `ready`. -/
theorem Replicator.call_closed (r r1 : Replicator) (w w1 : Runtime) (c : ReplicatorCall)
    (e : Option GoError) (hcl : r.closed = true) (hready : r.ready)
    (h : r.call w c = Go.ret (r1, w1, e)) : r1.closed = true ∧ r1.ready := by
  have hinit := (Replicator.init_spec r w).2.2.2.2.2.2.2 hready
  cases c with
  | Join name addr =>
    simp only [Replicator.call] at h
    rw [Replicator.Join_closed r w name addr hcl, hinit] at h
    simp only [Go.ret.injEq, Prod.mk.injEq] at h
    obtain ⟨rfl, _, _⟩ := h
    exact ⟨hcl, hready⟩
  | Close =>
    simp only [Replicator.call] at h
    rw [Replicator.Close_closed r w hcl, hinit] at h
    simp only [Go.ret.injEq, Prod.mk.injEq] at h
    obtain ⟨rfl, _, _⟩ := h
    exact ⟨hcl, hready⟩
  | Leave name =>
    simp only [Replicator.call, Replicator.Leave, hinit] at h
    cases hg : mapGet r.servers name with
    | none =>
      rw [hg] at h
      simp only [Go.ret.injEq, Prod.mk.injEq] at h
      obtain ⟨rfl, _, _⟩ := h
      exact ⟨hcl, hready⟩
    | some ch =>
      rw [hg] at h
      simp only at h
      cases hcc : w.closeChan (some ch) with
      | panic => rw [hcc] at h; simp at h
      | ret w2 =>
        rw [hcc] at h
        simp only [Go.ret.injEq, Prod.mk.injEq] at h
        obtain ⟨rfl, _, _⟩ := h
        refine ⟨hcl, hready.1, ?_, hready.2.2⟩
        simp only []
        cases hs : r.servers with
        | none => exact absurd hs hready.2.1
        | some l => simp [mapDelete]

/-- A run that returns from a closed, `ready` replicator ends closed and `ready`. -/
theorem Replicator.run_closed (cs : List ReplicatorCall) :
    ∀ (r r1 : Replicator) (w w1 : Runtime), r.closed = true → r.ready →
      r.run w cs = Go.ret (r1, w1) → r1.closed = true ∧ r1.ready := by
  induction cs with
  | nil =>
    intro r r1 w w1 hcl hready h
    simp only [Replicator.run, Go.ret.injEq, Prod.mk.injEq] at h
    obtain ⟨rfl, _⟩ := h
    exact ⟨hcl, hready⟩
  | cons c cs ih =>
    intro r r1 w w1 hcl hready h
    unfold Replicator.run at h
    cases hc : r.call w c with
    | panic => rw [hc] at h; simp at h
    | ret v =>
      obtain ⟨r2, w2, e⟩ := v
      rw [hc] at h
      obtain ⟨h1, h2⟩ := Replicator.call_closed r r2 w w2 c e hcl hready hc
      exact ih r2 r1 w2 w1 h1 h2 h

/-- C15. After `Replicator.Close`, Joins are no-ops: for every replicator state, once a
`Close` has returned (it returns nil), after any further calls of `Join`, `Leave` and
`Close`, the replicator is still closed, every `Join(name, addr)` returns nil and leaves
the whole state as it was (the servers table unchanged, no pump spawned), and another
`Close` returns nil and leaves the state unchanged; so does a second `Close` right after
the first. -/
theorem replicator_join_after_close (r r1 r2 : Replicator) (w w1 w2 : Runtime)
    (e1 : Option GoError) (cs : List ReplicatorCall) (name addr : String)
    (hclose : r.Close w = Go.ret (r1, w1, e1)) (hrun : r1.run w1 cs = Go.ret (r2, w2)) :
    e1 = none ∧ r2.closed = true
    ∧ r2.Join w2 name addr = Go.ret (r2, w2, none)
    ∧ r2.Close w2 = Go.ret (r2, w2, none)
    ∧ r1.Close w1 = Go.ret (r1, w1, none) := by
  obtain ⟨hready, hcl, _⟩ := Replicator.init_spec r w
  have h1 : e1 = none ∧ r1.closed = true ∧ r1.ready := by
    rcases Bool.eq_false_or_eq_true r.closed with hc | hc
    · rw [Replicator.Close_closed r w hc] at hclose
      simp only [Go.ret.injEq, Prod.mk.injEq] at hclose
      obtain ⟨rfl, _, rfl⟩ := hclose
      exact ⟨rfl, by rw [hcl]; exact hc, hready⟩
    · obtain ⟨c, hc1, _, rfl, _, rfl⟩ := Replicator.Close_open r r1 w w1 e1 hc hclose
      exact ⟨rfl, rfl, hready.1, hready.2.1, hready.2.2⟩
  obtain ⟨he, hcl1, hready1⟩ := h1
  obtain ⟨hcl2, hready2⟩ := Replicator.run_closed cs r1 r2 w1 w2 hcl1 hready1 hrun
  refine ⟨he, hcl2, ?_, ?_, ?_⟩
  · rw [Replicator.Join_closed r2 w2 name addr hcl2,
      (Replicator.init_spec r2 w2).2.2.2.2.2.2.2 hready2]
  · rw [Replicator.Close_closed r2 w2 hcl2, (Replicator.init_spec r2 w2).2.2.2.2.2.2.2 hready2]
  · rw [Replicator.Close_closed r1 w1 hcl1, (Replicator.init_spec r1 w1).2.2.2.2.2.2.2 hready1]

/-- C15, on the zero value after `Join("a", "x")`: `Close`, then `Leave("a")`, then
`Join("b", "y")`. -/
theorem replicator_join_after_close_witness :
    Replicator.Close ⟨true, some [("a", 1)], false, some 0⟩ ⟨[false, false], [("x", 1)]⟩
      = Go.ret (⟨true, some [("a", 1)], true, some 0⟩, ⟨[true, false], [("x", 1)]⟩, none)
    ∧ Replicator.run ⟨true, some [("a", 1)], true, some 0⟩ ⟨[true, false], [("x", 1)]⟩
        [ReplicatorCall.Leave "a"]
      = Go.ret (⟨true, some [], true, some 0⟩, ⟨[true, true], [("x", 1)]⟩)
    ∧ Replicator.Join ⟨true, some [], true, some 0⟩ ⟨[true, true], [("x", 1)]⟩ "b" "y"
      = Go.ret (⟨true, some [], true, some 0⟩, ⟨[true, true], [("x", 1)]⟩, none) :=
  ⟨by decide, by decide,
    (replicator_join_after_close ⟨true, some [("a", 1)], false, some 0⟩
      ⟨true, some [("a", 1)], true, some 0⟩ ⟨true, some [], true, some 0⟩
      ⟨[false, false], [("x", 1)]⟩ ⟨[true, false], [("x", 1)]⟩ ⟨[true, true], [("x", 1)]⟩
      none [ReplicatorCall.Leave "a"] "b" "y" (by decide) (by decide)).2.2.1⟩

/-- What `Leave` does on a state that satisfies `wf`. -/
theorem Replicator.Leave_spec (r : Replicator) (w : Runtime) (name : String)
    (hwf : r.wf w) :
    ∃ r1 w1, r.Leave w name = Go.ret (r1, w1, none)
      ∧ mapGet r1.servers name = none
      ∧ (∀ ch, mapGet r.servers name = some ch →
          w.chans[ch]? = some false ∧ w1.chans[ch]? = some true)
      ∧ (∀ n, n ≠ name → mapGet r1.servers n = mapGet r.servers n)
      ∧ (∀ n ch, n ≠ name → mapGet r.servers n = some ch → w1.chans[ch]? = w.chans[ch]?)
      ∧ w1.pumps = w.pumps ∧ r1.closed = r.closed
      ∧ (mapGet r.servers name = none →
          (∀ c, c < w.chans.length → w1.chans[c]? = w.chans[c]?)
          ∧ (r.ready → r1 = r ∧ w1 = w)) := by
  have hi := Replicator.init_wf r w hwf
  obtain ⟨ha0, hb0, _⟩ := hwf
  obtain ⟨hready, hcl, hg, _, hp, _, _, hid⟩ := Replicator.init_spec r w
  rcases Option.eq_none_or_eq_some (mapGet r.servers name) with ht | ⟨ch, ht⟩
  · refine ⟨_, _, Replicator.Leave_untracked r w name ht, by rw [hg]; exact ht, ?_,
      fun n _ => hg n, ?_, hp, hcl, fun _ => ⟨?_, ?_⟩⟩
    · intro ch hch; rw [ht] at hch; simp at hch
    · intro n ch _ hn
      exact Replicator.init_chans r w ch (lt_of_getElem?_eq_some (ha0 n ch hn))
    · intro c hc; exact Replicator.init_chans r w c hc
    · intro hr
      rw [hid hr]
      exact ⟨rfl, rfl⟩
  · obtain ⟨ha, hb, hcc⟩ := hi
    have hti : mapGet (r.init w).1.servers name = some ch := by rw [hg]; exact ht
    have hopen := ha name ch hti
    have hlt := lt_of_getElem?_eq_some hopen
    refine ⟨_, _, Replicator.Leave_tracked r w name ch ht hopen, mapGet_mapDelete_self _ _,
      ?_, ?_, ?_, hp, hcl, ?_⟩
    · intro ch' hch'
      rw [ht] at hch'
      have hceq : ch' = ch := (Option.some.inj hch').symm
      subst hceq
      exact ⟨ha0 name ch' ht, getElem?_set_self _ _ _ hlt⟩
    · intro n hn
      simp only []
      rw [mapGet_mapDelete_other _ _ _ hn, hg]
    · intro n c hn hnc
      have hne : c ≠ ch := by
        intro hceq
        subst hceq
        exact hn (hb0 n name c hnc ht)
      simp only []
      rw [getElem?_set_other _ _ _ _ hne]
      exact Replicator.init_chans r w c (lt_of_getElem?_eq_some (ha0 n c hnc))
    · intro hnone
      rw [ht] at hnone
      simp at hnone

/-- C16. `Replicator.Leave` removes exactly the named peer: in every state that a
replicator reaches from its zero value by calls of `Join`, `Leave` and `Close`, `Leave(name)`
returns nil; afterwards `name` is not in the servers table; if it was tracked, its cancel
channel was open and is now closed; every other peer keeps its entry and its cancel
channel keeps its state; no pump is spawned and `closed` is unchanged. `Leave` of an
untracked name changes no entry and no channel, and after the first call on the replicator
(once `init` has run) it changes nothing at all. -/
theorem replicator_leave (w0 : Runtime) (cs : List ReplicatorCall) (name : String) :
    ∃ r w, Replicator.zero.run w0 cs = Go.ret (r, w)
      ∧ ∃ r1 w1, r.Leave w name = Go.ret (r1, w1, none)
        ∧ mapGet r1.servers name = none
        ∧ (∀ ch, mapGet r.servers name = some ch →
            w.chans[ch]? = some false ∧ w1.chans[ch]? = some true)
        ∧ (∀ n, n ≠ name → mapGet r1.servers n = mapGet r.servers n)
        ∧ (∀ n ch, n ≠ name → mapGet r.servers n = some ch → w1.chans[ch]? = w.chans[ch]?)
        ∧ w1.pumps = w.pumps ∧ r1.closed = r.closed
        ∧ (mapGet r.servers name = none →
            (∀ n, mapGet r1.servers n = mapGet r.servers n)
            ∧ (∀ c, c < w.chans.length → w1.chans[c]? = w.chans[c]?)
            ∧ (cs ≠ [] → r1 = r ∧ w1 = w)) := by
  obtain ⟨r, w, hrun, hwf, _, _⟩ := Replicator.run_wf cs Replicator.zero w0
    (Replicator.zero_wf w0)
  have hready : cs ≠ [] → r.ready := by
    intro hne
    cases cs with
    | nil => exact absurd rfl hne
    | cons c cs =>
      obtain ⟨r1, w1, hc, h1, h2, _⟩ := Replicator.call_wf Replicator.zero w0 c
        (Replicator.zero_wf w0)
      obtain ⟨r2, w2, hr, _, _, h6⟩ := Replicator.run_wf cs r1 w1 h1
      unfold Replicator.run at hrun
      rw [hc] at hrun
      simp only at hrun
      rw [hr] at hrun
      simp only [Go.ret.injEq, Prod.mk.injEq] at hrun
      rw [← hrun.1]
      exact h6 h2
  obtain ⟨r1, w1, hl, p1, p2, p3, p4, p5, p6, p7⟩ := Replicator.Leave_spec r w name hwf
  refine ⟨r, w, hrun, r1, w1, hl, p1, p2, p3, p4, p5, p6, ?_⟩
  intro hnone
  obtain ⟨q1, q2⟩ := p7 hnone
  refine ⟨?_, q1, fun hne => q2 (hready hne)⟩
  intro n
  by_cases hn : n = name
  · rw [hn, p1, hnone]
  · exact p3 n hn

namespace server

/-! ## The in-memory log -/

/-- What a run of Appends does to a log that stays shorter than `2^64` records. -/
theorem Log.Appends_eq (rs : List Record) :
    ∀ l : Log, l.records.length + rs.length ≤ 2 ^ 64 →
      (l.Appends rs).2 = List.range' l.records.length rs.length
      ∧ (l.Appends rs).1.records.length = l.records.length + rs.length
      ∧ ∃ tl, (l.Appends rs).1.records = l.records ++ tl := by
  induction rs with
  | nil => intro l _; exact ⟨rfl, rfl, [], by simp [Log.Appends]⟩
  | cons r rs ih =>
    intro l hl
    simp only [List.length_cons] at hl
    have e : u64 l.records.length = l.records.length := u64_of_lt (by omega)
    obtain ⟨h1, h2, tl, h3⟩ := ih (l.Append r).1 (by simp [Log.Append]; omega)
    simp only [Log.Append, e, List.length_append, List.length_singleton] at h1 h2 h3
    simp only [Log.Appends, Log.Append, e, List.length_cons, List.range'_succ]
    refine ⟨by rw [h1], by rw [h2]; omega, _, by rw [h3, List.append_assoc]⟩

/-- C17. Offset monotonicity of the in-memory Log: for every Log holding `n` records (a Go
slice, so `n < 2^63`) and every record `r`, `Append(r)` returns `(n, nil)` and the log then
holds `n + 1` records; hence the Appends of any records `rs` on a Log from `NewLog` return
`0, 1, 2, …, len(rs) - 1`, whatever `Offset` the caller put in the records. -/
theorem log_append_offsets (l : Log) (r : Record) (rs : List Record)
    (hn : l.records.length < 2 ^ 63) (hrs : rs.length < 2 ^ 63) :
    (l.Append r).2 = (l.records.length, none)
    ∧ (l.Append r).1.records.length = l.records.length + 1
    ∧ (NewLog.Appends rs).2 = List.range rs.length
    ∧ (NewLog.Appends rs).1.records.length = rs.length := by
  have e : u64 l.records.length = l.records.length := u64_of_lt (by omega)
  obtain ⟨h1, h2, _⟩ := Log.Appends_eq rs NewLog (by simp [NewLog]; omega)
  refine ⟨by simp [Log.Append, e], by simp [Log.Append], ?_, ?_⟩
  · rw [h1, List.range_eq_range']; rfl
  · rw [h2]; simp [NewLog]

/-- C17, on a log of one record and on three Appends after `NewLog`. -/
theorem log_append_offsets_witness :
    (Log.Append ⟨[⟨[1], 0⟩]⟩ ⟨[2], 7⟩).2 = (1, none)
    ∧ (NewLog.Appends [⟨[1], 5⟩, ⟨[2], 5⟩, ⟨[3], 0⟩]).2 = [0, 1, 2] :=
  ⟨(log_append_offsets ⟨[⟨[1], 0⟩]⟩ ⟨[2], 7⟩ [⟨[1], 5⟩, ⟨[2], 5⟩, ⟨[3], 0⟩]
      (by decide) (by decide)).1,
    (log_append_offsets ⟨[⟨[1], 0⟩]⟩ ⟨[2], 7⟩ [⟨[1], 5⟩, ⟨[2], 5⟩, ⟨[3], 0⟩]
      (by decide) (by decide)).2.2.1⟩

/-- Reading a record that is in the log. -/
theorem Log.Read_at (l : Log) (pre tl : List Record) (r : Record)
    (hl : l.records = pre ++ r :: tl) (h64 : l.records.length < 2 ^ 64) :
    l.Read pre.length = Go.ret (l, r, none) := by
  have e : u64 l.records.length = l.records.length := u64_of_lt h64
  have hlen : pre.length < l.records.length := by rw [hl]; simp
  have hg : l.records[pre.length]? = some r := by
    rw [hl, List.getElem?_append_right (le_refl _)]
    simp
  unfold Log.Read
  rw [e, if_neg (by omega), hg]

/-- C18. Round trip of the in-memory Log: for every Log (a Go slice of records, so below
`2^63` records also after the Appends considered) and every record `r`, if `Append(r)`
returns offset `o` then `Read(o)` returns the record with `Value = r.Value` and
`Offset = o`, with a nil error, and `Read(o)` returns that same record after any further
Appends. -/
theorem log_append_read_round_trip (l : Log) (r : Record) (rs : List Record)
    (hn : l.records.length + 1 + rs.length < 2 ^ 63) :
    ((l.Append r).1.Read (l.Append r).2.1
        = Go.ret ((l.Append r).1, { Value := r.Value, Offset := (l.Append r).2.1 }, none))
    ∧ (((l.Append r).1.Appends rs).1.Read (l.Append r).2.1
        = Go.ret (((l.Append r).1.Appends rs).1,
            { Value := r.Value, Offset := (l.Append r).2.1 }, none))
    ∧ (l.Append r).2.2 = none := by
  have e : u64 l.records.length = l.records.length := u64_of_lt (by omega)
  have hrec : (l.Append r).1.records
      = l.records ++ { Value := r.Value, Offset := l.records.length } :: [] := by
    simp [Log.Append, e]
  have ho : (l.Append r).2.1 = l.records.length := by simp [Log.Append, e]
  obtain ⟨_, hlen2, tl, htl⟩ := Log.Appends_eq rs (l.Append r).1
    (by rw [hrec]; simp; omega)
  rw [ho]
  refine ⟨Log.Read_at _ l.records [] _ hrec (by rw [hrec]; simp; omega), ?_, rfl⟩
  apply Log.Read_at _ l.records tl
  · rw [htl, hrec]; simp
  · rw [hlen2, hrec]; simp; omega

/-- C18, on a log of one record: `Append`, `Read(1)`, two more Appends, `Read(1)`. -/
theorem log_append_read_round_trip_witness :
    Log.Read ⟨[⟨[1], 0⟩, ⟨[2], 1⟩]⟩ 1 = Go.ret (⟨[⟨[1], 0⟩, ⟨[2], 1⟩]⟩, ⟨[2], 1⟩, none) :=
  (log_append_read_round_trip ⟨[⟨[1], 0⟩]⟩ ⟨[2], 7⟩ [⟨[3], 0⟩, ⟨[4], 0⟩] (by decide)).1

/-! ## The gRPC handlers -/

/-- C13. Authorization gate: with a subject `sub` in the context, the first call that
`grpcServer.Append` makes is `Authorize(sub, "*", "append")` and the first call that
`grpcServer.Read` makes is `Authorize(sub, "*", "read")`, before any call to the
CommitLog; and if `Authorize` returns an error `e`, the handler returns a nil response with
that same `e`, makes no other call, and leaves the log as it was. (Without a subject the
handler panics in `subject(ctx)`, before any call.) -/
theorem server_authorize_gate {L : Type} (s : grpcServer L) (ctx : Context) (l : L)
    (areq : AppendRequest) (rreq : ReadRequest) :
    (ctx.subject = none → s.Append ctx l areq = Go.panic ∧ s.Read ctx l rreq = Go.panic)
    ∧ (∀ sub, ctx.subject = some sub →
        (∃ l1 more res err, s.Append ctx l areq
            = Go.ret (l1, Call.Authorize sub "*" "append" :: more, res, err))
        ∧ (∃ l1 more res err, s.Read ctx l rreq
            = Go.ret (l1, Call.Authorize sub "*" "read" :: more, res, err))
        ∧ (∀ e, s.Config.Authorizer.Authorize sub "*" "append" = some e →
            s.Append ctx l areq = Go.ret (l, [Call.Authorize sub "*" "append"], none, some e))
        ∧ (∀ e, s.Config.Authorizer.Authorize sub "*" "read" = some e →
            s.Read ctx l rreq = Go.ret (l, [Call.Authorize sub "*" "read"], none, some e))) := by
  constructor
  · intro h
    simp [grpcServer.Append, grpcServer.Read, subject, h]
  · intro sub h
    have ha : appendAction = "append" := rfl
    have hr : readAction = "read" := rfl
    have hw : objectWildcard = "*" := rfl
    refine ⟨?_, ?_, ?_, ?_⟩
    · simp only [grpcServer.Append, subject, h, ha, hw]
      cases hau : s.Config.Authorizer.Authorize sub "*" "append" with
      | some e => exact ⟨_, _, _, _, rfl⟩
      | none =>
        simp only
        cases hap : s.Config.CommitLog.Append l areq.Record with
        | mk l1 r =>
          obtain ⟨off, e⟩ := r
          cases e with
          | some e => exact ⟨_, _, _, _, rfl⟩
          | none => exact ⟨_, _, _, _, rfl⟩
    · simp only [grpcServer.Read, subject, h, hr, hw]
      cases hau : s.Config.Authorizer.Authorize sub "*" "read" with
      | some e => exact ⟨_, _, _, _, rfl⟩
      | none =>
        simp only
        cases hap : s.Config.CommitLog.Read l rreq.Offset with
        | mk l1 r =>
          obtain ⟨rec, e⟩ := r
          cases e with
          | some e => exact ⟨_, _, _, _, rfl⟩
          | none => exact ⟨_, _, _, _, rfl⟩
    · intro e he
      simp only [grpcServer.Append, subject, h, ha, hw, he]
    · intro e he
      simp only [grpcServer.Read, subject, h, hr, hw, he]

/-! ## The read stream -/

/-- A `grpcServer.Read` that returns a nil error returns what `CommitLog.Read` returned. -/
theorem grpcServer.Read_nil {L : Type} (s : grpcServer L) (ctx : Context) (l l1 : L)
    (req : ReadRequest) (calls : List Call) (res : Option ReadResponse)
    (h : s.Read ctx l req = Go.ret (l1, calls, res, none)) :
    ∃ rec, s.Config.CommitLog.Read l req.Offset = (l1, rec, none)
      ∧ res = some { Record := rec } := by
  unfold grpcServer.Read at h
  cases hs : subject ctx with
  | panic => rw [hs] at h; simp at h
  | ret sub =>
    rw [hs] at h
    simp only at h
    cases hau : s.Config.Authorizer.Authorize sub objectWildcard readAction with
    | some e => rw [hau] at h; simp at h
    | none =>
      rw [hau] at h
      simp only at h
      cases hr : s.Config.CommitLog.Read l req.Offset with
      | mk l2 r =>
        obtain ⟨rec, e⟩ := r
        rw [hr] at h
        cases e with
        | some e => simp at h
        | none =>
          simp only [Go.ret.injEq, Prod.mk.injEq] at h
          obtain ⟨rfl, _, rfl, _⟩ := h
          exact ⟨rec, rfl, rfl⟩

/-- With a subject in the context `grpcServer.Read` returns. -/
theorem grpcServer.Read_returns {L : Type} (s : grpcServer L) (ctx : Context) (l : L)
    (req : ReadRequest) (sub : String) (hsub : ctx.subject = some sub) :
    ∃ l1 calls res err, s.Read ctx l req = Go.ret (l1, calls, res, err) := by
  simp only [grpcServer.Read, subject, hsub]
  cases hau : s.Config.Authorizer.Authorize sub objectWildcard readAction with
  | some e => exact ⟨_, _, _, _, rfl⟩
  | none =>
    simp only
    cases hr : s.Config.CommitLog.Read l req.Offset with
    | mk l2 r =>
      obtain ⟨rec, e⟩ := r
      cases e with
      | some e => exact ⟨_, _, _, _, rfl⟩
      | none => exact ⟨_, _, _, _, rfl⟩

/-- A round in which `grpcServer.Read` fails with `ErrOffsetOutOfRange`: nothing is sent,
the loop goes on, the request is unchanged. -/
theorem ReadStream.round_out_of_range {L : Type} (s : grpcServer L) (ctx : Context)
    (st : StreamState L) (t : Tick L) (l1 : L) (calls : List Call)
    (res : Option ReadResponse) (off : Nat) (hd : t.done = false)
    (h : s.Read ctx (t.env st.log) st.req
      = Go.ret (l1, calls, res, some (Error.ErrOffsetOutOfRange off))) :
    grpcServer.ReadStream.round s ctx st t = Go.ret (Round.again { st with log := l1 }) := by
  unfold grpcServer.ReadStream.round
  simp only [hd, h, Bool.false_eq_true, if_false]

/-- A round in which `grpcServer.Read` and `stream.Send` both return nil: the response is
sent and the offset of the request goes up by one. -/
theorem ReadStream.round_sent {L : Type} (s : grpcServer L) (ctx : Context)
    (st : StreamState L) (t : Tick L) (l1 : L) (calls : List Call)
    (res : Option ReadResponse) (hd : t.done = false) (hs : t.sendErr = none)
    (h : s.Read ctx (t.env st.log) st.req = Go.ret (l1, calls, res, none)) :
    grpcServer.ReadStream.round s ctx st t = Go.ret (Round.again
      { req := { Offset := u64 (st.req.Offset + 1) }, log := l1, sent := st.sent ++ [res] }) := by
  unfold grpcServer.ReadStream.round
  simp only [hd, h, hs, Bool.false_eq_true, if_false]

/-- What one round of `ReadStream` can do to the request and to the responses sent. -/
theorem ReadStream.round_cases {L : Type} (s : grpcServer L) (ctx : Context)
    (st : StreamState L) (t : Tick L) (rd : Round L)
    (h : grpcServer.ReadStream.round s ctx st t = Go.ret rd) :
    (∃ st1 e, rd = Round.returned st1 e ∧ st1.req = st.req ∧ st1.sent = st.sent)
    ∨ (∃ st1, rd = Round.again st1 ∧ st1.req = st.req ∧ st1.sent = st.sent)
    ∨ (∃ st1 rec, rd = Round.again st1
        ∧ s.Config.CommitLog.Read (t.env st.log) st.req.Offset = (st1.log, rec, none)
        ∧ st1.req.Offset = u64 (st.req.Offset + 1)
        ∧ st1.sent = st.sent ++ [some { Record := rec }]) := by
  cases hd : t.done with
  | true =>
    unfold grpcServer.ReadStream.round at h
    rw [hd] at h
    simp only [if_true, Go.ret.injEq] at h
    exact Or.inl ⟨_, _, h.symm, rfl, rfl⟩
  | false =>
    cases hr : s.Read ctx (t.env st.log) st.req with
    | panic =>
      unfold grpcServer.ReadStream.round at h
      rw [hd, hr] at h
      simp at h
    | ret v =>
      obtain ⟨l1, calls, res, err⟩ := v
      cases err with
      | some e =>
        unfold grpcServer.ReadStream.round at h
        cases e with
        | ErrOffsetOutOfRange off =>
          simp only [hd, hr, Bool.false_eq_true, if_false, Go.ret.injEq] at h
          exact Or.inr (Or.inl ⟨_, h.symm, rfl, rfl⟩)
        | ErrOffsetNotFound =>
          simp only [hd, hr, Bool.false_eq_true, if_false, Go.ret.injEq] at h
          exact Or.inl ⟨_, _, h.symm, rfl, rfl⟩
        | other id =>
          simp only [hd, hr, Bool.false_eq_true, if_false, Go.ret.injEq] at h
          exact Or.inl ⟨_, _, h.symm, rfl, rfl⟩
      | none =>
        obtain ⟨rec, hrec, hres⟩ := grpcServer.Read_nil s ctx _ _ _ _ _ hr
        cases hse : t.sendErr with
        | some e =>
          unfold grpcServer.ReadStream.round at h
          simp only [hd, hr, hse, Bool.false_eq_true, if_false, Go.ret.injEq] at h
          exact Or.inl ⟨_, _, h.symm, rfl, rfl⟩
        | none =>
          rw [ReadStream.round_sent s ctx st t l1 calls res hd hse hr] at h
          simp only [Go.ret.injEq] at h
          refine Or.inr (Or.inr ⟨_, rec, h.symm, hrec, rfl, ?_⟩)
          simp only [hres]

/-- The invariant of the loop of `ReadStream`: the responses sent since a state `st0` are,
in order, the results of `CommitLog.Read` at `st0.req.Offset`, `+1`, `+2`, …, and the
request offset has advanced by their number. -/
theorem ReadStream.run_inv {L : Type} (s : grpcServer L) (ctx : Context)
    (ticks : List (Tick L)) :
    ∀ (st0 st : StreamState L) (r : Option (Option Error)), st0.req.Offset < 2 ^ 64 →
      s.ReadStream ctx st0 ticks = Go.ret (st, r) →
      ∃ new, st.sent = st0.sent ++ new
        ∧ st.req.Offset = u64 (st0.req.Offset + new.length)
        ∧ ∀ k (hk : k < new.length), ∃ lk lk1 rec,
            s.Config.CommitLog.Read lk (u64 (st0.req.Offset + k)) = (lk1, rec, none)
            ∧ new[k] = some { Record := rec } := by
  induction ticks with
  | nil =>
    intro st0 st r ho h
    simp only [grpcServer.ReadStream, Go.ret.injEq, Prod.mk.injEq] at h
    obtain ⟨rfl, _⟩ := h
    exact ⟨[], by simp, by simp [u64_of_lt ho], fun k hk => by simp at hk⟩
  | cons t ts ih =>
    intro st0 st r ho h
    unfold grpcServer.ReadStream at h
    cases hrd : grpcServer.ReadStream.round s ctx st0 t with
    | panic => rw [hrd] at h; simp at h
    | ret rd =>
      rw [hrd] at h
      rcases ReadStream.round_cases s ctx st0 t rd hrd with
        ⟨st1, e, rfl, hreq, hsent⟩ | ⟨st1, rfl, hreq, hsent⟩ | ⟨st1, rec, rfl, hread, hoff, hsent⟩
      · simp only [Go.ret.injEq, Prod.mk.injEq] at h
        obtain ⟨rfl, _⟩ := h
        exact ⟨[], by simp [hsent], by simp [hreq, u64_of_lt ho], fun k hk => by simp at hk⟩
      · simp only at h
        obtain ⟨new, h1, h2, h3⟩ := ih st1 st r (by rw [hreq]; exact ho) h
        rw [hreq] at h2 h3
        rw [hsent] at h1
        exact ⟨new, h1, h2, h3⟩
      · simp only at h
        obtain ⟨new, h1, h2, h3⟩ := ih st1 st r (by rw [hoff]; exact u64_lt _) h
        refine ⟨some { Record := rec } :: new, ?_, ?_, ?_⟩
        · rw [h1, hsent]; simp
        · rw [h2, hoff]
          simp only [u64, List.length_cons]
          omega
        · intro k hk
          cases k with
          | zero =>
            refine ⟨t.env st0.log, st1.log, rec, ?_, rfl⟩
            rw [Nat.add_zero, u64_of_lt ho]
            exact hread
          | succ k =>
            obtain ⟨lk, lk1, rc, hk1, hk2⟩ := h3 k (by simpa using hk)
            refine ⟨lk, lk1, rc, ?_, by simpa using hk2⟩
            rw [hoff] at hk1
            have : u64 (u64 (st0.req.Offset + 1) + k) = u64 (st0.req.Offset + (k + 1)) := by
              simp only [u64]; omega
            rw [← this]
            exact hk1

/-- With a subject in the context the rounds of `ReadStream` never panic. -/
theorem ReadStream.run_returns {L : Type} (s : grpcServer L) (ctx : Context) (sub : String)
    (hsub : ctx.subject = some sub) (ticks : List (Tick L)) :
    ∀ st0 : StreamState L, ∃ st r, s.ReadStream ctx st0 ticks = Go.ret (st, r) := by
  induction ticks with
  | nil => intro st0; exact ⟨st0, none, rfl⟩
  | cons t ts ih =>
    intro st0
    have hround : ∃ rd, grpcServer.ReadStream.round s ctx st0 t = Go.ret rd := by
      cases hd : t.done with
      | true =>
        unfold grpcServer.ReadStream.round
        simp only [hd, if_true]
        exact ⟨_, rfl⟩
      | false =>
        obtain ⟨l1, calls, res, err, hr⟩ :=
          grpcServer.Read_returns s ctx (t.env st0.log) st0.req sub hsub
        unfold grpcServer.ReadStream.round
        cases err with
        | some e =>
          cases e <;> simp only [hd, hr, Bool.false_eq_true, if_false] <;> exact ⟨_, rfl⟩
        | none =>
          cases hse : t.sendErr <;>
            simp only [hd, hr, hse, Bool.false_eq_true, if_false] <;> exact ⟨_, rfl⟩
    obtain ⟨rd, hrd⟩ := hround
    unfold grpcServer.ReadStream
    rw [hrd]
    cases rd with
    | returned st1 e => exact ⟨st1, some e, rfl⟩
    | again st1 => exact ih st1

/-- C12, as stated, fails where the request offset wraps: on a log that answers every
offset `off` with a record carrying `off`, a stream that starts at `o = 2^64 - 1` and runs
three rounds sends the records of the offsets `2^64 - 1`, `0`, `1`, and the request offset
is then `2`: the response after the first is the result of `Read(0)`, not of `Read(o + 1)`,
and the offsets do not increase. -/
theorem read_stream_offset_wrap_counterexample :
    grpcServer.ReadStream
      (⟨⟨⟨fun l _ => (l, 0, none), fun l off => (l, some ⟨[], off⟩, none)⟩,
        ⟨fun _ _ _ => none⟩⟩⟩ : grpcServer Unit)
      ⟨some "root"⟩ ⟨⟨18446744073709551615⟩, (), []⟩
      [⟨id, false, none⟩, ⟨id, false, none⟩, ⟨id, false, none⟩]
      = Go.ret (⟨⟨2⟩, (),
          [some ⟨some ⟨[], 18446744073709551615⟩⟩, some ⟨some ⟨[], 0⟩⟩, some ⟨some ⟨[], 1⟩⟩]⟩,
          none)
    ∧ (18446744073709551615 : Nat) = 2 ^ 64 - 1
    ∧ ¬ ((18446744073709551615 : Nat) < 0) := by
  refine ⟨rfl, by decide, by decide⟩

/-- C12, amended. ReadStream ordering: for every CommitLog and every starting request
offset `o` (a `uint64`), in every run of `grpcServer.ReadStream` (for every behaviour of
the context, of the other users of the log and of `stream.Send`), after any number of
rounds: the `k`-th response sent is the result of `CommitLog.Read` at `o + k` reduced
modulo `2^64`, and the request offset is `o` plus the number of responses sent, modulo
`2^64`; as long as `o` plus the number of responses sent is at most `2^64` (the request
offset has not gone past the largest `uint64`), the `k`-th response is the result of
`CommitLog.Read(o + k)`, so the responses go out in consecutive increasing offset order.
In a round where `Read` fails with `ErrOffsetOutOfRange` nothing is sent, the loop goes on
and the request offset is unchanged; in a round where `Read` and `Send` return nil the
response is appended to those sent and the offset goes up by exactly one (modulo `2^64`).
With a subject in the context no round panics. -/
theorem read_stream_in_offset_order {L : Type} (s : grpcServer L) (ctx : Context) (o : Nat)
    (l0 : L) (ticks : List (Tick L)) (ho : o < 2 ^ 64) :
    (∀ st r, s.ReadStream ctx { req := { Offset := o }, log := l0, sent := [] } ticks
        = Go.ret (st, r) →
      st.req.Offset = u64 (o + st.sent.length)
      ∧ (∀ k (hk : k < st.sent.length), ∃ lk lk1 rec,
          s.Config.CommitLog.Read lk (u64 (o + k)) = (lk1, rec, none)
          ∧ st.sent[k] = some { Record := rec })
      ∧ (o + st.sent.length ≤ 2 ^ 64 →
          ∀ k (hk : k < st.sent.length), ∃ lk lk1 rec,
            s.Config.CommitLog.Read lk (o + k) = (lk1, rec, none)
            ∧ st.sent[k] = some { Record := rec }))
    ∧ (∀ (st : StreamState L) (t : Tick L) l1 calls res off, t.done = false →
        s.Read ctx (t.env st.log) st.req
          = Go.ret (l1, calls, res, some (Error.ErrOffsetOutOfRange off)) →
        grpcServer.ReadStream.round s ctx st t = Go.ret (Round.again { st with log := l1 }))
    ∧ (∀ (st : StreamState L) (t : Tick L) l1 calls res, t.done = false →
        t.sendErr = none →
        s.Read ctx (t.env st.log) st.req = Go.ret (l1, calls, res, none) →
        grpcServer.ReadStream.round s ctx st t = Go.ret (Round.again
          { req := { Offset := u64 (st.req.Offset + 1) }, log := l1,
            sent := st.sent ++ [res] }))
    ∧ (∀ sub, ctx.subject = some sub →
        ∃ st r, s.ReadStream ctx { req := { Offset := o }, log := l0, sent := [] } ticks
          = Go.ret (st, r)) := by
  refine ⟨?_, ?_, ?_, ?_⟩
  · intro st r h
    obtain ⟨new, h1, h2, h3⟩ := ReadStream.run_inv s ctx ticks _ st r ho h
    simp only [List.nil_append] at h1
    subst h1
    refine ⟨h2, h3, ?_⟩
    intro hle k hk
    obtain ⟨lk, lk1, rec, hk1, hk2⟩ := h3 k hk
    rw [u64_of_lt (show o + k < 2 ^ 64 by omega)] at hk1
    exact ⟨lk, lk1, rec, hk1, hk2⟩
  · intro st t l1 calls res off hd h
    exact ReadStream.round_out_of_range s ctx st t l1 calls res off hd h
  · intro st t l1 calls res hd hs h
    exact ReadStream.round_sent s ctx st t l1 calls res hd hs h
  · intro sub hsub
    exact ReadStream.run_returns s ctx sub hsub ticks _

/-- C12 amended, on a log that is empty at first and gets two records before the second round:
the four rounds send nothing, record 0, record 1, nothing. -/
theorem read_stream_in_offset_order_witness :
    grpcServer.ReadStream
      (⟨⟨⟨fun l r => (l ++ [r], l.length, none),
          fun l off => match l[off]? with
            | some r => (l, r, none)
            | none => (l, none, some (Error.ErrOffsetOutOfRange off))⟩,
        ⟨fun _ _ _ => none⟩⟩⟩ : grpcServer (List (Option ApiRecord)))
      ⟨some "root"⟩ ⟨⟨0⟩, [], []⟩
      [⟨id, false, none⟩, ⟨fun _ => [some ⟨[1], 0⟩, some ⟨[2], 1⟩], false, none⟩,
        ⟨id, false, none⟩, ⟨id, false, none⟩]
      = Go.ret (⟨⟨2⟩, [some ⟨[1], 0⟩, some ⟨[2], 1⟩],
          [some ⟨some ⟨[1], 0⟩⟩, some ⟨some ⟨[2], 1⟩⟩]⟩, none)
    ∧ (2 : Nat) = u64 (0 + 2) :=
  ⟨rfl, ((read_stream_in_offset_order
      (⟨⟨⟨fun l r => (l ++ [r], l.length, none),
          fun l off => match l[off]? with
            | some r => (l, r, none)
            | none => (l, none, some (Error.ErrOffsetOutOfRange off))⟩,
        ⟨fun _ _ _ => none⟩⟩⟩ : grpcServer (List (Option ApiRecord)))
      ⟨some "root"⟩ 0 []
      [⟨id, false, none⟩, ⟨fun _ => [some ⟨[1], 0⟩, some ⟨[2], 1⟩], false, none⟩,
        ⟨id, false, none⟩, ⟨id, false, none⟩] (by decide)).1
      ⟨⟨2⟩, [some ⟨[1], 0⟩, some ⟨[2], 1⟩], [some ⟨some ⟨[1], 0⟩⟩, some ⟨some ⟨[2], 1⟩⟩]⟩
      none rfl).1⟩

/-! ## The in-memory log: reads out of range -/

/-- C21. `Log.Read` on the in-memory Log: for every Log holding `n` records (a Go slice, so
`n < 2^63`) and every offset, `Read(offset)` returns, and leaves the log as it was; it
returns `(Record{}, ErrOffsetNotFound)` if and only if `offset >= n`; otherwise it returns
the record stored at position `offset` with a nil error. -/
theorem log_read_offset_not_found (l : Log) (offset : Nat) (hn : l.records.length < 2 ^ 63) :
    ∃ rec err, l.Read offset = Go.ret (l, rec, err)
      ∧ ((rec = { Value := [], Offset := 0 } ∧ err = some Error.ErrOffsetNotFound)
          ↔ l.records.length ≤ offset)
      ∧ (offset < l.records.length → l.records[offset]? = some rec ∧ err = none) := by
  have e : u64 l.records.length = l.records.length := u64_of_lt (by omega)
  by_cases h : l.records.length ≤ offset
  · refine ⟨{ Value := [], Offset := 0 }, some Error.ErrOffsetNotFound, ?_, ?_, ?_⟩
    · unfold Log.Read
      rw [e, if_pos h]
    · exact ⟨fun _ => h, fun _ => ⟨rfl, rfl⟩⟩
    · intro hlt; omega
  · have hlt : offset < l.records.length := by omega
    have hg : l.records[offset]? = some (l.records.get ⟨offset, hlt⟩) :=
      List.getElem?_eq_getElem hlt
    refine ⟨l.records.get ⟨offset, hlt⟩, none, ?_, ?_, ?_⟩
    · unfold Log.Read
      rw [e, if_neg (by omega), hg]
    · constructor
      · intro hc
        exact absurd hc.2 (by simp)
      · intro hc; omega
    · intro _
      exact ⟨hg, rfl⟩

/-- C21, on a log of two records: `Read(1)` gives the second record, `Read(2)` gives
`ErrOffsetNotFound`. -/
theorem log_read_offset_not_found_witness :
    (∃ rec err, Log.Read ⟨[⟨[1], 0⟩, ⟨[2], 1⟩]⟩ 1 = Go.ret (⟨[⟨[1], 0⟩, ⟨[2], 1⟩]⟩, rec, err)
      ∧ ((rec = { Value := [], Offset := 0 } ∧ err = some Error.ErrOffsetNotFound)
          ↔ (([⟨[1], 0⟩, ⟨[2], 1⟩] : List Record).length ≤ 1))
      ∧ (1 < ([⟨[1], 0⟩, ⟨[2], 1⟩] : List Record).length →
          ([⟨[1], 0⟩, ⟨[2], 1⟩] : List Record)[1]? = some rec ∧ err = none))
    ∧ Log.Read ⟨[⟨[1], 0⟩, ⟨[2], 1⟩]⟩ 2
        = Go.ret (⟨[⟨[1], 0⟩, ⟨[2], 1⟩]⟩, ⟨[], 0⟩, some Error.ErrOffsetNotFound) :=
  ⟨log_read_offset_not_found ⟨[⟨[1], 0⟩, ⟨[2], 1⟩]⟩ 1 (by decide), by rfl⟩

end server

/-! ## Index: bounds safety -/

/-- C22. Index bounds safety: for every index with `size <= len(mmap)` (the length of a Go
slice, so below `2^63`), `Read(n)` returns for every `n`: either an entry with a nil error,
and then the twelve bytes it sliced lie inside the mapping, or `(0, 0, io.EOF)`; and
`Write(off, pos)` returns for every `off` and `pos`: either `io.EOF` with the index
untouched, or nil, and then the twelve bytes it wrote lie inside the mapping; the mapping
keeps its length and `size <= len(mmap)` still holds. No slice expression is out of
range. -/
theorem index_bounds_safety (i : index) (n : Int) (off pos : Nat)
    (hsz : i.size ≤ i.mmap.length) (hlen : i.mmap.length < 2 ^ 63) :
    (∃ out p e, i.Read n = Go.ret (out, p, e)
      ∧ ((e = none
          ∧ (if n = -1 then u32 (u64 (i.size / entWidth + 2 ^ 64 - 1)) else int64ToU32 n) * 12
              + 12 ≤ i.mmap.length)
        ∨ (e = some GoError.EOF ∧ out = 0 ∧ p = 0)))
    ∧ (∃ i1 e, i.Write off pos = Go.ret (i1, e)
      ∧ ((e = none ∧ i.size + 12 ≤ i.mmap.length ∧ i1.size = i.size + 12)
        ∨ (e = some GoError.EOF ∧ i1 = i))
      ∧ i1.mmap.length = i.mmap.length ∧ i1.size ≤ i1.mmap.length) := by
  constructor
  · generalize hout :
      (if n = -1 then u32 (u64 (i.size / entWidth + 2 ^ 64 - 1)) else int64ToU32 n) = out
    by_cases hr : i.size < out * 12 + 12
    · exact ⟨0, 0, some GoError.EOF, index.Read_beyond i n out hout hr, Or.inr ⟨rfl, rfl, rfl⟩⟩
    · have hin := index.Read_in_range i n out hout (by omega) hsz
      obtain ⟨o, ho⟩ := Uint32_total (b := (i.mmap.drop (out * 12)).take 4)
        (by simp; omega)
      obtain ⟨p, hp⟩ := Uint64_total (b := (i.mmap.drop (out * 12 + 4)).take 8)
        (by simp; omega)
      rw [ho] at hin
      simp only [] at hin
      rw [hp] at hin
      exact ⟨o, p, none, hin, Or.inl ⟨rfl, by omega⟩⟩
  · rcases index.Write_cases i off pos (by omega) with ⟨_, hw⟩ | ⟨hfit, i1, hw, h1, h2, _⟩
    · exact ⟨i, some GoError.EOF, hw, Or.inr ⟨rfl, rfl⟩, rfl, hsz⟩
    · exact ⟨i1, none, hw, Or.inl ⟨rfl, hfit, h1⟩, h2, by omega⟩

/-- C22, on an index whose size (5) is not a multiple of 12, with `Read(-1)`. -/
theorem index_bounds_safety_witness :
    (∃ out p e, index.Read ⟨⟨[], false⟩, List.replicate 24 0, 5⟩ (-1) = Go.ret (out, p, e)
      ∧ ((e = none
          ∧ (if (-1 : Int) = -1 then u32 (u64 (5 / entWidth + 2 ^ 64 - 1))
              else int64ToU32 (-1)) * 12 + 12 ≤ (List.replicate 24 0).length)
        ∨ (e = some GoError.EOF ∧ out = 0 ∧ p = 0)))
    ∧ (∃ i1 e, index.Write ⟨⟨[], false⟩, List.replicate 24 0, 5⟩ 7 9 = Go.ret (i1, e)
      ∧ ((e = none ∧ 5 + 12 ≤ (List.replicate 24 0).length ∧ i1.size = 5 + 12)
        ∨ (e = some GoError.EOF ∧ i1 = ⟨⟨[], false⟩, List.replicate 24 0, 5⟩))
      ∧ i1.mmap.length = (List.replicate 24 0).length ∧ i1.size ≤ i1.mmap.length) :=
  index_bounds_safety ⟨⟨[], false⟩, List.replicate 24 0, 5⟩ (-1) 7 9
    (by simp) (by simp)

/-! ## The replicator: channels are closed at most once -/

theorem getElem?_append_false_true (cs : List Bool) (x : Nat) :
    (cs ++ [false])[x]? = some true ↔ cs[x]? = some true := by
  rcases Nat.lt_trichotomy x cs.length with h | h | h
  · rw [List.getElem?_append_left h]
  · subst h
    simp
  · rw [List.getElem?_eq_none (by simp; omega), List.getElem?_eq_none (by omega)]

theorem getElem?_set_true (cs : List Bool) (c x : Nat) (hc : c < cs.length) :
    (cs.set c true)[x]? = some true ↔ (cs[x]? = some true ∨ x = c) := by
  by_cases h : x = c
  · subst h
    rw [getElem?_set_self _ _ _ hc]
    simp
  · rw [getElem?_set_other _ _ _ _ h]
    simp [h]

/-- The method `init` closes no channel, and the channel it makes is open. -/
theorem Replicator.init_closed_iff (r : Replicator) (w : Runtime) (x : Nat) :
    (r.init w).2.chans[x]? = some true ↔ w.chans[x]? = some true := by
  obtain ⟨_, _, _, _, _, h1, h2, _⟩ := Replicator.init_spec r w
  cases hc : r.close with
  | none => rw [(h2 hc).2]; exact getElem?_append_false_true w.chans x
  | some c => rw [(h1 (by rw [hc]; simp)).2]

/-- One call on a state that satisfies `wf`: it returns nil, keeps the invariant, the
channels that are closed afterwards are those that were closed and those that the call
handed to `close`, and every channel handed to `close` was not closed before. -/
theorem Replicator.call_closes (r : Replicator) (w : Runtime) (c : ReplicatorCall)
    (hwf : r.wf w) :
    ∃ r1 w1, r.call w c = Go.ret (r1, w1, none) ∧ r1.wf w1
      ∧ (∀ x, w1.chans[x]? = some true ↔ (w.chans[x]? = some true ∨ x ∈ r.closes w c))
      ∧ (∀ x, x ∈ r.closes w c → w.chans[x]? ≠ some true)
      ∧ (r.closes w c).Nodup := by
  obtain ⟨r1, w1, hcall, hwf1, _, _⟩ := Replicator.call_wf r w c hwf
  have hi := Replicator.init_wf r w hwf
  obtain ⟨hready, hcl, hg, _⟩ := Replicator.init_spec r w
  refine ⟨r1, w1, hcall, hwf1, ?_⟩
  cases c with
  | Join name addr =>
    have hcs : r.closes w (ReplicatorCall.Join name addr) = [] := rfl
    rw [hcs]
    refine ⟨?_, fun x hx => by simp at hx, List.nodup_nil⟩
    have hinit : r.Join w name addr = Go.ret ((r.init w).1, (r.init w).2, none) →
        ∀ x, w1.chans[x]? = some true ↔ (w.chans[x]? = some true ∨ x ∈ ([] : List Nat)) := by
      intro h' x
      have hc2 : r.Join w name addr = Go.ret (r1, w1, none) := hcall
      rw [h'] at hc2
      simp only [Go.ret.injEq, Prod.mk.injEq] at hc2
      rw [← hc2.2.1, Replicator.init_closed_iff]
      simp
    rcases Bool.eq_false_or_eq_true r.closed with hc | hc
    · exact hinit (Replicator.Join_closed r w name addr hc)
    · rcases Option.eq_none_or_eq_some (mapGet r.servers name) with ht | ⟨ch, ht⟩
      · obtain ⟨m, hj, _, _⟩ := Replicator.Join_untracked r w name addr hc ht
        intro x
        have hc2 : r.Join w name addr = Go.ret (r1, w1, none) := hcall
        rw [hj] at hc2
        simp only [Go.ret.injEq, Prod.mk.injEq] at hc2
        rw [← hc2.2.1]
        simp only []
        rw [getElem?_append_false_true, Replicator.init_closed_iff]
        simp
      · exact hinit (Replicator.Join_tracked r w name addr ch ht)
  | Leave name =>
    have hc2 : r.Leave w name = Go.ret (r1, w1, none) := hcall
    rcases Option.eq_none_or_eq_some (mapGet r.servers name) with ht | ⟨ch, ht⟩
    · have hcs : r.closes w (ReplicatorCall.Leave name) = [] := by
        simp only [Replicator.closes, hg, ht]
      rw [hcs]
      refine ⟨?_, fun x hx => by simp at hx, List.nodup_nil⟩
      intro x
      rw [Replicator.Leave_untracked r w name ht] at hc2
      simp only [Go.ret.injEq, Prod.mk.injEq] at hc2
      rw [← hc2.2.1, Replicator.init_closed_iff]
      simp
    · have hcs : r.closes w (ReplicatorCall.Leave name) = [ch] := by
        simp only [Replicator.closes, hg, ht]
      rw [hcs]
      have hti : mapGet (r.init w).1.servers name = some ch := by rw [hg]; exact ht
      have hopen := hi.1 name ch hti
      rw [Replicator.Leave_tracked r w name ch ht hopen] at hc2
      simp only [Go.ret.injEq, Prod.mk.injEq] at hc2
      refine ⟨?_, ?_, List.nodup_singleton ch⟩
      · intro x
        rw [← hc2.2.1]
        simp only []
        rw [getElem?_set_true _ _ _ (lt_of_getElem?_eq_some hopen), Replicator.init_closed_iff]
        simp
      · intro x hx
        have hxc : x = ch := by simpa using hx
        subst hxc
        intro hx1
        rw [← Replicator.init_closed_iff r w x, hopen] at hx1
        simp at hx1
  | Close =>
    have hc2 : r.Close w = Go.ret (r1, w1, none) := hcall
    rcases Bool.eq_false_or_eq_true r.closed with hc | hc
    · have hcs : r.closes w ReplicatorCall.Close = [] := by
        simp only [Replicator.closes, hcl, hc, if_true]
      rw [hcs]
      refine ⟨?_, fun x hx => by simp at hx, List.nodup_nil⟩
      intro x
      rw [Replicator.Close_closed r w hc] at hc2
      simp only [Go.ret.injEq, Prod.mk.injEq] at hc2
      rw [← hc2.2.1, Replicator.init_closed_iff]
      simp
    · obtain ⟨c, q1, q2, _, q4, _⟩ := Replicator.Close_open r r1 w w1 none hc hc2
      have hcs : r.closes w ReplicatorCall.Close = [c] := by
        simp only [Replicator.closes, hcl, hc, Bool.false_eq_true, if_false, q1]
      rw [hcs]
      refine ⟨?_, ?_, List.nodup_singleton c⟩
      · intro x
        rw [q4]
        simp only []
        rw [getElem?_set_true _ _ _ (lt_of_getElem?_eq_some q2), Replicator.init_closed_iff]
        simp
      · intro x hx
        have hxc : x = c := by simpa using hx
        subst hxc
        intro hx1
        rw [← Replicator.init_closed_iff r w x, q2] at hx1
        simp at hx1

/-- A run of calls from a state that satisfies `wf` returns; no channel is handed to
`close` twice, none of them was closed before the run, and the channels that are closed
after the run are those that were closed before and those handed to `close`. -/
theorem Replicator.closeTrace_nodup (cs : List ReplicatorCall) :
    ∀ (r : Replicator) (w : Runtime), r.wf w →
      ∃ r1 w1, r.run w cs = Go.ret (r1, w1)
        ∧ (r.closeTrace w cs).Nodup
        ∧ (∀ x, x ∈ r.closeTrace w cs → w.chans[x]? ≠ some true)
        ∧ (∀ x, w1.chans[x]? = some true ↔ (w.chans[x]? = some true ∨ x ∈ r.closeTrace w cs)) := by
  induction cs with
  | nil =>
    intro r w _
    exact ⟨r, w, rfl, List.nodup_nil, fun x hx => by simp [Replicator.closeTrace] at hx,
      fun x => by simp [Replicator.closeTrace]⟩
  | cons c cs ih =>
    intro r w hwf
    obtain ⟨r1, w1, hcall, hwf1, h1, h2, h3⟩ := Replicator.call_closes r w c hwf
    obtain ⟨r2, w2, hrun, g1, g2, g3⟩ := ih r1 w1 hwf1
    have htr : r.closeTrace w (c :: cs) = r.closes w c ++ r1.closeTrace w1 cs := by
      simp only [Replicator.closeTrace, hcall]
    have hr : r.run w (c :: cs) = Go.ret (r2, w2) := by
      simp only [Replicator.run, hcall]
      exact hrun
    rw [htr]
    refine ⟨r2, w2, hr, ?_, ?_, ?_⟩
    · refine List.Nodup.append h3 g1 ?_
      intro x hx1 hx2
      exact g2 x hx2 ((h1 x).2 (Or.inr hx1))
    · intro x hx
      rcases List.mem_append.1 hx with hx | hx
      · exact h2 x hx
      · intro hxc
        exact g2 x hx ((h1 x).2 (Or.inl hxc))
    · intro x
      rw [g3 x, h1 x, List.mem_append]
      tauto

/-- C23. The replicator never closes a channel twice: after every finite sequence `cs` of
`Join`, `Leave` and `Close` calls on a zero-value Replicator (any order, any names,
repeated `Leave` of one name and repeated `Close` included), which returns, the next call
`c`, whichever it is, returns nil without a panic; over the whole sequence `cs` followed by
`c` no channel (per-peer cancel channel or the global close channel) is handed to `close`
twice, none of them was closed before, and the channels closed at the end are exactly those
closed at the start and those handed to `close`. -/
theorem replicator_never_closes_twice (w0 : Runtime) (cs : List ReplicatorCall)
    (c : ReplicatorCall) :
    ∃ r w, Replicator.zero.run w0 cs = Go.ret (r, w)
      ∧ (∃ r1 w1, r.call w c = Go.ret (r1, w1, none))
      ∧ (Replicator.zero.closeTrace w0 (cs ++ [c])).Nodup
      ∧ (∀ x, x ∈ Replicator.zero.closeTrace w0 (cs ++ [c]) → w0.chans[x]? ≠ some true)
      ∧ ∃ r2 w2, Replicator.zero.run w0 (cs ++ [c]) = Go.ret (r2, w2)
        ∧ ∀ x, w2.chans[x]? = some true
            ↔ (w0.chans[x]? = some true ∨ x ∈ Replicator.zero.closeTrace w0 (cs ++ [c])) := by
  obtain ⟨r, w, hrun, hwf, _, _⟩ := Replicator.run_wf cs Replicator.zero w0
    (Replicator.zero_wf w0)
  obtain ⟨r1, w1, hcall, _, _, _⟩ := Replicator.call_wf r w c hwf
  obtain ⟨r2, w2, hrun2, g1, g2, g3⟩ := Replicator.closeTrace_nodup (cs ++ [c])
    Replicator.zero w0 (Replicator.zero_wf w0)
  exact ⟨r, w, hrun, ⟨r1, w1, hcall⟩, g1, g2, r2, w2, hrun2, g3⟩

end DclStore
